import Mathlib

/-!
# Board-state core of the chess engine

A shallow embedding of `src/Board.cpp` and `src/MoveGenerator.cpp`.

* A `bitboard` is a `uint64_t`; it is embedded as a natural number and every
  operation that can leave the 64-bit range reduces modulo `2 ^ 64`.
* The board is mutated in place by the C++ code; here every mutator takes the
  board and returns the new one.  A mutator that can trip an `assert`, index a
  bitboard array with `NONE`, or pop an empty vector returns `Option Board`,
  with `none` standing for the fault.
* The vectors used as stacks (`moves`, `captured_pieces`,
  `previous_can_castle_stacks`) are lists whose head is the back of the vector.
* `Move.hpp` and `globals.hpp` are not part of the sources at hand; what the
  code uses from them is modelled from the specification and marked as such.
-/

namespace Chess

/-! ## Types and constants of `globals.hpp` and `Move.hpp` -/

/-- Modelled from the spec: the type `bitboard` of the sources (`uint64_t`), one bit per
square; bit 0 is h1 (`0x1`), bit 7 is a1 (`0x80`), bit 63 is a8. -/
abbrev bitboard := Nat

/-- Modelled from the spec: the enumeration `Color` of `globals.hpp`, {White, Black}. -/
inductive Color where
  | WHITE
  | BLACK
  deriving DecidableEq, Repr, Fintype

/-- Modelled from the spec: the enumeration `Piece` of `globals.hpp`, the six piece kinds
in array order followed by `NONE` (index 6), the answer of piece-at for an empty square. -/
inductive Piece where
  | PAWN
  | KNIGHT
  | BISHOP
  | ROOK
  | QUEEN
  | KING
  | NONE
  deriving DecidableEq, Repr, Fintype

/-- Modelled from the spec: the enumeration `Direction` of `globals.hpp`, the eight ray
directions named in `Board::move_direction`. -/
inductive Direction where
  | NORTH
  | EAST
  | SOUTH
  | WEST
  | NORTHEAST
  | NORTHWEST
  | SOUTHEAST
  | SOUTHWEST
  deriving DecidableEq, Repr, Fintype

/-- Modelled from the spec: the class `Move` of `Move.hpp`, "origin: Square, destination:
Square, flag: 4-bit value"; `get_origin`, `get_destination` and `get_flags` are the
three fields. -/
structure Move where
  origin : bitboard
  destination : bitboard
  flags : Nat
  deriving DecidableEq, Repr

/-- Modelled from the spec: `Move::is_double_pawn_push` of `Move.hpp`, flag 1 of the flag
table. -/
def Move.is_double_pawn_push (m : Move) : Bool := m.flags == 1

/-- Modelled from the spec: `negate_color` of `globals.hpp`, the opposite colour. -/
def negate_color : Color → Color
  | Color.WHITE => Color.BLACK
  | Color.BLACK => Color.WHITE

/-- The range of a `uint64_t`. -/
def two64 : Nat := 2 ^ 64

/-- The C++ operator `~` on a `uint64_t`. -/
def bnot64 (x : bitboard) : bitboard := (two64 - 1) ^^^ (x % two64)

/-- Modelled from the spec: file H (bits 0, 8, .., 56), the eastern edge of the board. -/
def FILE_H : bitboard := 0x0101010101010101

/-- Modelled from the spec: file A (bits 7, 15, .., 63), the western edge of the board. -/
def FILE_A : bitboard := 0x8080808080808080

/-- Modelled from the spec: rank 1 of `globals.hpp`. -/
def RANK_1 : bitboard := 0xFF

/-- Modelled from the spec: rank 8 of `globals.hpp`. -/
def RANK_8 : bitboard := 0xFF00000000000000

/-- Modelled from the spec: the step function `north` of `globals.hpp`: one rank up; "a step
that would leave the board returns no square (zero)". -/
def north (position : bitboard) : bitboard := (position <<< 8) % two64

/-- Modelled from the spec: the step function `south` of `globals.hpp`: one rank down. -/
def south (position : bitboard) : bitboard := position >>> 8

/-- Modelled from the spec: the step function `east` of `globals.hpp`: one file towards
file H; "east/west steps must not wrap across file boundaries". -/
def east (position : bitboard) : bitboard := (position &&& bnot64 FILE_H) >>> 1

/-- Modelled from the spec: the step function `west` of `globals.hpp`: one file towards
file A, without wrapping. -/
def west (position : bitboard) : bitboard := ((position &&& bnot64 FILE_A) <<< 1) % two64

/-- Modelled from the spec: the start squares of `globals.hpp` ("White king on 0x8, White
rooks on 0x81, Black mirrored on rank 8, pawns on ranks 2 and 7"). -/
def starting_white_pawn_position : bitboard := 0xFF00

/-- Modelled from the spec: White knights on b1 and g1. -/
def starting_white_knight_position : bitboard := 0x42

/-- Modelled from the spec: White bishops on c1 and f1. -/
def starting_white_bishop_position : bitboard := 0x24

/-- Modelled from the spec: White rooks on a1 and h1. -/
def starting_white_rook_position : bitboard := 0x81

/-- Modelled from the spec: White queen on d1. -/
def starting_white_queen_position : bitboard := 0x10

/-- Modelled from the spec: White king on e1. -/
def starting_white_king_position : bitboard := 0x8

/-- Modelled from the spec: Black pawns on rank 7. -/
def starting_black_pawn_position : bitboard := 0xFF000000000000

/-- Modelled from the spec: Black knights on b8 and g8. -/
def starting_black_knight_position : bitboard := 0x4200000000000000

/-- Modelled from the spec: Black bishops on c8 and f8. -/
def starting_black_bishop_position : bitboard := 0x2400000000000000

/-- Modelled from the spec: Black rooks on a8 and h8. -/
def starting_black_rook_position : bitboard := 0x8100000000000000

/-- Modelled from the spec: Black queen on d8. -/
def starting_black_queen_position : bitboard := 0x1000000000000000

/-- Modelled from the spec: Black king on e8. -/
def starting_black_king_position : bitboard := 0x800000000000000

/-- A square: a one-hot 64-bit mask. -/
def is_square (x : bitboard) : Prop := ∃ i, i < 64 ∧ x = 2 ^ i

instance (x : bitboard) : Decidable (is_square x) :=
  inferInstanceAs (Decidable (∃ i, i < 64 ∧ x = 2 ^ i))

/-! ## The state of `Board` -/

/-- One row `std::array<bitboard, 6>` of `piece_bitboards`, indexed by piece kind. -/
structure PieceArray where
  pawn : bitboard
  knight : bitboard
  bishop : bitboard
  rook : bitboard
  queen : bitboard
  king : bitboard
  deriving DecidableEq, Repr

/-- Read `a[piece]`; the index `NONE` is out of range and reads as zero. -/
def PieceArray.get (a : PieceArray) : Piece → bitboard
  | Piece.PAWN => a.pawn
  | Piece.KNIGHT => a.knight
  | Piece.BISHOP => a.bishop
  | Piece.ROOK => a.rook
  | Piece.QUEEN => a.queen
  | Piece.KING => a.king
  | Piece.NONE => 0

/-- Write `a[piece] = v`; callers rule out the index `NONE` first. -/
def PieceArray.set (a : PieceArray) (piece : Piece) (v : bitboard) : PieceArray :=
  match piece with
  | Piece.PAWN => { a with pawn := v }
  | Piece.KNIGHT => { a with knight := v }
  | Piece.BISHOP => { a with bishop := v }
  | Piece.ROOK => { a with rook := v }
  | Piece.QUEEN => { a with queen := v }
  | Piece.KING => { a with king := v }
  | Piece.NONE => a

/-- A two-element array indexed by colour. -/
structure PerColor (α : Type) where
  white : α
  black : α
  deriving DecidableEq, Repr

/-- Read the entry of a colour. -/
def PerColor.get {α : Type} (p : PerColor α) : Color → α
  | Color.WHITE => p.white
  | Color.BLACK => p.black

/-- Write the entry of a colour. -/
def PerColor.set {α : Type} (p : PerColor α) (c : Color) (v : α) : PerColor α :=
  match c with
  | Color.WHITE => { p with white := v }
  | Color.BLACK => { p with black := v }

/-- Castling rights of one colour, `can_castle[color]`: index 0 is the king side, index 1
the queen side. -/
structure CastleRights where
  king_side : Bool
  queen_side : Bool
  deriving DecidableEq, Repr

/-- The data members of `Board` that `Board.cpp` reads and writes. -/
structure Board where
  piece_bitboards : PerColor PieceArray
  turn_color : Color
  can_castle : PerColor CastleRights
  previous_can_castle_stacks : PerColor (List CastleRights)
  captured_pieces : PerColor (List Piece)
  moves : PerColor (List Move)
  deriving DecidableEq, Repr

/-- The inline getter `Board::get_piece_positions`. -/
def get_piece_positions (b : Board) (piece : Piece) (color : Color) : bitboard :=
  (b.piece_bitboards.get color).get piece

/-- The assignment `piece_bitboards[color][piece] = v`. -/
def Board.set_bitboard (b : Board) (color : Color) (piece : Piece) (v : bitboard) : Board :=
  { b with piece_bitboards :=
      b.piece_bitboards.set color ((b.piece_bitboards.get color).set piece v) }

/-- The function `Board::get_all_piece_positions`: the union of the six bitboards of a colour. -/
def get_all_piece_positions (b : Board) (color : Color) : bitboard :=
  [Piece.PAWN, Piece.KNIGHT, Piece.BISHOP, Piece.ROOK, Piece.QUEEN, Piece.KING].foldl
    (fun result piece => result ||| get_piece_positions b piece color) 0

/-- The function `Board::get_piece_at_position`: the first kind, in array order, whose
bitboard meets `position`. -/
def get_piece_at_position (b : Board) (position : bitboard) (color : Color) : Piece :=
  if get_piece_positions b Piece.PAWN color &&& position ≠ 0 then Piece.PAWN
  else if get_piece_positions b Piece.KNIGHT color &&& position ≠ 0 then Piece.KNIGHT
  else if get_piece_positions b Piece.BISHOP color &&& position ≠ 0 then Piece.BISHOP
  else if get_piece_positions b Piece.ROOK color &&& position ≠ 0 then Piece.ROOK
  else if get_piece_positions b Piece.QUEEN color &&& position ≠ 0 then Piece.QUEEN
  else if get_piece_positions b Piece.KING color &&& position ≠ 0 then Piece.KING
  else Piece.NONE

/-- The function `Board::is_moves_empty`. -/
def is_moves_empty (b : Board) (color : Color) : Bool := (b.moves.get color).isEmpty

/-- The function `Board::get_last_move`: asserts a non-empty history. -/
def get_last_move (b : Board) (color : Color) : Option Move := (b.moves.get color).head?

/-- The function `Board::get_can_castle_queen`. -/
def get_can_castle_queen (b : Board) (color : Color) : Bool := (b.can_castle.get color).queen_side

/-- The function `Board::get_can_castle_king`. -/
def get_can_castle_king (b : Board) (color : Color) : Bool := (b.can_castle.get color).king_side

/-- The function `Board::set_can_castle_queen`. -/
def set_can_castle_queen (b : Board) (color : Color) (v : Bool) : Board :=
  { b with can_castle := b.can_castle.set color { b.can_castle.get color with queen_side := v } }

/-- The function `Board::set_can_castle_king`. -/
def set_can_castle_king (b : Board) (color : Color) (v : Bool) : Board :=
  { b with can_castle := b.can_castle.set color { b.can_castle.get color with king_side := v } }

/-- The function `Board::set_turn_color`. -/
def set_turn_color (b : Board) (new_turn_color : Color) : Board :=
  { b with turn_color := new_turn_color }

/-! ## Lookup tables

`Board.cpp` addresses its lookup tables by the one-hot mask itself.  Each table is the
function its initialiser fills in; a key the initialiser never wrote reads as zero. -/

/-- The table filled by `initialize_single_pawn_pushes_lookups`. -/
def pawn_single_pushes_lookups (color : Color) (position : bitboard) : bitboard :=
  if is_square position then
    match color with
    | Color.WHITE => north position
    | Color.BLACK => south position
  else 0

/-- The table filled by `initialize_double_pawn_pushes_lookups`: keys `0x100 .. 0x8000`
for White and `0x1000000000000 .. 0x80000000000000` for Black. -/
def pawn_double_pushes_lookups (color : Color) (position : bitboard) : bitboard :=
  match color with
  | Color.WHITE =>
    if is_square position ∧ 0x100 ≤ position ∧ position ≤ 0x8000 then north (north position)
    else 0
  | Color.BLACK =>
    if is_square position ∧ 0x1000000000000 ≤ position ∧ position ≤ 0x80000000000000 then
      south (south position)
    else 0

/-- The table filled by `initialize_pawn_attacks_lookups`. -/
def pawn_attacks_lookups (color : Color) (position : bitboard) : bitboard :=
  if is_square position then
    match color with
    | Color.WHITE => east (north position) ||| west (north position)
    | Color.BLACK => east (south position) ||| west (south position)
  else 0

/-- The table filled by `initialize_knight_moves_lookup`. -/
def knight_moves_lookup (position : bitboard) : bitboard :=
  if is_square position then
    east (north (north position)) ||| west (north (north position)) |||
    east (south (south position)) ||| west (south (south position)) |||
    north (east (east position)) ||| north (west (west position)) |||
    south (east (east position)) ||| south (west (west position))
  else 0

/-- The table filled by `initialize_king_moves_lookup`. -/
def king_moves_lookup (position : bitboard) : bitboard :=
  if is_square position then
    north position ||| east position ||| south position ||| west position |||
    east (north position) ||| west (north position) |||
    east (south position) ||| west (south position)
  else 0

/-- The table filled by `initialize_castle_rook_origin_lookup`, keyed by king destination. -/
def castle_rook_origin_lookup (king_destination : bitboard) : bitboard :=
  if king_destination = 0x200000000000000 then 0x100000000000000
  else if king_destination = 0x2000000000000000 then 0x8000000000000000
  else if king_destination = 0x2 then 0x1
  else if king_destination = 0x20 then 0x80
  else 0

/-- The table filled by `initialize_castle_rook_destination_lookup`. -/
def castle_rook_destination_lookup (king_destination : bitboard) : bitboard :=
  if king_destination = 0x200000000000000 then 0x400000000000000
  else if king_destination = 0x2000000000000000 then 0x1000000000000000
  else if king_destination = 0x2 then 0x4
  else if king_destination = 0x20 then 0x10
  else 0

/-- The function `Board::get_pawn_single_push`. -/
def get_pawn_single_push (position : bitboard) (color : Color) : bitboard :=
  pawn_single_pushes_lookups color position

/-- The function `Board::get_pawn_double_push`. -/
def get_pawn_double_push (position : bitboard) (color : Color) : bitboard :=
  pawn_double_pushes_lookups color position

/-- The function `Board::get_pawn_attacks`. -/
def get_pawn_attacks (position : bitboard) (color : Color) : bitboard :=
  pawn_attacks_lookups color position

/-- The function `Board::get_knight_attacks`. -/
def get_knight_attacks (position : bitboard) : bitboard := knight_moves_lookup position

/-- The function `Board::get_king_attacks`. -/
def get_king_attacks (position : bitboard) : bitboard := king_moves_lookup position

/-! ## Sliding attacks and the attack test -/

/-- The function `Board::move_direction`. -/
def move_direction (position : bitboard) (direction : Direction) : bitboard :=
  match direction with
  | Direction.NORTH => north position
  | Direction.EAST => east position
  | Direction.SOUTH => south position
  | Direction.WEST => west position
  | Direction.NORTHEAST => north (east position)
  | Direction.NORTHWEST => north (west position)
  | Direction.SOUTHEAST => south (east position)
  | Direction.SOUTHWEST => south (west position)

/-- The `while` loop of `Board::get_sliding_attacks`, one iteration per unit of fuel; `none`
when the fuel runs out before the loop exits. -/
def sliding_loop (other_pieces : bitboard) (direction : Direction) :
    Nat → bitboard → bitboard → Option bitboard
  | 0, _, _ => none
  | fuel + 1, position, result =>
    if position &&& other_pieces = 0 then
      if move_direction position direction = 0 then some result
      else sliding_loop other_pieces direction fuel (move_direction position direction)
        (result ||| move_direction position direction)
    else some result

/-- The function `Board::get_sliding_attacks`: `none` when the assertion that White and Black
occupy no common square fails. -/
def get_sliding_attacks (b : Board) (position : bitboard) (direction : Direction) :
    Option bitboard :=
  if get_all_piece_positions b Color.WHITE &&& get_all_piece_positions b Color.BLACK ≠ 0 then
    none
  else
    sliding_loop
      ((get_all_piece_positions b Color.WHITE ||| get_all_piece_positions b Color.BLACK)
        &&& bnot64 position)
      direction 64 position 0

/-- The function `Board::get_bishop_attacks`. -/
def get_bishop_attacks (b : Board) (position : bitboard) : Option bitboard := do
  let ne ← get_sliding_attacks b position Direction.NORTHEAST
  let nw ← get_sliding_attacks b position Direction.NORTHWEST
  let se ← get_sliding_attacks b position Direction.SOUTHEAST
  let sw ← get_sliding_attacks b position Direction.SOUTHWEST
  pure (ne ||| nw ||| se ||| sw)

/-- The function `Board::get_rook_attacks`. -/
def get_rook_attacks (b : Board) (position : bitboard) : Option bitboard := do
  let n ← get_sliding_attacks b position Direction.NORTH
  let e ← get_sliding_attacks b position Direction.EAST
  let s ← get_sliding_attacks b position Direction.SOUTH
  let w ← get_sliding_attacks b position Direction.WEST
  pure (n ||| e ||| s ||| w)

/-- The function `Board::get_queen_attacks`. -/
def get_queen_attacks (b : Board) (position : bitboard) : Option bitboard := do
  let diag ← get_bishop_attacks b position
  let orth ← get_rook_attacks b position
  pure (diag ||| orth)

/-- The function `Board::get_piece_attacks`: asserts `piece != NONE`. -/
def get_piece_attacks (b : Board) (piece : Piece) (position : bitboard) (color : Color) :
    Option bitboard :=
  match piece with
  | Piece.PAWN => some (get_pawn_attacks position color)
  | Piece.KNIGHT => some (get_knight_attacks position)
  | Piece.BISHOP => get_bishop_attacks b position
  | Piece.ROOK => get_rook_attacks b position
  | Piece.QUEEN => get_queen_attacks b position
  | Piece.KING => some (get_king_attacks position)
  | Piece.NONE => none

/-- The array `piece_array` that the loops of `Board.cpp` walk through. -/
def piece_array : List Piece :=
  [Piece.PAWN, Piece.KNIGHT, Piece.BISHOP, Piece.ROOK, Piece.QUEEN, Piece.KING]

/-- The loop of `Board::is_position_attacked_by` over the remaining piece kinds. -/
def attacked_loop (b : Board) (position : bitboard) (color : Color) : List Piece → Option Bool
  | [] => some false
  | piece :: rest =>
    match get_piece_attacks b piece position (negate_color color) with
    | none => none
    | some attacks =>
      if attacks &&& get_piece_positions b piece color ≠ 0 then some true
      else attacked_loop b position color rest

/-- The function `Board::is_position_attacked_by`. -/
def is_position_attacked_by (b : Board) (position : bitboard) (color : Color) : Option Bool :=
  attacked_loop b position color piece_array

/-- The function `Board::is_checked`. -/
def is_checked (b : Board) (color : Color) : Option Bool :=
  is_position_attacked_by b (get_piece_positions b Piece.KING color) (negate_color color)

/-! ## Applying and undoing a move -/

/-- The function `Board::move_piece`; indexing the bitboards with `NONE` is a fault. -/
def move_piece (b : Board) (piece : Piece) (color : Color) (origin destination : bitboard) :
    Option Board :=
  if piece = Piece.NONE then none
  else some (b.set_bitboard color piece (get_piece_positions b piece color ^^^ (origin ||| destination)))

/-- The function `Board::set_piece`: asserts that the bit is clear. -/
def set_piece (b : Board) (piece : Piece) (color : Color) (position : bitboard) : Option Board :=
  if piece = Piece.NONE then none
  else if get_piece_positions b piece color &&& position ≠ 0 then none
  else some (b.set_bitboard color piece (get_piece_positions b piece color ||| position))

/-- The function `Board::remove_piece`: asserts that the bit is set. -/
def remove_piece (b : Board) (piece : Piece) (color : Color) (position : bitboard) :
    Option Board :=
  if piece = Piece.NONE then none
  else if get_piece_positions b piece color &&& position = 0 then none
  else some (b.set_bitboard color piece (get_piece_positions b piece color &&& bnot64 position))

/-- The function `Board::execute_castle_move`. -/
def execute_castle_move (b : Board) (king_origin king_destination : bitboard) : Option Board := do
  let rook_origin := castle_rook_origin_lookup king_destination
  let rook_destination := castle_rook_destination_lookup king_destination
  let b1 ← move_piece b Piece.KING b.turn_color king_origin king_destination
  move_piece b1 Piece.ROOK b1.turn_color rook_origin rook_destination

/-- The function `Board::get_promotion_piece_from_flags`. -/
def get_promotion_piece_from_flags (flags : Nat) : Piece :=
  if flags = 8 then Piece.KNIGHT
  else if flags = 9 then Piece.BISHOP
  else if flags = 10 then Piece.ROOK
  else if flags = 11 then Piece.QUEEN
  else if flags = 12 then Piece.KNIGHT
  else if flags = 13 then Piece.BISHOP
  else if flags = 14 then Piece.ROOK
  else if flags = 15 then Piece.QUEEN
  else Piece.NONE

/-- The statement `previous_can_castle_stacks[color].push_back(rights)`. -/
def Board.push_rights (b : Board) (color : Color) (rights : CastleRights) : Board :=
  { b with previous_can_castle_stacks :=
      b.previous_can_castle_stacks.set color (rights :: b.previous_can_castle_stacks.get color) }

/-- The statement `captured_pieces[color].push_back(piece)`. -/
def Board.push_captured (b : Board) (color : Color) (piece : Piece) : Board :=
  { b with captured_pieces := b.captured_pieces.set color (piece :: b.captured_pieces.get color) }

/-- The statements `captured_pieces[color].back()` and `pop_back()`, after the assertion that
the vector is not empty. -/
def Board.pop_captured (b : Board) (color : Color) : Option (Piece × Board) :=
  match b.captured_pieces.get color with
  | [] => none
  | piece :: rest => some (piece, { b with captured_pieces := b.captured_pieces.set color rest })

/-- The statement `moves[color].push_back(move)`. -/
def Board.push_move (b : Board) (color : Color) (move : Move) : Board :=
  { b with moves := b.moves.set color (move :: b.moves.get color) }

/-- The statement `moves[color].pop_back()`; popping an empty vector is a fault. -/
def Board.pop_move (b : Board) (color : Color) : Option Board :=
  match b.moves.get color with
  | [] => none
  | _ :: rest => some { b with moves := b.moves.set color rest }

/-- The function `Board::update_castle_rights`. -/
def update_castle_rights (b : Board) (move : Move) (moving_piece : Piece) : Board :=
  let origin := move.origin
  let b1 := b.push_rights b.turn_color (b.can_castle.get b.turn_color)
  if moving_piece = Piece.KING then
    set_can_castle_queen (set_can_castle_king b1 b1.turn_color false) b1.turn_color false
  else if moving_piece = Piece.ROOK then
    if (b1.turn_color = Color.WHITE ∧ origin = 0x80) ∨
        (b1.turn_color = Color.BLACK ∧ origin = 0x8000000000000000) then
      set_can_castle_queen b1 b1.turn_color false
    else if (b1.turn_color = Color.WHITE ∧ origin = 1) ∨
        (b1.turn_color = Color.BLACK ∧ origin = 0x100000000000000) then
      set_can_castle_king b1 b1.turn_color false
    else b1
  else b1

/-- The function `Board::revert_castle_rights`: the snapshot is read from and popped off the
stack of `turn_color` and stored as the rights of `color`; an empty stack is a fault. -/
def revert_castle_rights (b : Board) (color : Color) : Option Board :=
  match b.previous_can_castle_stacks.get b.turn_color with
  | [] => none
  | rights :: rest =>
    some { b with
      can_castle := b.can_castle.set color rights
      previous_can_castle_stacks := b.previous_can_castle_stacks.set b.turn_color rest }

/-- The function `Board::execute_move(Move&)`. -/
def execute_move (b : Board) (move : Move) : Option Board :=
  let move_flags := move.flags
  if move_flags = 6 ∨ move_flags = 7 then none
  else
    let origin := move.origin
    let destination := move.destination
    let moving_piece := get_piece_at_position b origin b.turn_color
    let b1 := update_castle_rights b move moving_piece
    let dispatched : Option Board :=
      if move_flags = 0 ∨ move_flags = 1 then
        move_piece b1 moving_piece b1.turn_color origin destination
      else if move_flags = 2 ∨ move_flags = 3 then
        execute_castle_move b1 origin destination
      else if move_flags = 4 then
        let captured_piece := get_piece_at_position b1 destination (negate_color b1.turn_color)
        if captured_piece = Piece.NONE then none
        else do
          let b2 ← move_piece b1 moving_piece b1.turn_color origin destination
          let b3 ← remove_piece b2 captured_piece (negate_color b2.turn_color) destination
          pure (b3.push_captured b3.turn_color captured_piece)
      else if move_flags = 5 then
        let capture_square :=
          if b1.turn_color = Color.WHITE then south destination else north destination
        let captured_piece := get_piece_at_position b1 capture_square (negate_color b1.turn_color)
        let b2 := b1.push_captured b1.turn_color captured_piece
        do
          let b3 ← move_piece b2 moving_piece b2.turn_color origin destination
          remove_piece b3 captured_piece (negate_color b3.turn_color) capture_square
      else
        let promotion_piece := get_promotion_piece_from_flags move_flags
        do
          let b2 ← remove_piece b1 moving_piece b1.turn_color origin
          let b3 ← set_piece b2 promotion_piece b2.turn_color destination
          if 12 ≤ move_flags ∧ move_flags ≤ 15 then
            let captured_piece :=
              get_piece_at_position b3 destination (negate_color b3.turn_color)
            let b4 ← remove_piece b3 captured_piece (negate_color b3.turn_color) destination
            pure (b4.push_captured b4.turn_color captured_piece)
          else pure b3
    dispatched.bind fun b5 =>
      some (set_turn_color (b5.push_move b5.turn_color move) (negate_color b5.turn_color))

/-- The function `Board::undo_move`. -/
def undo_move (b : Board) (move : Move) : Option Board :=
  let b0 := set_turn_color b (negate_color b.turn_color)
  let move_flags := move.flags
  if move_flags = 6 ∨ move_flags = 7 then none
  else
    let origin := move.origin
    let destination := move.destination
    let moved_piece := get_piece_at_position b0 destination b0.turn_color
    (revert_castle_rights b0 b0.turn_color).bind fun b1 =>
    let dispatched : Option Board :=
      if move_flags = 0 ∨ move_flags = 1 then
        move_piece b1 moved_piece b1.turn_color destination origin
      else if move_flags = 2 ∨ move_flags = 3 then
        execute_castle_move b1 origin destination
      else if move_flags = 4 then do
        let (captured_piece, b2) ← b1.pop_captured b1.turn_color
        let b3 ← move_piece b2 moved_piece b2.turn_color destination origin
        set_piece b3 captured_piece (negate_color b3.turn_color) destination
      else if move_flags = 5 then
        let capture_square :=
          if b1.turn_color = Color.WHITE then south destination else north destination
        do
          let (captured_piece, b2) ← b1.pop_captured b1.turn_color
          let b3 ← move_piece b2 moved_piece b2.turn_color destination origin
          set_piece b3 captured_piece (negate_color b3.turn_color) capture_square
      else
        let promotion_piece := get_promotion_piece_from_flags move_flags
        do
          let b2 ← set_piece b1 Piece.PAWN b1.turn_color origin
          let b3 ← remove_piece b2 promotion_piece b2.turn_color destination
          if 12 ≤ move_flags ∧ move_flags ≤ 15 then
            let (captured_piece, b4) ← b3.pop_captured b3.turn_color
            set_piece b4 captured_piece (negate_color b4.turn_color) destination
          else pure b3
    dispatched.bind fun b5 => b5.pop_move b5.turn_color

/-- The function `Board::is_move_legal`: the verdict together with the board it leaves. -/
def is_move_legal (b : Board) (move : Move) (color : Color) : Option (Bool × Board) := do
  let b1 ← execute_move b move
  let checked ← is_checked b1 color
  let b2 ← undo_move b1 move
  pure (!checked, b2)

/-- The constructor `Board::Board` followed by `initialize_board_starting_position`. -/
def starting_board : Board :=
  { piece_bitboards :=
      { white :=
          { pawn := starting_white_pawn_position
            knight := starting_white_knight_position
            bishop := starting_white_bishop_position
            rook := starting_white_rook_position
            queen := starting_white_queen_position
            king := starting_white_king_position }
        black :=
          { pawn := starting_black_pawn_position
            knight := starting_black_knight_position
            bishop := starting_black_bishop_position
            rook := starting_black_rook_position
            queen := starting_black_queen_position
            king := starting_black_king_position } }
    turn_color := Color.WHITE
    can_castle := { white := ⟨true, true⟩, black := ⟨true, true⟩ }
    previous_can_castle_stacks := { white := [], black := [] }
    captured_pieces := { white := [], black := [] }
    moves := { white := [], black := [] } }

/-! ## Move generation (`MoveGenerator.cpp`) -/

/-- The values taken by `mask` in the loops `for(bitboard mask = 1; mask > 0; mask <<= 1)`:
the 64 one-hot masks in increasing order. -/
def masks : List bitboard := (List.range 64).map fun i => 2 ^ i

/-- The function `MoveGenerator::add_moves`; `moves.push_back` appends at the end. -/
def add_moves (origin all_destinations : bitboard) (flag : Nat) (moves : List Move) :
    List Move :=
  masks.foldl
    (fun acc mask =>
      if all_destinations &&& mask ≠ 0 then acc ++ [Move.mk origin (all_destinations &&& mask) flag]
      else acc)
    moves

/-- The function `MoveGenerator::add_promotion_moves`. -/
def add_promotion_moves (origin all_destinations : bitboard) (capture : Bool)
    (moves : List Move) : List Move :=
  let start_flag := if capture then 12 else 8
  masks.foldl
    (fun acc mask =>
      if all_destinations &&& mask ≠ 0 then
        (acc ++ [Move.mk origin (all_destinations &&& mask) 0]) ++
          (List.range 4).map fun i => Move.mk origin (all_destinations &&& mask) (start_flag + i)
      else acc)
    moves

/-- The body of the loop of `MoveGenerator::add_pseudo_legal_pawn_moves` for one `mask`. -/
def pawn_moves_step (b : Board) (color : Color) (moves : List Move) (mask : bitboard) :
    Option (List Move) :=
  let promotion_file := if color = Color.WHITE then RANK_8 else RANK_1
  let moving_pawns := get_piece_positions b Piece.PAWN color
  let other_pieces := get_all_piece_positions b color
  let opposing_pieces := get_all_piece_positions b (negate_color color)
  let current_position := moving_pawns &&& mask
  if current_position ≠ 0 then
    let single_push_squares :=
      get_pawn_single_push current_position color &&& bnot64 opposing_pieces
        &&& bnot64 other_pieces
    let quiet_single_push_squares := single_push_squares &&& bnot64 promotion_file
    let moves1 := add_moves current_position quiet_single_push_squares 0 moves
    let promotion_push_squares := single_push_squares &&& promotion_file
    let moves2 := add_promotion_moves current_position promotion_push_squares false moves1
    let double_push_squares :=
      get_pawn_double_push current_position color &&& bnot64 opposing_pieces
        &&& bnot64 other_pieces
    let moves3 := add_moves current_position double_push_squares 1 moves2
    (get_piece_attacks b Piece.PAWN current_position color).bind fun attacks =>
      let capture_squares := attacks &&& opposing_pieces
      let normal_capture_squares := capture_squares &&& bnot64 promotion_file
      let moves4 := add_moves current_position normal_capture_squares 4 moves3
      let promotion_capture_squares := capture_squares &&& promotion_file
      some (add_promotion_moves current_position promotion_capture_squares true moves4)
  else some moves

/-- The function `MoveGenerator::add_pseudo_legal_pawn_moves`. -/
def add_pseudo_legal_pawn_moves (b : Board) (color : Color) (moves : List Move) :
    Option (List Move) :=
  masks.foldlM (pawn_moves_step b color) moves

/-- The body of the loop of `MoveGenerator::add_pseudo_legal_piece_moves` for one `mask`. -/
def piece_moves_step (b : Board) (color : Color) (piece : Piece) (moves : List Move)
    (mask : bitboard) : Option (List Move) :=
  let moving_pieces := get_piece_positions b piece color
  let other_pieces := get_all_piece_positions b color
  let opposing_pieces := get_all_piece_positions b (negate_color color)
  let current_position := moving_pieces &&& mask
  if current_position ≠ 0 then
    (get_piece_attacks b piece current_position color).bind fun attacks =>
      let destination_squares := attacks &&& bnot64 other_pieces
      let quiet_squares := destination_squares &&& bnot64 opposing_pieces
      let moves1 := add_moves current_position quiet_squares 0 moves
      some (add_moves current_position quiet_squares 4 moves1)
  else some moves

/-- The function `MoveGenerator::add_pseudo_legal_piece_moves`.  The local `capture_squares`
of the source is computed and never read. -/
def add_pseudo_legal_piece_moves (b : Board) (color : Color) (piece : Piece)
    (moves : List Move) : Option (List Move) :=
  masks.foldlM (piece_moves_step b color piece) moves

/-- The function `MoveGenerator::generate_pseudo_legal_moves`. -/
def generate_pseudo_legal_moves (b : Board) (color : Color) : Option (List Move) := do
  let m1 ← add_pseudo_legal_pawn_moves b color []
  let m2 ← add_pseudo_legal_piece_moves b color Piece.KNIGHT m1
  let m3 ← add_pseudo_legal_piece_moves b color Piece.BISHOP m2
  let m4 ← add_pseudo_legal_piece_moves b color Piece.ROOK m3
  let m5 ← add_pseudo_legal_piece_moves b color Piece.QUEEN m4
  add_pseudo_legal_piece_moves b color Piece.KING m5

/-- The function `MoveGenerator::add_pseudo_legal_en_passant_moves`. -/
def add_pseudo_legal_en_passant_moves (b : Board) (color : Color) (moves : List Move) :
    List Move :=
  let other_color := negate_color color
  if is_moves_empty b other_color then moves
  else
    match get_last_move b other_color with
    | none => moves
    | some last_move =>
      if !last_move.is_double_pawn_push then moves
      else
        let vulnerable_pawn := last_move.destination
        let attack_pawns :=
          get_piece_positions b Piece.PAWN color &&& (west vulnerable_pawn ||| east vulnerable_pawn)
        let destination_square :=
          if color = Color.WHITE then north vulnerable_pawn else south vulnerable_pawn
        masks.foldl
          (fun acc mask =>
            if attack_pawns &&& mask ≠ 0 then
              acc ++ [Move.mk (attack_pawns &&& mask) destination_square 5]
            else acc)
          moves

/-- The castle path constants of `globals.hpp` (`WHITE_KINGSIDE_CASTLE_PATH`,
`BLACK_KINGSIDE_CASTLE_PATH`, `WHITE_QUEENSIDE_CASTLE_PATH`, `BLACK_QUEENSIDE_CASTLE_PATH`).
Their values are not part of the sources at hand; the castle generators take them as a
parameter. -/
structure CastlePaths where
  white_kingside : bitboard
  black_kingside : bitboard
  white_queenside : bitboard
  black_queenside : bitboard
  deriving DecidableEq, Repr

/-- The loop of the castle generators over the squares of the path: `some true` when a square
of the path is attacked by the opponent of `color` (the generator then returns without a
move); the attack test is called only for masks that meet the path. -/
def castle_path_attacked (b : Board) (color : Color) (path : bitboard) :
    List bitboard → Option Bool
  | [] => some false
  | mask :: rest =>
    if path &&& mask ≠ 0 then
      match is_position_attacked_by b (path &&& mask) (negate_color color) with
      | none => none
      | some true => some true
      | some false => castle_path_attacked b color path rest
    else castle_path_attacked b color path rest

/-- The function `MoveGenerator::add_legal_kingside_castle_move`. -/
def add_legal_kingside_castle_move (paths : CastlePaths) (b : Board) (color : Color)
    (moves : List Move) : Option (List Move) :=
  if !get_can_castle_king b color then some moves
  else
    let king_position : bitboard := if color = Color.WHITE then 0x8 else 0x800000000000000
    let king_side_rook_position : bitboard :=
      if color = Color.WHITE then 0x1 else 0x100000000000000
    let king_side_castle_path :=
      if color = Color.WHITE then paths.white_kingside else paths.black_kingside
    let other_pieces :=
      get_all_piece_positions b color &&& bnot64 king_position &&& bnot64 king_side_rook_position
    if king_side_castle_path &&& other_pieces ≠ 0 then some moves
    else
      match castle_path_attacked b color king_side_castle_path masks with
      | none => none
      | some true => some moves
      | some false => some (moves ++ [Move.mk king_position king_side_rook_position 2])

/-- The function `MoveGenerator::add_legal_queenside_castle_move`. -/
def add_legal_queenside_castle_move (paths : CastlePaths) (b : Board) (color : Color)
    (moves : List Move) : Option (List Move) :=
  if !get_can_castle_queen b color then some moves
  else
    let king_position : bitboard := if color = Color.WHITE then 0x8 else 0x800000000000000
    let queen_side_rook_position : bitboard :=
      if color = Color.WHITE then 0x80 else 0x8000000000000000
    let queen_side_castle_path :=
      if color = Color.WHITE then paths.white_queenside else paths.black_queenside
    let other_pieces :=
      get_all_piece_positions b color &&& bnot64 king_position &&& bnot64 queen_side_rook_position
    if queen_side_castle_path &&& other_pieces ≠ 0 then some moves
    else
      match castle_path_attacked b color queen_side_castle_path masks with
      | none => none
      | some true => some moves
      | some false => some (moves ++ [Move.mk king_position queen_side_rook_position 2])

/-- The function `MoveGenerator::add_legal_castle_moves`. -/
def add_legal_castle_moves (paths : CastlePaths) (b : Board) (color : Color)
    (moves : List Move) : Option (List Move) :=
  (add_legal_kingside_castle_move paths b color moves).bind fun moves1 =>
    add_legal_queenside_castle_move paths b color moves1

/-! ## Construction and position import (`Board.cpp`) -/

/-- An array of six empty bitboards, `fill(0)`. -/
def empty_pieces : PieceArray :=
  { pawn := 0, knight := 0, bishop := 0, rook := 0, queen := 0, king := 0 }

/-- The constructor `Board::Board`: empty bitboards, White to move, all castling rights, empty
vectors. -/
def new_board : Board :=
  { piece_bitboards := { white := empty_pieces, black := empty_pieces }
    turn_color := Color.WHITE
    can_castle := { white := ⟨true, true⟩, black := ⟨true, true⟩ }
    previous_can_castle_stacks := { white := [], black := [] }
    captured_pieces := { white := [], black := [] }
    moves := { white := [], black := [] } }

/-- The function `Board::clear`: the bitboards, the turn colour and the castling rights are
reset; the vectors are left as they are. -/
def clear (b : Board) : Board :=
  { b with
    piece_bitboards := { white := empty_pieces, black := empty_pieces }
    turn_color := Color.WHITE
    can_castle := { white := ⟨true, true⟩, black := ⟨true, true⟩ } }

/-- The function `Board::initialize_board_starting_position`. -/
def initialize_board_starting_position (b : Board) : Board :=
  { b with
    piece_bitboards :=
      { white :=
          { pawn := starting_white_pawn_position
            knight := starting_white_knight_position
            bishop := starting_white_bishop_position
            rook := starting_white_rook_position
            queen := starting_white_queen_position
            king := starting_white_king_position }
        black :=
          { pawn := starting_black_pawn_position
            knight := starting_black_knight_position
            bishop := starting_black_bishop_position
            rook := starting_black_rook_position
            queen := starting_black_queen_position
            king := starting_black_king_position } } }

/-- The function `Board::get_piece_from_char`. -/
def get_piece_from_char (piece_char : Char) : Piece :=
  let c := piece_char.toLower
  if c = 'p' then Piece.PAWN
  else if c = 'n' then Piece.KNIGHT
  else if c = 'b' then Piece.BISHOP
  else if c = 'r' then Piece.ROOK
  else if c = 'q' then Piece.QUEEN
  else if c = 'k' then Piece.KING
  else Piece.NONE

/-- The white-space characters that `operator>>` of a stream skips and stops at. -/
def is_space (c : Char) : Bool :=
  c.toNat = 32 || (9 ≤ c.toNat && c.toNat ≤ 13)

/-- One extraction `stream >> token`: leading white space is skipped and the characters up to
the next white space are the token (empty when the stream is exhausted); the second component
is the rest of the stream. -/
def read_token (stream : List Char) : List Char × List Char :=
  let s := stream.dropWhile is_space
  (s.takeWhile fun c => !is_space c, s.dropWhile fun c => !is_space c)

/-- The loop of `Board::initialize_fen` over the characters of `pieces_str`. -/
def fen_loop : List Char → bitboard → Board → Option Board
  | [], _, b => some b
  | ch :: rest, current_position, b =>
    if ch = '/' then fen_loop rest current_position b
    else if ch.isDigit then fen_loop rest (current_position >>> (ch.toNat - 48)) b
    else
      (set_piece b (get_piece_from_char ch) (if ch.isUpper then Color.WHITE else Color.BLACK)
        current_position).bind fun b1 => fen_loop rest (current_position >>> 1) b1

/-- The function `Board::initialize_fen`.  The result is `none` when an assertion of
`set_piece` fails; otherwise it is the board left by the call together with `true`, or with
`false` when the call printed `Invalid fen.` and returned early. -/
def initialize_fen (b : Board) (fen : String) : Option (Bool × Board) :=
  let (pieces_str, stream1) := read_token fen.toList
  (fen_loop pieces_str 0x8000000000000000 b).bind fun b1 =>
    let (color_str, _) := read_token stream1
    if ¬ (color_str = ['w'] ∨ color_str = ['b']) then some (false, b1)
    else some (true, set_turn_color b1 (if color_str = ['w'] then Color.WHITE else Color.BLACK))

/-! ## The faults of `undo_move` told apart

`undo_move` above maps every fault to `none`.  The source has two kinds of fault: a failed
`assert`, which stops the program, and an operation whose behaviour the language leaves
undefined (reading or popping the back of an empty `std::vector`, indexing a bitboard array
with `NONE`), which the source does not guard.  The definitions below follow the same
statements and record which kind is met first. -/

/-- The two kinds of fault of the source. -/
inductive Fault where
  | assertion
  | undefined_behaviour
  deriving DecidableEq, Repr

/-- The function `Board::move_piece`, with the fault named: indexing with `NONE` is
unguarded. -/
def move_piece_traced (b : Board) (piece : Piece) (color : Color)
    (origin destination : bitboard) : Except Fault Board :=
  if piece = Piece.NONE then Except.error Fault.undefined_behaviour
  else
    Except.ok
      (b.set_bitboard color piece (get_piece_positions b piece color ^^^ (origin ||| destination)))

/-- The function `Board::set_piece`, with the fault named: the clear bit is asserted. -/
def set_piece_traced (b : Board) (piece : Piece) (color : Color) (position : bitboard) :
    Except Fault Board :=
  if piece = Piece.NONE then Except.error Fault.undefined_behaviour
  else if get_piece_positions b piece color &&& position ≠ 0 then Except.error Fault.assertion
  else Except.ok (b.set_bitboard color piece (get_piece_positions b piece color ||| position))

/-- The function `Board::remove_piece`, with the fault named: the set bit is asserted. -/
def remove_piece_traced (b : Board) (piece : Piece) (color : Color) (position : bitboard) :
    Except Fault Board :=
  if piece = Piece.NONE then Except.error Fault.undefined_behaviour
  else if get_piece_positions b piece color &&& position = 0 then Except.error Fault.assertion
  else
    Except.ok (b.set_bitboard color piece (get_piece_positions b piece color &&& bnot64 position))

/-- The function `Board::execute_castle_move`, with the fault named. -/
def execute_castle_move_traced (b : Board) (king_origin king_destination : bitboard) :
    Except Fault Board := do
  let rook_origin := castle_rook_origin_lookup king_destination
  let rook_destination := castle_rook_destination_lookup king_destination
  let b1 ← move_piece_traced b Piece.KING b.turn_color king_origin king_destination
  move_piece_traced b1 Piece.ROOK b1.turn_color rook_origin rook_destination

/-- The statements `assert(captured_pieces[turn_color].size() > 0)`, `back()` and
`pop_back()` of `undo_move`: an empty vector fails the assertion. -/
def Board.pop_captured_traced (b : Board) (color : Color) : Except Fault (Piece × Board) :=
  match b.captured_pieces.get color with
  | [] => Except.error Fault.assertion
  | piece :: rest =>
    Except.ok (piece, { b with captured_pieces := b.captured_pieces.set color rest })

/-- The statement `moves[color].pop_back()` of `undo_move`: no assertion precedes it. -/
def Board.pop_move_traced (b : Board) (color : Color) : Except Fault Board :=
  match b.moves.get color with
  | [] => Except.error Fault.undefined_behaviour
  | _ :: rest => Except.ok { b with moves := b.moves.set color rest }

/-- The function `Board::revert_castle_rights`: `back()` and `pop_back()` on the stack of
`turn_color`, with no assertion before them. -/
def revert_castle_rights_traced (b : Board) (color : Color) : Except Fault Board :=
  match b.previous_can_castle_stacks.get b.turn_color with
  | [] => Except.error Fault.undefined_behaviour
  | rights :: rest =>
    Except.ok { b with
      can_castle := b.can_castle.set color rights
      previous_can_castle_stacks := b.previous_can_castle_stacks.set b.turn_color rest }

/-- The function `Board::undo_move`, with the first fault named. -/
def undo_move_traced (b : Board) (move : Move) : Except Fault Board :=
  let b0 := set_turn_color b (negate_color b.turn_color)
  let move_flags := move.flags
  if move_flags = 6 ∨ move_flags = 7 then Except.error Fault.assertion
  else
    let origin := move.origin
    let destination := move.destination
    let moved_piece := get_piece_at_position b0 destination b0.turn_color
    (revert_castle_rights_traced b0 b0.turn_color).bind fun b1 =>
    let dispatched : Except Fault Board :=
      if move_flags = 0 ∨ move_flags = 1 then
        move_piece_traced b1 moved_piece b1.turn_color destination origin
      else if move_flags = 2 ∨ move_flags = 3 then
        execute_castle_move_traced b1 origin destination
      else if move_flags = 4 then do
        let (captured_piece, b2) ← b1.pop_captured_traced b1.turn_color
        let b3 ← move_piece_traced b2 moved_piece b2.turn_color destination origin
        set_piece_traced b3 captured_piece (negate_color b3.turn_color) destination
      else if move_flags = 5 then
        let capture_square :=
          if b1.turn_color = Color.WHITE then south destination else north destination
        do
          let (captured_piece, b2) ← b1.pop_captured_traced b1.turn_color
          let b3 ← move_piece_traced b2 moved_piece b2.turn_color destination origin
          set_piece_traced b3 captured_piece (negate_color b3.turn_color) capture_square
      else
        let promotion_piece := get_promotion_piece_from_flags move_flags
        do
          let b2 ← set_piece_traced b1 Piece.PAWN b1.turn_color origin
          let b3 ← remove_piece_traced b2 promotion_piece b2.turn_color destination
          if 12 ≤ move_flags ∧ move_flags ≤ 15 then
            let (captured_piece, b4) ← b3.pop_captured_traced b3.turn_color
            set_piece_traced b4 captured_piece (negate_color b4.turn_color) destination
          else pure b3
    dispatched.bind fun b5 => b5.pop_move_traced b5.turn_color

/-! ## Predicates used to state the properties -/

/-- Every bitboard of the board fits in 64 bits (it is a `uint64_t`). -/
def Board.bounded (b : Board) : Prop :=
  ∀ (c : Color) (p : Piece), get_piece_positions b p c < two64

instance (b : Board) : Decidable b.bounded :=
  inferInstanceAs (Decidable (∀ (c : Color) (p : Piece), get_piece_positions b p c < two64))

/-- Occupancy disjointness: no square is set in two different kind-bitboards of one colour,
and no square is occupied by both colours. -/
def Board.disjoint (b : Board) : Prop :=
  (∀ (c : Color) (p q : Piece), p ≠ q →
      get_piece_positions b p c &&& get_piece_positions b q c = 0) ∧
    get_all_piece_positions b Color.WHITE &&& get_all_piece_positions b Color.BLACK = 0

instance (b : Board) : Decidable b.disjoint :=
  inferInstanceAs (Decidable ((∀ (c : Color) (p q : Piece), p ≠ q →
      get_piece_positions b p c &&& get_piece_positions b q c = 0) ∧
    get_all_piece_positions b Color.WHITE &&& get_all_piece_positions b Color.BLACK = 0))

/-- The square of the pawn taken by an en-passant move of the side to move, as
`execute_move` computes it from the destination. -/
def en_passant_capture_square (b : Board) (destination : bitboard) : bitboard :=
  if b.turn_color = Color.WHITE then south destination else north destination

/-- The squares hold what the flag of the move announces: origin and destination are squares,
the flag is one of the flag table, and
* every flag but castle (2, 3): an own piece stands on the origin and no own piece on the
  destination;
* quiet, double push and promotion without capture (0, 1, 8-11): the destination is empty;
* capture and promotion with capture (4, 12-15): an opponent piece stands on the destination;
* en passant (5): the destination is empty and an opponent piece stands on the capture square;
* promotion (8-15): the piece on the origin is a pawn.
Every legal chess move, encoded with the flag of its kind, satisfies this; leaving the own
king in check is not excluded, and nothing is asked of a castle move. -/
def move_fits (b : Board) (m : Move) : Prop :=
  is_square m.origin ∧ is_square m.destination ∧
  (m.flags = 0 ∨ m.flags = 1 ∨ m.flags = 2 ∨ m.flags = 3 ∨ m.flags = 4 ∨ m.flags = 5 ∨
    (8 ≤ m.flags ∧ m.flags ≤ 15)) ∧
  (¬ (m.flags = 2 ∨ m.flags = 3) →
    get_piece_at_position b m.origin b.turn_color ≠ Piece.NONE ∧
    get_all_piece_positions b b.turn_color &&& m.destination = 0) ∧
  (m.flags = 0 ∨ m.flags = 1 ∨ (8 ≤ m.flags ∧ m.flags ≤ 11) →
    get_all_piece_positions b (negate_color b.turn_color) &&& m.destination = 0) ∧
  (m.flags = 4 ∨ (12 ≤ m.flags ∧ m.flags ≤ 15) →
    get_all_piece_positions b (negate_color b.turn_color) &&& m.destination ≠ 0) ∧
  (m.flags = 5 →
    get_all_piece_positions b (negate_color b.turn_color) &&& m.destination = 0 ∧
    get_all_piece_positions b (negate_color b.turn_color) &&&
      en_passant_capture_square b m.destination ≠ 0) ∧
  (8 ≤ m.flags → get_piece_at_position b m.origin b.turn_color = Piece.PAWN)

instance (b : Board) (m : Move) : Decidable (move_fits b m) := by
  unfold move_fits; infer_instance

/-- A move the side to move can execute on the board: the move fits the board, and for a
castle move (2, 3) no opponent piece stands on the origin or destination of the king or on
the rook squares that the castle table gives for the destination (as is the case when the
own king and rook stand there and the squares they move to are empty). -/
def executable (b : Board) (m : Move) : Prop :=
  move_fits b m ∧
  (m.flags = 2 ∨ m.flags = 3 →
    get_all_piece_positions b (negate_color b.turn_color) &&&
      ((m.origin ||| m.destination) |||
        (castle_rook_origin_lookup m.destination |||
          castle_rook_destination_lookup m.destination)) = 0)

instance (b : Board) (m : Move) : Decidable (executable b m) := by
  unfold executable; infer_instance

/-- Execute the moves of a list one after the other with `execute_move`. -/
def execute_moves (b : Board) : List Move → Option Board
  | [] => some b
  | m :: rest => (execute_move b m).bind fun b1 => execute_moves b1 rest

/-- Undo the moves of a list one after the other with `undo_move`, in the order of the list. -/
def undo_moves (b : Board) : List Move → Option Board
  | [] => some b
  | m :: rest => (undo_move b m).bind fun b1 => undo_moves b1 rest

/-- Each move of the list fits the state reached by executing the moves before it (a decision
procedure, `true` when the whole list can be played). -/
def moves_fit (b : Board) : List Move → Bool
  | [] => true
  | m :: rest =>
    decide (move_fits b m) &&
      match execute_move b m with
      | some b1 => moves_fit b1 rest
      | none => false

/-- The square reached from `position` after `k` steps of `move_direction` in one direction
(zero once a step has left the board). -/
def ray (position : bitboard) (direction : Direction) : Nat → bitboard
  | 0 => position
  | k + 1 => ray (move_direction position direction) direction k

/-- All occupied squares, of either colour. -/
def occupancy (b : Board) : bitboard :=
  get_all_piece_positions b Color.WHITE ||| get_all_piece_positions b Color.BLACK

/-- The squares on the ray from `position` that a slider reaches: the square after `k` steps,
for every `k` from 1 on such that no square strictly before it on the ray is occupied. -/
def on_open_ray (b : Board) (position : bitboard) (direction : Direction) (q : bitboard) : Prop :=
  ∃ k, 1 ≤ k ∧ ray position direction k = q ∧
    ∀ j, 1 ≤ j → j < k → ray position direction j &&& occupancy b = 0

/-- The direction pointing the other way. -/
def opposite : Direction → Direction
  | Direction.NORTH => Direction.SOUTH
  | Direction.EAST => Direction.WEST
  | Direction.SOUTH => Direction.NORTH
  | Direction.WEST => Direction.EAST
  | Direction.NORTHEAST => Direction.SOUTHWEST
  | Direction.NORTHWEST => Direction.SOUTHEAST
  | Direction.SOUTHEAST => Direction.NORTHWEST
  | Direction.SOUTHWEST => Direction.NORTHEAST

/-- The directions in which the bit index of a square grows. -/
def ascending : Direction → Bool
  | Direction.NORTH => true
  | Direction.WEST => true
  | Direction.NORTHEAST => true
  | Direction.NORTHWEST => true
  | _ => false

/-! ## Sample positions -/

/-- A board with the given bitboards, White to move, and the rights, stacks and histories of a
freshly constructed `Board`. -/
def board_of (white black : PieceArray) : Board :=
  { piece_bitboards := { white := white, black := black }
    turn_color := Color.WHITE
    can_castle := { white := ⟨true, true⟩, black := ⟨true, true⟩ }
    previous_can_castle_stacks := { white := [], black := [] }
    captured_pieces := { white := [], black := [] }
    moves := { white := [], black := [] } }

/-- White: king e1, pawn g7.  Black: king e8, rook h8.  White to move
(FEN `4k2r/6P1/8/8/8/8/8/4K3 w`). -/
def promotion_board : Board :=
  board_of
    { pawn := 0x2000000000000, knight := 0, bishop := 0, rook := 0, queen := 0, king := 0x8 }
    { pawn := 0, knight := 0, bishop := 0, rook := 0x100000000000000, queen := 0,
      king := 0x800000000000000 }

/-- White: king e1, knight b1.  Black: king e8, pawn c3.  White to move
(FEN `4k3/8/8/8/8/2p5/8/1N2K3 w`). -/
def knight_capture_board : Board :=
  board_of
    { pawn := 0, knight := 0x40, bishop := 0, rook := 0, queen := 0, king := 0x8 }
    { pawn := 0x200000, knight := 0, bishop := 0, rook := 0, queen := 0,
      king := 0x800000000000000 }

/-- The starting position with the white king's knight on f3 instead of g1, White to move
(FEN `rnbqkbnr/pppppppp/8/8/8/5N2/PPPPPPPP/RNBQKB1R w`). -/
def knight_f3_board : Board :=
  board_of
    { pawn := 0xFF00, knight := 0x40040, bishop := 0x24, rook := 0x81, queen := 0x10,
      king := 0x8 }
    { pawn := 0xFF000000000000, knight := 0x4200000000000000, bishop := 0x2400000000000000,
      rook := 0x8100000000000000, queen := 0x1000000000000000, king := 0x800000000000000 }

/-- The number of set bits among the 64 bits of a bitboard. -/
def popcount (x : bitboard) : Nat :=
  ((List.range 64).filter fun i => x.testBit i).length

/-- The queenside corner of a colour: a1 for White, a8 for Black. -/
def queenside_corner : Color → bitboard
  | Color.WHITE => 0x80
  | Color.BLACK => 0x8000000000000000

/-- The kingside corner of a colour: h1 for White, h8 for Black. -/
def kingside_corner : Color → bitboard
  | Color.WHITE => 0x1
  | Color.BLACK => 0x100000000000000

/-- The path constant that the kingside castle generator uses for a colour. -/
def kingside_castle_path (paths : CastlePaths) (color : Color) : bitboard :=
  if color = Color.WHITE then paths.white_kingside else paths.black_kingside

/-- The path constant that the queenside castle generator uses for a colour. -/
def queenside_castle_path (paths : CastlePaths) (color : Color) : bitboard :=
  if color = Color.WHITE then paths.white_queenside else paths.black_queenside

/-- The start square of the king of a colour: e1 for White, e8 for Black. -/
def king_start : Color → bitboard
  | Color.WHITE => 0x8
  | Color.BLACK => 0x800000000000000

/-- The squares a king castling kingside starts on, passes through and lands on:
e1, f1, g1 for White and e8, f8, g8 for Black. -/
def king_walk_kingside : Color → bitboard
  | Color.WHITE => 0xE
  | Color.BLACK => 0xE00000000000000

/-- The squares a king castling queenside starts on, passes through and lands on:
e1, d1, c1 for White and e8, d8, c8 for Black. -/
def king_walk_queenside : Color → bitboard
  | Color.WHITE => 0x38
  | Color.BLACK => 0x3800000000000000

/-- Castle paths made of the squares the king starts on, passes through and lands on. -/
def king_walk_paths : CastlePaths :=
  { white_kingside := 0xE, black_kingside := 0xE00000000000000,
    white_queenside := 0x38, black_queenside := 0x3800000000000000 }

/-- White: king e1, rooks a1 and h1.  Black: king e8.  White to move, all rights held
(FEN `4k3/8/8/8/8/8/8/R3K2R w`). -/
def castle_ready_board : Board :=
  board_of
    { pawn := 0, knight := 0, bishop := 0, rook := 0x81, queen := 0, king := 0x8 }
    { pawn := 0, knight := 0, bishop := 0, rook := 0, queen := 0, king := 0x800000000000000 }

/-- White: king e1, rooks a1 and h1.  Black: king e8, knights d1 and f1.  White to move, all
rights held (FEN `4k3/8/8/8/8/8/8/R2nKn1R w`). -/
def castle_blocked_board : Board :=
  board_of
    { pawn := 0, knight := 0, bishop := 0, rook := 0x81, queen := 0, king := 0x8 }
    { pawn := 0, knight := 0x14, bishop := 0, rook := 0, queen := 0,
      king := 0x800000000000000 }

/-- White: king e1, rooks a1 and h1.  Black: king h8, rook e8 giving check on the e-file.
White to move, all rights held (FEN `4r2k/8/8/8/8/8/8/R3K2R w`). -/
def castle_in_check_board : Board :=
  board_of
    { pawn := 0, knight := 0, bishop := 0, rook := 0x81, queen := 0, king := 0x8 }
    { pawn := 0, knight := 0, bishop := 0, rook := 0x800000000000000, queen := 0,
      king := 0x100000000000000 }

/-- White: king e1, pawn e5.  Black: king e8, pawn d7.  Black to move
(FEN `4k3/3p4/8/4P3/8/8/8/4K3 b`). -/
def en_passant_board_before : Board :=
  set_turn_color
    (board_of
      { pawn := 0x800000000, knight := 0, bishop := 0, rook := 0, queen := 0, king := 0x8 }
      { pawn := 0x10000000000000, knight := 0, bishop := 0, rook := 0, queen := 0,
        king := 0x800000000000000 })
    Color.BLACK

/-- The board `en_passant_board_before` after Black's double push d7-d5: White: king e1,
pawn e5.  Black: king e8, pawn d5.  White to move, Black's history holds the double push
(FEN `4k3/8/8/3pP3/8/8/8/4K3 w - d6`). -/
def en_passant_board : Board :=
  { piece_bitboards :=
      { white :=
          { pawn := 0x800000000, knight := 0, bishop := 0, rook := 0, queen := 0, king := 0x8 }
        black :=
          { pawn := 0x1000000000, knight := 0, bishop := 0, rook := 0, queen := 0,
            king := 0x800000000000000 } }
    turn_color := Color.WHITE
    can_castle := { white := ⟨true, true⟩, black := ⟨true, true⟩ }
    previous_can_castle_stacks := { white := [], black := [⟨true, true⟩] }
    captured_pieces := { white := [], black := [] }
    moves := { white := [], black := [⟨0x10000000000000, 0x1000000000, 1⟩] } }

/-- The piece letters of a piece-placement field. -/
def fen_letters : List Char := ['p', 'n', 'b', 'r', 'q', 'k', 'P', 'N', 'B', 'R', 'Q', 'K']

/-- The characters of a piece-placement field: the piece letters, the digits 1 to 8 and the
rank separator. -/
def fen_alphabet : List Char := fen_letters ++ ['1', '2', '3', '4', '5', '6', '7', '8', '/']

/-- The number of cells a character of a piece-placement field stands for: a digit counts as
its value, the rank separator as 0, any other character as 1. -/
def fen_cell (ch : Char) : Nat :=
  if ch = '/' then 0 else if ch.isDigit then ch.toNat - 48 else 1

/-- The number of cells a piece-placement string describes. -/
def fen_cells : List Char → Nat
  | [] => 0
  | ch :: rest => fen_cell ch + fen_cells rest

/-- The placement string has a piece letter of the given kind and colour (uppercase is White)
that is preceded by cells totalling `63 - i - k`. -/
def fen_places (l : List Char) (k : Nat) (kind : Piece) (color : Color) (i : Nat) : Prop :=
  ∃ pre ch post, l = pre ++ ch :: post ∧ ch ∈ fen_letters ∧ get_piece_from_char ch = kind ∧
    (if ch.isUpper then Color.WHITE else Color.BLACK) = color ∧ i + k + fen_cells pre = 63

/-- Each move of the list fits the state reached by the moves before it and is accepted by
`is_move_legal` for the side to move there; the result is the state reached at the end. -/
def play_legal_moves (b : Board) : List Move → Option Board
  | [] => some b
  | m :: rest =>
    if move_fits b m ∧ (is_move_legal b m b.turn_color).map Prod.fst = some true then
      (execute_move b m).bind fun b1 => play_legal_moves b1 rest
    else none

/-- The game 1. g3 b6 2. Bh3 Bb7 3. Nf3 a6 4. Nh4 Bxh1 from the start position. -/
def rook_capture_line : List Move :=
  [⟨0x200, 0x20000, 0⟩, ⟨0x40000000000000, 0x400000000000, 0⟩,
   ⟨0x4, 0x10000, 0⟩, ⟨0x2000000000000000, 0x40000000000000, 0⟩,
   ⟨0x2, 0x40000, 0⟩, ⟨0x80000000000000, 0x800000000000, 0⟩,
   ⟨0x40000, 0x1000000, 0⟩, ⟨0x40000000000000, 0x1, 4⟩]

/-- The position after `rook_capture_line`: the black bishop has taken the rook on h1; White,
to move, has the king on e1, f1 and g1 are empty, and no white rook stands on h1
(FEN `rn1qkbnr/2pppppp/pp6/8/7N/6PB/PPPPPP1P/RNBQK2b w`). -/
def rook_captured_board : Board :=
  { piece_bitboards :=
      { white :=
          { pawn := 0x2FD00, knight := 0x1000040, bishop := 0x10020, rook := 0x80,
            queen := 0x10, king := 0x8 }
        black :=
          { pawn := 0x3FC00000000000, knight := 0x4200000000000000,
            bishop := 0x400000000000001, rook := 0x8100000000000000,
            queen := 0x1000000000000000, king := 0x800000000000000 } }
    turn_color := Color.WHITE
    can_castle := { white := ⟨true, true⟩, black := ⟨true, true⟩ }
    previous_can_castle_stacks :=
      { white := [⟨true, true⟩, ⟨true, true⟩, ⟨true, true⟩, ⟨true, true⟩]
        black := [⟨true, true⟩, ⟨true, true⟩, ⟨true, true⟩, ⟨true, true⟩] }
    captured_pieces := { white := [], black := [Piece.ROOK] }
    moves :=
      { white := [⟨0x40000, 0x1000000, 0⟩, ⟨0x2, 0x40000, 0⟩, ⟨0x4, 0x10000, 0⟩,
          ⟨0x200, 0x20000, 0⟩]
        black := [⟨0x40000000000000, 0x1, 4⟩, ⟨0x80000000000000, 0x800000000000, 0⟩,
          ⟨0x2000000000000000, 0x40000000000000, 0⟩, ⟨0x40000000000000, 0x400000000000, 0⟩] } }

/-- White: king e1, rooks a1 and h1.  Black: king e8, bishop b7 on the open long diagonal.
Black to move, all rights held (FEN `4k3/1b6/8/8/8/8/8/R3K2R b`). -/
def bishop_takes_rook_board : Board :=
  set_turn_color
    (board_of
      { pawn := 0, knight := 0, bishop := 0, rook := 0x81, queen := 0, king := 0x8 }
      { pawn := 0, knight := 0, bishop := 0x40000000000000, rook := 0, queen := 0,
        king := 0x800000000000000 })
    Color.BLACK

/-- White: king e1, rooks f1 and h1.  Black: king e8.  White to move, all rights held
(FEN `4k3/8/8/8/8/8/8/4KR1R w`). -/
def castle_rook_f1_board : Board :=
  board_of
    { pawn := 0, knight := 0, bishop := 0, rook := 0x5, queen := 0, king := 0x8 }
    { pawn := 0, knight := 0, bishop := 0, rook := 0, queen := 0, king := 0x800000000000000 }

/-- The castled square of the king of a colour: g1 or g8 on the kingside (`true`), c1 or c8 on
the queenside. -/
def king_castled_square (color : Color) (kingside : Bool) : bitboard :=
  match color, kingside with
  | Color.WHITE, true => 0x2
  | Color.WHITE, false => 0x20
  | Color.BLACK, true => 0x200000000000000
  | Color.BLACK, false => 0x2000000000000000

/-- The corner the rook castles from. -/
def rook_corner (color : Color) (kingside : Bool) : bitboard :=
  if kingside then kingside_corner color else queenside_corner color

/-- The square the rook castles to: f1 or f8 on the kingside, d1 or d8 on the queenside. -/
def rook_castled_square (color : Color) (kingside : Bool) : bitboard :=
  match color, kingside with
  | Color.WHITE, true => 0x4
  | Color.WHITE, false => 0x10
  | Color.BLACK, true => 0x400000000000000
  | Color.BLACK, false => 0x1000000000000000

/-- A double pawn push of the side to move, as the spec defines it: a pawn of the side to move
stands on the origin, on its home rank (the double-push table has an entry for it), the
destination is the table entry, and both the square in between and the destination are
empty; the move carries flag 1. -/
def double_pawn_push (b : Board) (m : Move) : Prop :=
  m.flags = 1 ∧ is_square m.origin ∧
  get_piece_positions b Piece.PAWN b.turn_color &&& m.origin ≠ 0 ∧
  m.destination = get_pawn_double_push m.origin b.turn_color ∧ m.destination ≠ 0 ∧
  occupancy b &&& (get_pawn_single_push m.origin b.turn_color ||| m.destination) = 0

instance (b : Board) (m : Move) : Decidable (double_pawn_push b m) := by
  unfold double_pawn_push; infer_instance

/-- The shape the claims ask of a generated move of colour `color`: origin and destination are
squares, a piece of the colour stands on the origin, none on the destination, and the two
squares differ. -/
def well_formed_move (b : Board) (color : Color) (m : Move) : Prop :=
  is_square m.origin ∧ get_all_piece_positions b color &&& m.origin ≠ 0 ∧
  is_square m.destination ∧ m.destination ≠ m.origin ∧
  get_all_piece_positions b color &&& m.destination = 0

instance (b : Board) (color : Color) (m : Move) : Decidable (well_formed_move b color m) := by
  unfold well_formed_move; infer_instance

/-! ## Bit-level lemmas -/

theorem testBit_bnot64 (x i : Nat) : (bnot64 x).testBit i = (decide (i < 64) && !x.testBit i) := by
  unfold bnot64 two64
  rw [Nat.testBit_xor, Nat.testBit_two_pow_sub_one, Nat.testBit_mod_two_pow]
  by_cases h : i < 64 <;> simp [h]

theorem and_two_pow_ne_zero_iff (x i : Nat) : x &&& 2 ^ i ≠ 0 ↔ x.testBit i = true := by
  constructor
  · intro h
    by_contra hb
    apply h
    apply Nat.eq_of_testBit_eq
    intro j
    simp only [Nat.testBit_and, Nat.testBit_two_pow, Nat.zero_testBit]
    by_cases hij : i = j
    · subst hij; simp [hb]
    · simp [hij]
  · intro h h0
    have := congrArg (fun y => y.testBit i) h0
    simp [h, Nat.testBit_two_pow] at this

theorem and_two_pow_eq_zero_iff (x i : Nat) : x &&& 2 ^ i = 0 ↔ x.testBit i = false := by
  have := and_two_pow_ne_zero_iff x i
  constructor
  · intro h
    by_contra hb
    exact (this.mpr (by simpa using hb)) h
  · intro h
    by_contra hb
    have := this.mp hb
    simp [h] at this

theorem and_two_pow_eq_self (x i : Nat) (h : x &&& 2 ^ i ≠ 0) : x &&& 2 ^ i = 2 ^ i := by
  have hb := (and_two_pow_ne_zero_iff x i).mp h
  apply Nat.eq_of_testBit_eq
  intro j
  simp only [Nat.testBit_and, Nat.testBit_two_pow]
  by_cases hij : i = j
  · subst hij; simp [hb]
  · simp [hij]

theorem xor_or_xor_or (x o d : Nat) : (x ^^^ (o ||| d)) ^^^ (d ||| o) = x := by
  rw [Nat.or_comm d o, Nat.xor_assoc, Nat.xor_self, Nat.xor_zero]

theorem clear_then_set (x i : Nat) (hx : x < two64) (h : x &&& 2 ^ i ≠ 0) :
    (x &&& bnot64 (2 ^ i)) ||| 2 ^ i = x := by
  have hb := (and_two_pow_ne_zero_iff x i).mp h
  apply Nat.eq_of_testBit_eq
  intro j
  simp only [Nat.testBit_and, Nat.testBit_or, testBit_bnot64, Nat.testBit_two_pow]
  by_cases hij : i = j
  · subst hij; simp [hb]
  · by_cases hj : j < 64
    · simp [hij, hj]
    · have : x.testBit j = false :=
        Nat.testBit_lt_two_pow (Nat.lt_of_lt_of_le hx (Nat.pow_le_pow_right (by decide) (by omega)))
      simp [hij, hj, this]

theorem set_then_clear (x i : Nat) (hx : x < two64) (h : x &&& 2 ^ i = 0) :
    (x ||| 2 ^ i) &&& bnot64 (2 ^ i) = x := by
  have hb := (and_two_pow_eq_zero_iff x i).mp h
  apply Nat.eq_of_testBit_eq
  intro j
  simp only [Nat.testBit_and, Nat.testBit_or, testBit_bnot64, Nat.testBit_two_pow]
  by_cases hij : i = j
  · subst hij; simp [hb]
  · by_cases hj : j < 64
    · simp [hij, hj]
    · have : x.testBit j = false :=
        Nat.testBit_lt_two_pow (Nat.lt_of_lt_of_le hx (Nat.pow_le_pow_right (by decide) (by omega)))
      simp [hij, hj, this]

theorem cleared_and (x i : Nat) : (x &&& bnot64 (2 ^ i)) &&& 2 ^ i = 0 := by
  apply Nat.eq_of_testBit_eq
  intro j
  simp only [Nat.testBit_and, testBit_bnot64, Nat.testBit_two_pow, Nat.zero_testBit]
  by_cases hij : i = j
  · subst hij; simp
  · simp [hij]

theorem set_and (x i : Nat) : (x ||| 2 ^ i) &&& 2 ^ i ≠ 0 := by
  rw [and_two_pow_ne_zero_iff]; simp [Nat.testBit_two_pow]

theorem or_and_eq_zero_iff (a b p : Nat) : (a ||| b) &&& p = 0 ↔ a &&& p = 0 ∧ b &&& p = 0 := by
  rw [Nat.and_distrib_right]
  constructor
  · intro h
    constructor
    · apply Nat.eq_of_testBit_eq; intro j
      have := congrArg (fun y => y.testBit j) h
      simp only [Nat.testBit_or, Nat.zero_testBit, Bool.or_eq_false_iff] at this
      simpa using this.1
    · apply Nat.eq_of_testBit_eq; intro j
      have := congrArg (fun y => y.testBit j) h
      simp only [Nat.testBit_or, Nat.zero_testBit, Bool.or_eq_false_iff] at this
      simpa using this.2
  · rintro ⟨h1, h2⟩; rw [h1, h2]; rfl

/-! ## Reading and writing the arrays -/

@[simp] theorem negate_color_negate_color (c : Color) : negate_color (negate_color c) = c := by
  cases c <;> rfl

theorem negate_color_ne (c : Color) : negate_color c ≠ c := by
  cases c <;> simp [negate_color]

@[simp] theorem per_color_get_set_same {α : Type} (p : PerColor α) (c : Color) (v : α) :
    (p.set c v).get c = v := by
  cases c <;> rfl

theorem per_color_get_set_other {α : Type} (p : PerColor α) (c d : Color) (v : α) (h : d ≠ c) :
    (p.set c v).get d = p.get d := by
  cases c <;> cases d <;> first | rfl | exact absurd rfl h

@[simp] theorem per_color_get_set_negate {α : Type} (p : PerColor α) (c : Color) (v : α) :
    (p.set c v).get (negate_color c) = p.get (negate_color c) := by
  cases c <;> rfl

@[simp] theorem per_color_get_set_negate_left {α : Type} (p : PerColor α) (c : Color) (v : α) :
    (p.set (negate_color c) v).get c = p.get c := by
  cases c <;> rfl

@[simp] theorem per_color_set_set {α : Type} (p : PerColor α) (c : Color) (v w : α) :
    (p.set c v).set c w = p.set c w := by
  cases c <;> rfl

@[simp] theorem per_color_set_get {α : Type} (p : PerColor α) (c : Color) :
    p.set c (p.get c) = p := by
  cases c <;> rfl

theorem per_color_set_comm {α : Type} (p : PerColor α) (c : Color) (v w : α) :
    (p.set (negate_color c) v).set c w = (p.set c w).set (negate_color c) v := by
  cases c <;> rfl

theorem piece_array_get_set_same (a : PieceArray) (p : Piece) (v : bitboard)
    (hp : p ≠ Piece.NONE) : (a.set p v).get p = v := by
  cases p <;> first | rfl | exact absurd rfl hp

theorem piece_array_get_set_other (a : PieceArray) (p q : Piece) (v : bitboard) (h : q ≠ p) :
    (a.set p v).get q = a.get q := by
  cases p <;> cases q <;> first | rfl | exact absurd rfl h

@[simp] theorem piece_array_set_set (a : PieceArray) (p : Piece) (v w : bitboard) :
    (a.set p v).set p w = a.set p w := by
  cases p <;> rfl

@[simp] theorem piece_array_set_get (a : PieceArray) (p : Piece) : a.set p (a.get p) = a := by
  cases p <;> rfl

theorem piece_array_set_comm (a : PieceArray) (p q : Piece) (v w : bitboard) (h : p ≠ q) :
    (a.set p v).set q w = (a.set q w).set p v := by
  cases p <;> cases q <;> first | rfl | exact absurd rfl h

theorem get_set_bitboard_same (b : Board) (c : Color) (p : Piece) (v : bitboard)
    (hp : p ≠ Piece.NONE) : get_piece_positions (b.set_bitboard c p v) p c = v := by
  simp [get_piece_positions, Board.set_bitboard, piece_array_get_set_same _ _ _ hp]

theorem get_set_bitboard_other_piece (b : Board) (c : Color) (p q : Piece) (v : bitboard)
    (h : q ≠ p) : get_piece_positions (b.set_bitboard c p v) q c = get_piece_positions b q c := by
  simp [get_piece_positions, Board.set_bitboard, piece_array_get_set_other _ _ _ _ h]

theorem get_set_bitboard_other_color (b : Board) (c d : Color) (p q : Piece) (v : bitboard)
    (h : d ≠ c) : get_piece_positions (b.set_bitboard c p v) q d = get_piece_positions b q d := by
  simp [get_piece_positions, Board.set_bitboard, per_color_get_set_other _ _ _ _ h]

/-! ## The piece standing on a square -/

theorem get_all_and_eq_zero_iff (b : Board) (c : Color) (pos : bitboard) :
    get_all_piece_positions b c &&& pos = 0 ↔
      ∀ k : Piece, get_piece_positions b k c &&& pos = 0 := by
  simp only [get_all_piece_positions, List.foldl, or_and_eq_zero_iff]
  constructor
  · rintro ⟨⟨⟨⟨⟨⟨_, h1⟩, h2⟩, h3⟩, h4⟩, h5⟩, h6⟩ k
    cases k <;> assumption
  · intro h
    exact ⟨⟨⟨⟨⟨⟨by simp, h _⟩, h _⟩, h _⟩, h _⟩, h _⟩, h _⟩

theorem get_piece_at_position_eq_none_iff (b : Board) (pos : bitboard) (c : Color) :
    get_piece_at_position b pos c = Piece.NONE ↔
      ∀ k : Piece, get_piece_positions b k c &&& pos = 0 := by
  unfold get_piece_at_position
  constructor
  · intro h k
    split_ifs at h with h1 h2 h3 h4 h5 h6
    simp only [ne_eq, not_not] at h1 h2 h3 h4 h5 h6
    cases k <;> first | assumption | simp [get_piece_positions, PieceArray.get]
  · intro h
    simp [h]

theorem get_piece_at_position_bit (b : Board) (pos : bitboard) (c : Color)
    (h : get_piece_at_position b pos c ≠ Piece.NONE) :
    get_piece_positions b (get_piece_at_position b pos c) c &&& pos ≠ 0 := by
  unfold get_piece_at_position at h ⊢
  split_ifs at h ⊢ with h1 h2 h3 h4 h5 h6 <;> first | assumption | exact absurd rfl h

theorem get_piece_at_position_unique (b : Board) (pos : bitboard) (c : Color) (p : Piece)
    (hp : p ≠ Piece.NONE) (h1 : get_piece_positions b p c &&& pos ≠ 0)
    (h2 : ∀ k : Piece, k ≠ p → get_piece_positions b k c &&& pos = 0) :
    get_piece_at_position b pos c = p := by
  unfold get_piece_at_position
  cases p <;> first | exact absurd rfl hp | simp [h1, h2]

theorem get_piece_at_position_ne_none_iff (b : Board) (pos : bitboard) (c : Color) :
    get_piece_at_position b pos c ≠ Piece.NONE ↔ get_all_piece_positions b c &&& pos ≠ 0 := by
  rw [ne_eq, ne_eq, get_piece_at_position_eq_none_iff, get_all_and_eq_zero_iff]

/-! ## Executing a move and undoing it -/

theorem update_castle_rights_eq (b : Board) (m : Move) (p : Piece) :
    ∃ r : CastleRights, update_castle_rights b m p =
      { b with
        can_castle := b.can_castle.set b.turn_color r
        previous_can_castle_stacks := b.previous_can_castle_stacks.set b.turn_color
          (b.can_castle.get b.turn_color :: b.previous_can_castle_stacks.get b.turn_color) } := by
  unfold update_castle_rights
  simp only [Board.push_rights, set_can_castle_queen, set_can_castle_king]
  split_ifs <;> (try simp only [per_color_set_set, per_color_get_set_same]) <;> first
    | exact ⟨_, rfl⟩
    | exact ⟨b.can_castle.get b.turn_color, by simp⟩

theorem xor_or_and_right (x o d : Nat) (h : x &&& d = 0) : (x ^^^ (o ||| d)) &&& d = d := by
  apply Nat.eq_of_testBit_eq
  intro j
  have hj := congrArg (fun y => y.testBit j) h
  simp only [Nat.testBit_and, Nat.zero_testBit] at hj
  simp only [Nat.testBit_and, Nat.testBit_xor, Nat.testBit_or]
  cases hx : x.testBit j <;> cases ho : o.testBit j <;> cases hdd : d.testBit j <;> simp_all

theorem roundtrip_quiet (b : Board) (m : Move) (hf : m.flags = 0 ∨ m.flags = 1)
    (hp : get_piece_at_position b m.origin b.turn_color ≠ Piece.NONE)
    (hd : m.destination ≠ 0)
    (hown : get_all_piece_positions b b.turn_color &&& m.destination = 0) :
    ∃ b1, execute_move b m = some b1 ∧ undo_move b1 m = some b ∧
      b1.piece_bitboards =
        (b.set_bitboard b.turn_color (get_piece_at_position b m.origin b.turn_color)
          (get_piece_positions b (get_piece_at_position b m.origin b.turn_color) b.turn_color ^^^
            (m.origin ||| m.destination))).piece_bitboards := by
  obtain ⟨r, hr⟩ := update_castle_rights_eq b m (get_piece_at_position b m.origin b.turn_color)
  have hf67 : ¬ (m.flags = 6 ∨ m.flags = 7) := by omega
  rw [get_all_and_eq_zero_iff] at hown
  generalize hmp : get_piece_at_position b m.origin b.turn_color = mp at hp hr ⊢
  have hg : get_piece_at_position
      (b.set_bitboard b.turn_color mp
        (get_piece_positions b mp b.turn_color ^^^ (m.origin ||| m.destination)))
      m.destination b.turn_color = mp := by
    apply get_piece_at_position_unique _ _ _ _ hp
    · rw [get_set_bitboard_same _ _ _ _ hp, xor_or_and_right _ _ _ (hown mp)]
      exact hd
    · intro k hk
      rw [get_set_bitboard_other_piece _ _ _ _ _ hk]
      exact hown k
  obtain ⟨pbs, t, cc, st, caps, mvs⟩ := b
  have hexec : execute_move ⟨pbs, t, cc, st, caps, mvs⟩ m = some
      ⟨pbs.set t ((pbs.get t).set mp (((pbs.get t).get mp) ^^^ (m.origin ||| m.destination))),
        negate_color t, cc.set t r, st.set t (cc.get t :: st.get t), caps,
        mvs.set t (m :: mvs.get t)⟩ := by
    unfold execute_move
    simp only [hf67, if_false, hf, if_true, hmp, hr, move_piece, hp]
    rfl
  refine ⟨_, hexec, ?_, ?_⟩
  rotate_left
  · simp only [Board.set_bitboard, get_piece_positions, per_color_get_set_same,
      per_color_set_set, per_color_get_set_negate]
  unfold undo_move
  simp only [hf67, if_false, hf, if_true, set_turn_color, negate_color_negate_color,
    revert_castle_rights, per_color_get_set_same, Option.bind]
  have hg2 : get_piece_at_position
      ⟨pbs.set t ((pbs.get t).set mp (((pbs.get t).get mp) ^^^ (m.origin ||| m.destination))),
        t, cc.set t r, st.set t (cc.get t :: st.get t), caps, mvs.set t (m :: mvs.get t)⟩
      m.destination t = mp := hg
  simp only [hg2, move_piece, hp, if_false, Board.pop_move, Board.set_bitboard,
    get_piece_positions, per_color_get_set_same, per_color_set_set, per_color_set_get,
    piece_array_get_set_same _ _ _ hp, piece_array_set_set, xor_or_xor_or, piece_array_set_get]

theorem xor_xor_cancel_right (x y : Nat) : (x ^^^ y) ^^^ y = x := by
  rw [Nat.xor_assoc, Nat.xor_self, Nat.xor_zero]

theorem roundtrip_castle (b : Board) (m : Move) (hf : m.flags = 2 ∨ m.flags = 3) :
    ∃ b1, execute_move b m = some b1 ∧ undo_move b1 m = some b ∧
      b1.piece_bitboards =
        ((b.set_bitboard b.turn_color Piece.KING
            (get_piece_positions b Piece.KING b.turn_color ^^^
              (m.origin ||| m.destination))).set_bitboard b.turn_color Piece.ROOK
          (get_piece_positions b Piece.ROOK b.turn_color ^^^
            (castle_rook_origin_lookup m.destination |||
              castle_rook_destination_lookup m.destination))).piece_bitboards := by
  obtain ⟨r, hr⟩ := update_castle_rights_eq b m (get_piece_at_position b m.origin b.turn_color)
  have hf67 : ¬ (m.flags = 6 ∨ m.flags = 7) := by omega
  have hf01 : ¬ (m.flags = 0 ∨ m.flags = 1) := by omega
  obtain ⟨pbs, t, cc, st, caps, mvs⟩ := b
  have hK : Piece.KING ≠ Piece.NONE := by decide
  have hR : Piece.ROOK ≠ Piece.NONE := by decide
  have hKR : Piece.KING ≠ Piece.ROOK := by decide
  have hexec : execute_move ⟨pbs, t, cc, st, caps, mvs⟩ m = some
      ⟨pbs.set t (((pbs.get t).set Piece.KING
          (((pbs.get t).get Piece.KING) ^^^ (m.origin ||| m.destination))).set Piece.ROOK
          (((pbs.get t).get Piece.ROOK) ^^^
            (castle_rook_origin_lookup m.destination |||
              castle_rook_destination_lookup m.destination))),
        negate_color t, cc.set t r, st.set t (cc.get t :: st.get t), caps,
        mvs.set t (m :: mvs.get t)⟩ := by
    unfold execute_move
    simp only [hf67, if_false, hf01, hf, if_true, hr, execute_castle_move, move_piece, hK, hR,
      Option.bind, bind, Option.some.injEq, Board.push_move, set_turn_color, Board.set_bitboard,
      get_piece_positions, per_color_get_set_same, per_color_set_set,
      piece_array_get_set_other _ _ _ _ hKR.symm]
  refine ⟨_, hexec, ?_, ?_⟩
  rotate_left
  · simp only [Board.set_bitboard, get_piece_positions, per_color_get_set_same,
      per_color_set_set, per_color_get_set_negate]
  unfold undo_move
  simp only [hf67, if_false, hf01, hf, if_true, set_turn_color, negate_color_negate_color,
    revert_castle_rights, per_color_get_set_same, Option.bind, bind, execute_castle_move,
    move_piece, hK, hR, Board.pop_move, Board.set_bitboard,
    get_piece_positions, per_color_set_set, per_color_set_get,
    piece_array_get_set_same _ _ _ hK, piece_array_get_set_same _ _ _ hR,
    piece_array_get_set_other _ _ _ _ hKR.symm, piece_array_get_set_other _ _ _ _ hKR,
    piece_array_set_set, xor_xor_cancel_right, piece_array_set_get,
    piece_array_set_comm _ _ _ _ _ hKR.symm]

theorem get_piece_at_position_after_move (b : Board) (o d : bitboard) (mp : Piece)
    (hp : mp ≠ Piece.NONE) (hd : d ≠ 0)
    (hown : ∀ k : Piece, get_piece_positions b k b.turn_color &&& d = 0) :
    get_piece_at_position
      (b.set_bitboard b.turn_color mp (get_piece_positions b mp b.turn_color ^^^ (o ||| d)))
      d b.turn_color = mp := by
  apply get_piece_at_position_unique _ _ _ _ hp
  · rw [get_set_bitboard_same _ _ _ _ hp, xor_or_and_right _ _ _ (hown mp)]
    exact hd
  · intro k hk
    rw [get_set_bitboard_other_piece _ _ _ _ _ hk]
    exact hown k

theorem get_piece_at_position_congr (b1 b2 : Board) (pos : bitboard) (c : Color)
    (h : b1.piece_bitboards.get c = b2.piece_bitboards.get c) :
    get_piece_at_position b1 pos c = get_piece_at_position b2 pos c := by
  unfold get_piece_at_position get_piece_positions
  rw [h]

theorem roundtrip_capture (b : Board) (m : Move) (i : Nat) (hf : m.flags = 4)
    (hb : b.bounded) (hdi : m.destination = 2 ^ i)
    (hp : get_piece_at_position b m.origin b.turn_color ≠ Piece.NONE)
    (hown : get_all_piece_positions b b.turn_color &&& m.destination = 0)
    (hopp : get_piece_at_position b m.destination (negate_color b.turn_color) ≠ Piece.NONE) :
    ∃ b1, execute_move b m = some b1 ∧ undo_move b1 m = some b ∧
      b1.piece_bitboards =
        ((b.set_bitboard b.turn_color (get_piece_at_position b m.origin b.turn_color)
            (get_piece_positions b (get_piece_at_position b m.origin b.turn_color) b.turn_color ^^^
              (m.origin ||| m.destination))).set_bitboard (negate_color b.turn_color)
          (get_piece_at_position b m.destination (negate_color b.turn_color))
          (get_piece_positions b (get_piece_at_position b m.destination (negate_color b.turn_color))
            (negate_color b.turn_color) &&& bnot64 m.destination)).piece_bitboards := by
  obtain ⟨r, hr⟩ := update_castle_rights_eq b m (get_piece_at_position b m.origin b.turn_color)
  have hf67 : ¬ (m.flags = 6 ∨ m.flags = 7) := by omega
  have hf01 : ¬ (m.flags = 0 ∨ m.flags = 1) := by omega
  have hf23 : ¬ (m.flags = 2 ∨ m.flags = 3) := by omega
  have hf4 : (m.flags = 4) = True := eq_true hf
  rw [get_all_and_eq_zero_iff] at hown
  have hd : m.destination ≠ 0 := by rw [hdi]; exact Nat.pos_iff_ne_zero.mp (Nat.two_pow_pos i)
  have hcbit := get_piece_at_position_bit b m.destination _ hopp
  have hcb := hb (negate_color b.turn_color)
    (get_piece_at_position b m.destination (negate_color b.turn_color))
  generalize hmp : get_piece_at_position b m.origin b.turn_color = mp at hp hr ⊢
  generalize hcp : get_piece_at_position b m.destination (negate_color b.turn_color) = cp
    at hopp hcbit hcb ⊢
  have hg := get_piece_at_position_after_move b m.origin m.destination mp hp hd hown
  obtain ⟨pbs, t, cc, st, caps, mvs⟩ := b
  have hcp1 : get_piece_at_position
      ⟨pbs, t, cc.set t r, st.set t (cc.get t :: st.get t), caps, mvs⟩
      m.destination (negate_color t) = cp := hcp
  simp only [get_piece_positions] at hcbit hcb
  have hexec : execute_move ⟨pbs, t, cc, st, caps, mvs⟩ m = some
      ⟨(pbs.set t ((pbs.get t).set mp
            (((pbs.get t).get mp) ^^^ (m.origin ||| m.destination)))).set (negate_color t)
          ((pbs.get (negate_color t)).set cp
            (((pbs.get (negate_color t)).get cp) &&& bnot64 m.destination)),
        negate_color t, cc.set t r, st.set t (cc.get t :: st.get t),
        caps.set t (cp :: caps.get t), mvs.set t (m :: mvs.get t)⟩ := by
    unfold execute_move
    simp only [hf67, if_false, hf01, hf23, hf4, if_true, hmp, hr, hcp1, hopp, move_piece, hp,
      remove_piece, Option.bind, bind, pure, Board.set_bitboard, get_piece_positions,
      per_color_get_set_negate, hcbit, Board.push_captured, Board.push_move, set_turn_color]
  refine ⟨_, hexec, ?_, ?_⟩
  rotate_left
  · simp only [Board.set_bitboard, get_piece_positions, per_color_get_set_same,
      per_color_set_set, per_color_get_set_negate]
  have hg2 : get_piece_at_position
      ⟨(pbs.set t ((pbs.get t).set mp
            (((pbs.get t).get mp) ^^^ (m.origin ||| m.destination)))).set (negate_color t)
          ((pbs.get (negate_color t)).set cp
            (((pbs.get (negate_color t)).get cp) &&& bnot64 m.destination)),
        t, cc.set t r, st.set t (cc.get t :: st.get t),
        caps.set t (cp :: caps.get t), mvs.set t (m :: mvs.get t)⟩
      m.destination t = mp := by
    exact (get_piece_at_position_congr _ _ _ _
      (by simp [Board.set_bitboard, get_piece_positions])).trans hg
  have hclr : ((pbs.get (negate_color t)).get cp &&& bnot64 m.destination) &&& m.destination = 0 := by
    rw [hdi]; exact cleared_and _ _
  have hrest : ((pbs.get (negate_color t)).get cp &&& bnot64 m.destination) ||| m.destination
      = (pbs.get (negate_color t)).get cp := by
    rw [hdi]; exact clear_then_set _ _ hcb (by rw [← hdi]; exact hcbit)
  unfold undo_move
  simp only [hf67, if_false, hf01, hf23, hf4, if_true, set_turn_color, negate_color_negate_color,
    revert_castle_rights, per_color_get_set_same, Option.bind, bind, hg2, Board.pop_captured,
    move_piece, hp, set_piece, hopp, Board.pop_move, Board.set_bitboard,
    get_piece_positions, per_color_set_set, per_color_set_get, per_color_get_set_negate,
    per_color_get_set_negate_left, per_color_set_comm,
    piece_array_get_set_same _ _ _ hp, piece_array_get_set_same _ _ _ hopp,
    piece_array_set_set, xor_or_xor_or, piece_array_set_get, hclr, hrest, ne_eq, not_true_eq_false]

theorem roundtrip_en_passant (b : Board) (m : Move) (j : Nat) (hf : m.flags = 5)
    (hb : b.bounded) (hd : m.destination ≠ 0)
    (hcs : en_passant_capture_square b m.destination = 2 ^ j)
    (hp : get_piece_at_position b m.origin b.turn_color ≠ Piece.NONE)
    (hown : get_all_piece_positions b b.turn_color &&& m.destination = 0)
    (hopp : get_piece_at_position b (2 ^ j) (negate_color b.turn_color) ≠ Piece.NONE) :
    ∃ b1, execute_move b m = some b1 ∧ undo_move b1 m = some b ∧
      b1.piece_bitboards =
        ((b.set_bitboard b.turn_color (get_piece_at_position b m.origin b.turn_color)
            (get_piece_positions b (get_piece_at_position b m.origin b.turn_color) b.turn_color ^^^
              (m.origin ||| m.destination))).set_bitboard (negate_color b.turn_color)
          (get_piece_at_position b (2 ^ j) (negate_color b.turn_color))
          (get_piece_positions b (get_piece_at_position b (2 ^ j) (negate_color b.turn_color))
            (negate_color b.turn_color) &&& bnot64 (2 ^ j))).piece_bitboards := by
  obtain ⟨r, hr⟩ := update_castle_rights_eq b m (get_piece_at_position b m.origin b.turn_color)
  have hf67 : ¬ (m.flags = 6 ∨ m.flags = 7) := by omega
  have hf01 : ¬ (m.flags = 0 ∨ m.flags = 1) := by omega
  have hf23 : ¬ (m.flags = 2 ∨ m.flags = 3) := by omega
  have hf4 : (m.flags = 4) = False := eq_false (by omega)
  have hf5 : (m.flags = 5) = True := eq_true hf
  rw [get_all_and_eq_zero_iff] at hown
  have hcbit := get_piece_at_position_bit b (2 ^ j) _ hopp
  have hcb := hb (negate_color b.turn_color)
    (get_piece_at_position b (2 ^ j) (negate_color b.turn_color))
  generalize hmp : get_piece_at_position b m.origin b.turn_color = mp at hp hr ⊢
  generalize hcp : get_piece_at_position b (2 ^ j) (negate_color b.turn_color) = cp
    at hopp hcbit hcb ⊢
  have hg := get_piece_at_position_after_move b m.origin m.destination mp hp hd hown
  obtain ⟨pbs, t, cc, st, caps, mvs⟩ := b
  have hcs1 : (if t = Color.WHITE then south m.destination else north m.destination) = 2 ^ j :=
    hcs
  have hcp1 : get_piece_at_position
      ⟨pbs, t, cc.set t r, st.set t (cc.get t :: st.get t), caps, mvs⟩
      (2 ^ j) (negate_color t) = cp := hcp
  simp only [get_piece_positions] at hcbit hcb
  have hexec : execute_move ⟨pbs, t, cc, st, caps, mvs⟩ m = some
      ⟨(pbs.set t ((pbs.get t).set mp
            (((pbs.get t).get mp) ^^^ (m.origin ||| m.destination)))).set (negate_color t)
          ((pbs.get (negate_color t)).set cp
            (((pbs.get (negate_color t)).get cp) &&& bnot64 (2 ^ j))),
        negate_color t, cc.set t r, st.set t (cc.get t :: st.get t),
        caps.set t (cp :: caps.get t), mvs.set t (m :: mvs.get t)⟩ := by
    unfold execute_move
    simp only [hf67, if_false, hf01, hf23, hf4, hf5, if_true, hmp, hr, hcs1, hcp1, hopp,
      move_piece, hp, remove_piece, Option.bind, bind, pure, Board.set_bitboard,
      get_piece_positions, per_color_get_set_negate, hcbit, Board.push_captured, Board.push_move,
      set_turn_color]
  refine ⟨_, hexec, ?_, ?_⟩
  rotate_left
  · simp only [Board.set_bitboard, get_piece_positions, per_color_get_set_same,
      per_color_set_set, per_color_get_set_negate]
  have hg2 : get_piece_at_position
      ⟨(pbs.set t ((pbs.get t).set mp
            (((pbs.get t).get mp) ^^^ (m.origin ||| m.destination)))).set (negate_color t)
          ((pbs.get (negate_color t)).set cp
            (((pbs.get (negate_color t)).get cp) &&& bnot64 (2 ^ j))),
        t, cc.set t r, st.set t (cc.get t :: st.get t),
        caps.set t (cp :: caps.get t), mvs.set t (m :: mvs.get t)⟩
      m.destination t = mp := by
    exact (get_piece_at_position_congr _ _ _ _
      (by simp [Board.set_bitboard, get_piece_positions])).trans hg
  have hclr : ((pbs.get (negate_color t)).get cp &&& bnot64 (2 ^ j)) &&& 2 ^ j = 0 :=
    cleared_and _ _
  have hrest : ((pbs.get (negate_color t)).get cp &&& bnot64 (2 ^ j)) ||| 2 ^ j
      = (pbs.get (negate_color t)).get cp := clear_then_set _ _ hcb hcbit
  unfold undo_move
  simp only [hf67, if_false, hf01, hf23, hf4, hf5, if_true, set_turn_color,
    negate_color_negate_color, hcs1,
    revert_castle_rights, per_color_get_set_same, Option.bind, bind, hg2, Board.pop_captured,
    move_piece, hp, set_piece, hopp, Board.pop_move, Board.set_bitboard,
    get_piece_positions, per_color_set_set, per_color_set_get, per_color_get_set_negate,
    per_color_get_set_negate_left, per_color_set_comm,
    piece_array_get_set_same _ _ _ hp, piece_array_get_set_same _ _ _ hopp,
    piece_array_set_set, xor_or_xor_or, piece_array_set_get, hclr, hrest, ne_eq, not_true_eq_false]

theorem piece_array_restore_two (a : PieceArray) (p q : Piece) (v w : bitboard) :
    (((a.set p v).set q w).set p (a.get p)).set q (a.get q) = a := by
  cases p <;> cases q <;> rfl

theorem promotion_piece_ne (f : Nat) (h1 : 8 ≤ f) (h2 : f ≤ 15) :
    get_promotion_piece_from_flags f ≠ Piece.NONE ∧
      get_promotion_piece_from_flags f ≠ Piece.PAWN := by
  have : f = 8 ∨ f = 9 ∨ f = 10 ∨ f = 11 ∨ f = 12 ∨ f = 13 ∨ f = 14 ∨ f = 15 := by omega
  rcases this with h | h | h | h | h | h | h | h <;> subst h <;> decide

theorem roundtrip_promotion (b : Board) (m : Move) (i k : Nat)
    (hf8 : 8 ≤ m.flags) (hf11 : m.flags ≤ 11)
    (hb : b.bounded) (hoi : m.origin = 2 ^ i) (hdk : m.destination = 2 ^ k)
    (hp : get_piece_at_position b m.origin b.turn_color = Piece.PAWN)
    (hown : get_all_piece_positions b b.turn_color &&& m.destination = 0) :
    ∃ b1, execute_move b m = some b1 ∧ undo_move b1 m = some b ∧
      b1.piece_bitboards =
        ((b.set_bitboard b.turn_color Piece.PAWN
            (get_piece_positions b Piece.PAWN b.turn_color &&& bnot64 m.origin)).set_bitboard
          b.turn_color (get_promotion_piece_from_flags m.flags)
          (get_piece_positions b (get_promotion_piece_from_flags m.flags) b.turn_color |||
            m.destination)).piece_bitboards := by
  obtain ⟨r, hr⟩ := update_castle_rights_eq b m (get_piece_at_position b m.origin b.turn_color)
  have hf67 : ¬ (m.flags = 6 ∨ m.flags = 7) := by omega
  have hf01 : ¬ (m.flags = 0 ∨ m.flags = 1) := by omega
  have hf23 : ¬ (m.flags = 2 ∨ m.flags = 3) := by omega
  have hf4 : (m.flags = 4) = False := eq_false (by omega)
  have hf5 : (m.flags = 5) = False := eq_false (by omega)
  have hf12 : ¬ (12 ≤ m.flags ∧ m.flags ≤ 15) := by omega
  rw [get_all_and_eq_zero_iff] at hown
  have hP : Piece.PAWN ≠ Piece.NONE := by decide
  have hpbit := get_piece_at_position_bit b m.origin b.turn_color (by rw [hp]; exact hP)
  rw [hp] at hpbit hr
  obtain ⟨hqN, hqP⟩ := promotion_piece_ne m.flags hf8 (by omega)
  generalize hq : get_promotion_piece_from_flags m.flags = q at hqN hqP ⊢
  have hpb := hb b.turn_color Piece.PAWN
  have hqb := hb b.turn_color q
  have hqd := hown q
  obtain ⟨pbs, t, cc, st, caps, mvs⟩ := b
  simp only [get_piece_positions] at hpbit hpb hqb hqd
  have hexec : execute_move ⟨pbs, t, cc, st, caps, mvs⟩ m = some
      ⟨pbs.set t (((pbs.get t).set Piece.PAWN
            (((pbs.get t).get Piece.PAWN) &&& bnot64 m.origin)).set q
            (((pbs.get t).get q) ||| m.destination)),
        negate_color t, cc.set t r, st.set t (cc.get t :: st.get t), caps,
        mvs.set t (m :: mvs.get t)⟩ := by
    unfold execute_move
    simp only [hf67, if_false, hf01, hf23, hf4, hf5, hf12, if_true, hp, hr, hq,
      remove_piece, set_piece, hP, hqN, Option.bind, bind, pure, Board.set_bitboard,
      get_piece_positions, per_color_get_set_same, per_color_set_set, hpbit,
      piece_array_get_set_other _ _ _ _ hqP, hqd, Board.push_move, set_turn_color,
      ne_eq, not_true_eq_false]
  refine ⟨_, hexec, ?_, ?_⟩
  rotate_left
  · simp only [Board.set_bitboard, get_piece_positions, per_color_get_set_same,
      per_color_set_set, per_color_get_set_negate]
  have hclr : ((pbs.get t).get Piece.PAWN &&& bnot64 m.origin) &&& m.origin = 0 := by
    rw [hoi]; exact cleared_and _ _
  have hrest : ((pbs.get t).get Piece.PAWN &&& bnot64 m.origin) ||| m.origin
      = (pbs.get t).get Piece.PAWN := by
    rw [hoi]; exact clear_then_set _ _ hpb (by rw [← hoi]; exact hpbit)
  have hset : ((pbs.get t).get q ||| m.destination) &&& m.destination ≠ 0 := by
    rw [hdk]; exact set_and _ _
  have hrest2 : ((pbs.get t).get q ||| m.destination) &&& bnot64 m.destination
      = (pbs.get t).get q := by
    rw [hdk]; exact set_then_clear _ _ hqb (by rw [← hdk]; exact hqd)
  unfold undo_move
  simp only [hf67, if_false, hf01, hf23, hf4, hf5, hf12, if_true, set_turn_color, hq,
    negate_color_negate_color,
    revert_castle_rights, per_color_get_set_same, Option.bind, bind, pure,
    remove_piece, set_piece, hP, hqN, Board.pop_move, Board.set_bitboard,
    get_piece_positions, per_color_set_set, per_color_set_get,
    piece_array_get_set_same _ _ _ hP, piece_array_get_set_same _ _ _ hqN,
    piece_array_get_set_other _ _ _ _ hqP, piece_array_get_set_other _ _ _ _ hqP.symm,
    hclr, hrest, hset, hrest2, ne_eq, not_true_eq_false, not_false_eq_true,
    piece_array_restore_two]

theorem roundtrip_promotion_capture (b : Board) (m : Move) (i k : Nat)
    (hf12 : 12 ≤ m.flags) (hf15 : m.flags ≤ 15)
    (hb : b.bounded) (hoi : m.origin = 2 ^ i) (hdk : m.destination = 2 ^ k)
    (hp : get_piece_at_position b m.origin b.turn_color = Piece.PAWN)
    (hown : get_all_piece_positions b b.turn_color &&& m.destination = 0)
    (hopp : get_piece_at_position b m.destination (negate_color b.turn_color) ≠ Piece.NONE) :
    ∃ b1, execute_move b m = some b1 ∧ undo_move b1 m = some b ∧
      b1.piece_bitboards =
        (((b.set_bitboard b.turn_color Piece.PAWN
            (get_piece_positions b Piece.PAWN b.turn_color &&& bnot64 m.origin)).set_bitboard
          b.turn_color (get_promotion_piece_from_flags m.flags)
          (get_piece_positions b (get_promotion_piece_from_flags m.flags) b.turn_color |||
            m.destination)).set_bitboard (negate_color b.turn_color)
          (get_piece_at_position b m.destination (negate_color b.turn_color))
          (get_piece_positions b (get_piece_at_position b m.destination (negate_color b.turn_color))
            (negate_color b.turn_color) &&& bnot64 m.destination)).piece_bitboards := by
  obtain ⟨r, hr⟩ := update_castle_rights_eq b m (get_piece_at_position b m.origin b.turn_color)
  have hf67 : ¬ (m.flags = 6 ∨ m.flags = 7) := by omega
  have hf01 : ¬ (m.flags = 0 ∨ m.flags = 1) := by omega
  have hf23 : ¬ (m.flags = 2 ∨ m.flags = 3) := by omega
  have hf4 : (m.flags = 4) = False := eq_false (by omega)
  have hf5 : (m.flags = 5) = False := eq_false (by omega)
  have hfc : (12 ≤ m.flags ∧ m.flags ≤ 15) = True := eq_true ⟨hf12, hf15⟩
  rw [get_all_and_eq_zero_iff] at hown
  have hP : Piece.PAWN ≠ Piece.NONE := by decide
  have hpbit := get_piece_at_position_bit b m.origin b.turn_color (by rw [hp]; exact hP)
  rw [hp] at hpbit hr
  obtain ⟨hqN, hqP⟩ := promotion_piece_ne m.flags (by omega) hf15
  generalize hq : get_promotion_piece_from_flags m.flags = q at hqN hqP ⊢
  have hpb := hb b.turn_color Piece.PAWN
  have hqb := hb b.turn_color q
  have hqd := hown q
  have hcbit := get_piece_at_position_bit b m.destination _ hopp
  have hcb := hb (negate_color b.turn_color)
    (get_piece_at_position b m.destination (negate_color b.turn_color))
  generalize hcp : get_piece_at_position b m.destination (negate_color b.turn_color) = cp
    at hopp hcbit hcb ⊢
  obtain ⟨pbs, t, cc, st, caps, mvs⟩ := b
  simp only [get_piece_positions] at hpbit hpb hqb hqd hcbit hcb
  have hcp1 : get_piece_at_position
      ⟨pbs.set t (((pbs.get t).set Piece.PAWN
            (((pbs.get t).get Piece.PAWN) &&& bnot64 m.origin)).set q
            (((pbs.get t).get q) ||| m.destination)),
        t, cc.set t r, st.set t (cc.get t :: st.get t), caps, mvs⟩
      m.destination (negate_color t) = cp := by
    exact (get_piece_at_position_congr _ _ _ _ (by simp)).trans hcp
  have hexec : execute_move ⟨pbs, t, cc, st, caps, mvs⟩ m = some
      ⟨(pbs.set t (((pbs.get t).set Piece.PAWN
            (((pbs.get t).get Piece.PAWN) &&& bnot64 m.origin)).set q
            (((pbs.get t).get q) ||| m.destination))).set (negate_color t)
          ((pbs.get (negate_color t)).set cp
            (((pbs.get (negate_color t)).get cp) &&& bnot64 m.destination)),
        negate_color t, cc.set t r, st.set t (cc.get t :: st.get t),
        caps.set t (cp :: caps.get t), mvs.set t (m :: mvs.get t)⟩ := by
    unfold execute_move
    simp only [hf67, if_false, hf01, hf23, hf4, hf5, hfc, if_true, hp, hr, hq,
      remove_piece, set_piece, hP, hqN, Option.bind, bind, pure, Board.set_bitboard,
      get_piece_positions, per_color_get_set_same, per_color_set_set, hpbit,
      piece_array_get_set_other _ _ _ _ hqP, hqd, Board.push_move, set_turn_color,
      ne_eq, not_true_eq_false, hcp1, hopp, per_color_get_set_negate, hcbit,
      Board.push_captured, not_false_eq_true]
  refine ⟨_, hexec, ?_, ?_⟩
  rotate_left
  · simp only [Board.set_bitboard, get_piece_positions, per_color_get_set_same,
      per_color_set_set, per_color_get_set_negate]
  have hclr : ((pbs.get t).get Piece.PAWN &&& bnot64 m.origin) &&& m.origin = 0 := by
    rw [hoi]; exact cleared_and _ _
  have hrest : ((pbs.get t).get Piece.PAWN &&& bnot64 m.origin) ||| m.origin
      = (pbs.get t).get Piece.PAWN := by
    rw [hoi]; exact clear_then_set _ _ hpb (by rw [← hoi]; exact hpbit)
  have hset : ((pbs.get t).get q ||| m.destination) &&& m.destination ≠ 0 := by
    rw [hdk]; exact set_and _ _
  have hrest2 : ((pbs.get t).get q ||| m.destination) &&& bnot64 m.destination
      = (pbs.get t).get q := by
    rw [hdk]; exact set_then_clear _ _ hqb (by rw [← hdk]; exact hqd)
  have hclr3 : ((pbs.get (negate_color t)).get cp &&& bnot64 m.destination) &&& m.destination
      = 0 := by
    rw [hdk]; exact cleared_and _ _
  have hrest3 : ((pbs.get (negate_color t)).get cp &&& bnot64 m.destination) ||| m.destination
      = (pbs.get (negate_color t)).get cp := by
    rw [hdk]; exact clear_then_set _ _ hcb (by rw [← hdk]; exact hcbit)
  unfold undo_move
  simp only [hf67, if_false, hf01, hf23, hf4, hf5, hfc, if_true, set_turn_color, hq,
    negate_color_negate_color,
    revert_castle_rights, per_color_get_set_same, Option.bind, bind, pure,
    remove_piece, set_piece, hP, hqN, hopp, Board.pop_move, Board.pop_captured,
    Board.set_bitboard,
    get_piece_positions, per_color_set_set, per_color_set_get, per_color_get_set_negate,
    per_color_get_set_negate_left, per_color_set_comm,
    piece_array_get_set_same _ _ _ hP, piece_array_get_set_same _ _ _ hqN,
    piece_array_get_set_same _ _ _ hopp, piece_array_set_set, piece_array_set_get,
    piece_array_get_set_other _ _ _ _ hqP, piece_array_get_set_other _ _ _ _ hqP.symm,
    hclr, hrest, hset, hrest2, hclr3, hrest3, ne_eq, not_true_eq_false, not_false_eq_true,
    piece_array_restore_two]

/-! ## The step functions on a single square -/

theorem north_two_pow (i : Nat) (hi : i < 64) :
    north (2 ^ i) = if i < 56 then 2 ^ (i + 8) else 0 := by
  have h : ∀ k : Fin 64, north (2 ^ k.val) = if k.val < 56 then 2 ^ (k.val + 8) else 0 := by
    decide
  exact h ⟨i, hi⟩

theorem south_two_pow (i : Nat) (hi : i < 64) :
    south (2 ^ i) = if 8 ≤ i then 2 ^ (i - 8) else 0 := by
  have h : ∀ k : Fin 64, south (2 ^ k.val) = if 8 ≤ k.val then 2 ^ (k.val - 8) else 0 := by
    decide
  exact h ⟨i, hi⟩

theorem east_two_pow (i : Nat) (hi : i < 64) :
    east (2 ^ i) = if i % 8 ≠ 0 then 2 ^ (i - 1) else 0 := by
  have h : ∀ k : Fin 64, east (2 ^ k.val) = if k.val % 8 ≠ 0 then 2 ^ (k.val - 1) else 0 := by
    decide
  exact h ⟨i, hi⟩

theorem west_two_pow (i : Nat) (hi : i < 64) :
    west (2 ^ i) = if i % 8 ≠ 7 then 2 ^ (i + 1) else 0 := by
  have h : ∀ k : Fin 64, west (2 ^ k.val) = if k.val % 8 ≠ 7 then 2 ^ (k.val + 1) else 0 := by
    decide
  exact h ⟨i, hi⟩

theorem two_pow_ne_zero (i : Nat) : (2 : Nat) ^ i ≠ 0 :=
  Nat.pos_iff_ne_zero.mp (Nat.two_pow_pos i)

theorem en_passant_capture_square_is_square (b : Board) (d : bitboard) (hd : is_square d)
    (h : en_passant_capture_square b d ≠ 0) : is_square (en_passant_capture_square b d) := by
  obtain ⟨k, hk, rfl⟩ := hd
  unfold en_passant_capture_square at h ⊢
  split_ifs at h ⊢ with ht
  · rw [south_two_pow k hk] at h ⊢
    split_ifs at h ⊢ with h8
    · exact ⟨k - 8, by omega, rfl⟩
    · exact absurd rfl h
  · rw [north_two_pow k hk] at h ⊢
    split_ifs at h ⊢ with h8
    · exact ⟨k + 8, by omega, rfl⟩
    · exact absurd rfl h

/-- A move that fits the board can be executed and then undone, and the undo gives back the
board. -/
theorem roundtrip_of_move_fits (b : Board) (m : Move) (hb : b.bounded) (hx : move_fits b m) :
    ∃ b1, execute_move b m = some b1 ∧ undo_move b1 m = some b := by
  obtain ⟨⟨i, hi, hoi⟩, ⟨k, hk, hdk⟩, hfl, hother, hquiet, hcap, hep, hprom⟩ := hx
  have hd0 : m.destination ≠ 0 := by rw [hdk]; exact two_pow_ne_zero k
  by_cases h23 : m.flags = 2 ∨ m.flags = 3
  · obtain ⟨b1, h1, h2, _⟩ := roundtrip_castle b m h23
    exact ⟨b1, h1, h2⟩
  obtain ⟨hp, hown⟩ := hother h23
  by_cases h01 : m.flags = 0 ∨ m.flags = 1
  · obtain ⟨b1, h1, h2, _⟩ := roundtrip_quiet b m h01 hp hd0 hown
    exact ⟨b1, h1, h2⟩
  by_cases h4 : m.flags = 4
  · obtain ⟨b1, h1, h2, _⟩ := roundtrip_capture b m k h4 hb hdk hp hown
      ((get_piece_at_position_ne_none_iff _ _ _).mpr (hcap (Or.inl h4)))
    exact ⟨b1, h1, h2⟩
  by_cases h5 : m.flags = 5
  · obtain ⟨_, hcs⟩ := hep h5
    have hne : en_passant_capture_square b m.destination ≠ 0 := by
      intro h0; rw [h0] at hcs; exact hcs (Nat.and_zero _)
    obtain ⟨j, _, hj⟩ := en_passant_capture_square_is_square b m.destination ⟨k, hk, hdk⟩ hne
    obtain ⟨b1, h1, h2, _⟩ := roundtrip_en_passant b m j h5 hb hd0 hj hp hown (by
      rw [get_piece_at_position_ne_none_iff, ← hj]
      exact hcs)
    exact ⟨b1, h1, h2⟩
  have h8 : 8 ≤ m.flags ∧ m.flags ≤ 15 := by omega
  by_cases h11 : m.flags ≤ 11
  · obtain ⟨b1, h1, h2, _⟩ :=
      roundtrip_promotion b m i k h8.1 h11 hb hoi hdk (hprom h8.1) hown
    exact ⟨b1, h1, h2⟩
  · obtain ⟨b1, h1, h2, _⟩ :=
      roundtrip_promotion_capture b m i k (by omega) h8.2 hb hoi hdk (hprom h8.1) hown
        ((get_piece_at_position_ne_none_iff _ _ _).mpr (hcap (Or.inr ⟨by omega, h8.2⟩)))
    exact ⟨b1, h1, h2⟩

theorem move_direction_zero (d : Direction) : move_direction 0 d = 0 := by
  cases d <;> decide

theorem ray_zero (d : Direction) (k : Nat) : ray 0 d k = 0 := by
  induction k with
  | zero => rfl
  | succ k ih => rw [ray, move_direction_zero, ih]

theorem ray_succ_right (x : bitboard) (d : Direction) (k : Nat) :
    ray x d (k + 1) = move_direction (ray x d k) d := by
  induction k generalizing x with
  | zero => rfl
  | succ k ih => rw [ray, ih (move_direction x d)]; rfl

theorem step_square_fin : ∀ (i : Fin 64) (d : Direction),
    move_direction (2 ^ i.val) d = 0 ∨
      ∃ j, j < 64 ∧ move_direction (2 ^ i.val) d = 2 ^ j ∧
        (if ascending d then i.val < j else j < i.val) := by
  decide!

theorem step_square (i : Nat) (hi : i < 64) (d : Direction) :
    move_direction (2 ^ i) d = 0 ∨
      ∃ j, j < 64 ∧ move_direction (2 ^ i) d = 2 ^ j ∧
        (if ascending d then i < j else j < i) :=
  step_square_fin ⟨i, hi⟩ d

theorem ray_square (d : Direction) (k : Nat) : ∀ i, i < 64 →
    ray (2 ^ i) d k = 0 ∨
      ∃ j, j < 64 ∧ ray (2 ^ i) d k = 2 ^ j ∧
        (if ascending d then i + k ≤ j else j + k ≤ i) := by
  induction k with
  | zero =>
    intro i hi
    refine Or.inr ⟨i, hi, rfl, ?_⟩
    split_ifs <;> omega
  | succ k ih =>
    intro i hi
    rw [ray]
    rcases step_square i hi d with h0 | ⟨j, hj, hstep, hmono⟩
    · left; rw [h0, ray_zero]
    · rw [hstep]
      rcases ih j hj with h0 | ⟨l, hl, hray, hmono2⟩
      · left; exact h0
      · refine Or.inr ⟨l, hl, hray, ?_⟩
        split_ifs at hmono hmono2 ⊢ <;> omega

theorem two_pow_injective (i j : Nat) (h : (2 : Nat) ^ i = 2 ^ j) : i = j :=
  Nat.pow_right_injective (le_refl 2) h

theorem ray_square_off_board (d : Direction) (i : Nat) (hi : i < 64) :
    ray (2 ^ i) d 64 = 0 := by
  rcases ray_square d 64 i hi with h0 | ⟨j, hj, _, hmono⟩
  · exact h0
  · split_ifs at hmono <;> omega

theorem ray_square_ne_origin (d : Direction) (i k : Nat) (hi : i < 64) (hk : 1 ≤ k) :
    ray (2 ^ i) d k ≠ 2 ^ i := by
  intro h
  rcases ray_square d k i hi with h0 | ⟨j, hj, hray, hmono⟩
  · rw [h0] at h; exact two_pow_ne_zero i h.symm
  · rw [hray] at h
    have := two_pow_injective _ _ h
    split_ifs at hmono <;> omega

theorem ray_square_is_square (d : Direction) (i k : Nat) (hi : i < 64)
    (h : ray (2 ^ i) d k ≠ 0) : is_square (ray (2 ^ i) d k) := by
  rcases ray_square d k i hi with h0 | ⟨j, hj, hray, _⟩
  · exact absurd h0 h
  · exact ⟨j, hj, hray⟩

theorem ray_add (x : bitboard) (d : Direction) (j k : Nat) :
    ray x d (j + k) = ray (ray x d j) d k := by
  induction j generalizing x with
  | zero => simp [ray]
  | succ j ih => rw [Nat.add_right_comm, ray, ih, ray]

theorem ray_prefix_ne_zero (x : bitboard) (d : Direction) (j k : Nat) (hjk : j ≤ k)
    (h : ray x d k ≠ 0) : ray x d j ≠ 0 := by
  intro h0
  apply h
  obtain ⟨l, rfl⟩ := Nat.exists_eq_add_of_le hjk
  rw [ray_add, h0, ray_zero]

theorem step_inverse_fin : ∀ (i j : Fin 64) (d : Direction),
    move_direction (2 ^ i.val) d = 2 ^ j.val ↔
      move_direction (2 ^ j.val) (opposite d) = 2 ^ i.val := by
  decide!

theorem step_inverse (x y : bitboard) (hx : is_square x) (hy : is_square y) (d : Direction) :
    move_direction x d = y ↔ move_direction y (opposite d) = x := by
  obtain ⟨i, hi, rfl⟩ := hx
  obtain ⟨j, hj, rfl⟩ := hy
  exact step_inverse_fin ⟨i, hi⟩ ⟨j, hj⟩ d

theorem opposite_opposite (d : Direction) : opposite (opposite d) = d := by
  cases d <;> rfl

/-! ## Bitboards stay within 64 bits -/

theorem two64_pos : 0 < two64 := by decide

theorem is_square_lt (x : bitboard) (h : is_square x) : x < two64 := by
  obtain ⟨i, hi, rfl⟩ := h
  exact Nat.pow_lt_pow_right (by decide) hi

theorem bounded_set_bitboard (b : Board) (c : Color) (p : Piece) (v : bitboard)
    (hb : b.bounded) (hv : v < two64) : (b.set_bitboard c p v).bounded := by
  intro c1 p1
  by_cases hc : c1 = c
  · subst hc
    by_cases hp : p1 = p
    · subst hp
      by_cases hN : p1 = Piece.NONE
      · subst hN; exact two64_pos
      · rw [get_set_bitboard_same _ _ _ _ hN]; exact hv
    · rw [get_set_bitboard_other_piece _ _ _ _ _ hp]; exact hb _ _
  · rw [get_set_bitboard_other_color _ _ _ _ _ _ hc]; exact hb _ _

theorem bounded_of_piece_bitboards_eq (b1 b2 : Board)
    (h : b2.piece_bitboards = b1.piece_bitboards) (hb : b1.bounded) : b2.bounded := by
  intro c p
  have := hb c p
  simpa [get_piece_positions, h] using this

theorem bnot64_lt (x : bitboard) : bnot64 x < two64 := by
  unfold bnot64
  exact Nat.xor_lt_two_pow (by decide) (Nat.mod_lt _ two64_pos)

theorem move_piece_bounded (b b1 : Board) (p : Piece) (c : Color) (o d : bitboard)
    (hb : b.bounded) (ho : o < two64) (hd : d < two64)
    (h : move_piece b p c o d = some b1) : b1.bounded := by
  unfold move_piece at h
  split_ifs at h
  cases h
  exact bounded_set_bitboard _ _ _ _ hb
    (Nat.xor_lt_two_pow (hb _ _) (Nat.or_lt_two_pow ho hd))

theorem set_piece_bounded (b b1 : Board) (p : Piece) (c : Color) (pos : bitboard)
    (hb : b.bounded) (hpos : pos < two64)
    (h : set_piece b p c pos = some b1) : b1.bounded := by
  unfold set_piece at h
  split_ifs at h
  cases h
  exact bounded_set_bitboard _ _ _ _ hb (Nat.or_lt_two_pow (hb _ _) hpos)

theorem remove_piece_bounded (b b1 : Board) (p : Piece) (c : Color) (pos : bitboard)
    (hb : b.bounded) (h : remove_piece b p c pos = some b1) : b1.bounded := by
  unfold remove_piece at h
  split_ifs at h
  cases h
  exact bounded_set_bitboard _ _ _ _ hb (Nat.and_lt_two_pow _ (bnot64_lt _))

theorem castle_rook_origin_lookup_lt (d : bitboard) : castle_rook_origin_lookup d < two64 := by
  unfold castle_rook_origin_lookup
  split_ifs <;> decide

theorem castle_rook_destination_lookup_lt (d : bitboard) :
    castle_rook_destination_lookup d < two64 := by
  unfold castle_rook_destination_lookup
  split_ifs <;> decide

theorem update_castle_rights_piece_bitboards (b : Board) (m : Move) (p : Piece) :
    (update_castle_rights b m p).piece_bitboards = b.piece_bitboards := by
  obtain ⟨r, hr⟩ := update_castle_rights_eq b m p
  rw [hr]

theorem update_castle_rights_turn_color (b : Board) (m : Move) (p : Piece) :
    (update_castle_rights b m p).turn_color = b.turn_color := by
  obtain ⟨r, hr⟩ := update_castle_rights_eq b m p
  rw [hr]

theorem execute_castle_move_bounded (b b1 : Board) (o d : bitboard)
    (hb : b.bounded) (ho : o < two64) (hd : d < two64)
    (h : execute_castle_move b o d = some b1) : b1.bounded := by
  unfold execute_castle_move at h
  simp only [Option.bind_eq_bind, Option.bind_eq_some] at h
  obtain ⟨b2, h2, h3⟩ := h
  exact move_piece_bounded _ _ _ _ _ _ (move_piece_bounded _ _ _ _ _ _ hb ho hd h2)
    (castle_rook_origin_lookup_lt d) (castle_rook_destination_lookup_lt d) h3

/-- Executing a move keeps every bitboard within 64 bits. -/
theorem execute_move_bounded (b b1 : Board) (m : Move) (hb : b.bounded)
    (ho : m.origin < two64) (hd : m.destination < two64)
    (h : execute_move b m = some b1) : b1.bounded := by
  unfold execute_move at h
  simp only [] at h
  split_ifs at h with h67 h01 h23 h4 hN h5 ht hc
  all_goals simp only [Option.bind_eq_bind, Option.bind_eq_some, Option.some.injEq,
    Option.pure_def, exists_and_left] at h
  all_goals
    have hb1 := bounded_of_piece_bitboards_eq b
      (update_castle_rights b m (get_piece_at_position b m.origin b.turn_color))
      (update_castle_rights_piece_bitboards _ _ _) hb
  all_goals obtain ⟨b5, hh, rfl⟩ := h
  all_goals refine bounded_of_piece_bitboards_eq b5 _ rfl ?_
  · exact move_piece_bounded _ _ _ _ _ _ hb1 ho hd hh
  · exact execute_castle_move_bounded _ _ _ _ hb1 ho hd hh
  · cases hh
  · obtain ⟨b2, h2, b3, h3, rfl⟩ := hh
    exact bounded_of_piece_bitboards_eq b3 _ rfl
      (remove_piece_bounded _ _ _ _ _ (move_piece_bounded _ _ _ _ _ _ hb1 ho hd h2) h3)
  · obtain ⟨b3, h3, h4⟩ := hh
    refine remove_piece_bounded _ _ _ _ _ ?_ h4
    exact move_piece_bounded _ _ _ _ _ _
      (bounded_of_piece_bitboards_eq _ (Board.push_captured _ _ _) rfl hb1) ho hd h3
  · obtain ⟨b3, h3, h4⟩ := hh
    refine remove_piece_bounded _ _ _ _ _ ?_ h4
    exact move_piece_bounded _ _ _ _ _ _
      (bounded_of_piece_bitboards_eq _ (Board.push_captured _ _ _) rfl hb1) ho hd h3
  · obtain ⟨b2, h2, b3, h3, b4, h4, rfl⟩ := hh
    exact bounded_of_piece_bitboards_eq b4 _ rfl
      (remove_piece_bounded _ _ _ _ _
        (set_piece_bounded _ _ _ _ _ (remove_piece_bounded _ _ _ _ _ hb1 h2) hd h3) h4)
  · obtain ⟨b2, h2, b3, h3, rfl⟩ := hh
    exact set_piece_bounded _ _ _ _ _ (remove_piece_bounded _ _ _ _ _ hb1 h2) hd h3

/-! ## The ray cast of `get_sliding_attacks` -/

theorem ray_reverse (p q : bitboard) (d : Direction) (k : Nat) (hq : is_square q)
    (hp : is_square p) (h : ray q d k = p) :
    ∀ j, j ≤ k → ray p (opposite d) j = ray q d (k - j) := by
  obtain ⟨i, hi, rfl⟩ := hq
  have hne : ray (2 ^ i) d k ≠ 0 := by
    rw [h]
    obtain ⟨l, _, rfl⟩ := hp
    exact two_pow_ne_zero l
  intro j
  induction j with
  | zero => intro _; rw [Nat.sub_zero, h]; rfl
  | succ j ih =>
    intro hj
    rw [ray_succ_right, ih (by omega)]
    have hx : is_square (ray (2 ^ i) d (k - (j + 1))) :=
      ray_square_is_square d i _ hi (ray_prefix_ne_zero _ d _ k (by omega) hne)
    have hy : is_square (ray (2 ^ i) d (k - j)) :=
      ray_square_is_square d i _ hi (ray_prefix_ne_zero _ d _ k (by omega) hne)
    apply (step_inverse _ _ hx hy d).mp
    have : k - j = (k - (j + 1)) + 1 := by omega
    rw [this, ray_succ_right]

theorem testBit_square_iff (y : bitboard) (hy : is_square y) (t : Nat) :
    y.testBit t = true ↔ y = 2 ^ t := by
  obtain ⟨j, _, rfl⟩ := hy
  rw [Nat.testBit_two_pow]
  constructor
  · intro h; rw [of_decide_eq_true h]
  · intro h; exact decide_eq_true (two_pow_injective _ _ h)

theorem sliding_loop_spec (other : bitboard) (d : Direction) (t : Nat) :
    ∀ (fuel : Nat) (x acc r : bitboard), is_square x →
      sliding_loop other d fuel x acc = some r →
      (r.testBit t = true ↔
        (acc.testBit t = true ∨
          ∃ k, 1 ≤ k ∧ ray x d k = 2 ^ t ∧ ∀ j, j < k → ray x d j &&& other = 0)) := by
  intro fuel
  induction fuel with
  | zero => intro x acc r _ h; cases h
  | succ fuel ih =>
    intro x acc r hx h
    unfold sliding_loop at h
    split_ifs at h with hocc hstep
    · cases h
      constructor
      · intro hr; exact Or.inl hr
      · rintro (hr | ⟨k, hk, hray, _⟩)
        · exact hr
        · obtain ⟨l, rfl⟩ : ∃ l, k = l + 1 := ⟨k - 1, by omega⟩
          rw [ray, hstep, ray_zero] at hray
          exact absurd hray.symm (two_pow_ne_zero t)
    · have hy : is_square (move_direction x d) := by
        obtain ⟨i, hi, rfl⟩ := hx
        rcases step_square i hi d with h0 | ⟨j, hj, hj2, _⟩
        · exact absurd h0 hstep
        · exact ⟨j, hj, hj2⟩
      rw [ih _ _ _ hy h, Nat.testBit_or, Bool.or_eq_true, testBit_square_iff _ hy]
      constructor
      · rintro ((hacc | hyt) | ⟨k, hk, hray, hclear⟩)
        · exact Or.inl hacc
        · refine Or.inr ⟨1, le_refl 1, hyt, ?_⟩
          intro j hj
          obtain rfl : j = 0 := by omega
          exact hocc
        · refine Or.inr ⟨k + 1, by omega, hray, ?_⟩
          intro j hj
          rcases j with _ | j
          · exact hocc
          · exact hclear j (by omega)
      · rintro (hacc | ⟨k, hk, hray, hclear⟩)
        · exact Or.inl (Or.inl hacc)
        · obtain ⟨l, rfl⟩ : ∃ l, k = l + 1 := ⟨k - 1, by omega⟩
          rcases l with _ | l
          · exact Or.inl (Or.inr hray)
          · refine Or.inr ⟨l + 1, by omega, hray, ?_⟩
            intro j hj
            exact hclear (j + 1) (by omega)
    · cases h
      constructor
      · intro hr; exact Or.inl hr
      · rintro (hr | ⟨k, hk, _, hclear⟩)
        · exact hr
        · exact absurd (hclear 0 (by omega)) hocc

theorem sliding_loop_total (other : bitboard) (d : Direction) :
    ∀ (fuel : Nat) (x acc : bitboard), 1 ≤ fuel → ray x d fuel = 0 →
      ∃ r, sliding_loop other d fuel x acc = some r := by
  intro fuel
  induction fuel with
  | zero => intro x acc h; omega
  | succ fuel ih =>
    intro x acc _ hray
    unfold sliding_loop
    split_ifs with hocc hstep
    · exact ⟨_, rfl⟩
    · rcases fuel with _ | fuel
      · exact absurd hray hstep
      · exact ih _ _ (by omega) hray
    · exact ⟨_, rfl⟩

theorem shiftRight_le_self (x n : Nat) : x >>> n ≤ x := by
  rw [Nat.shiftRight_eq_div_pow]
  exact Nat.div_le_self _ _

theorem move_direction_lt (x : bitboard) (d : Direction) (hx : x < two64) :
    move_direction x d < two64 := by
  have hmod : ∀ y : Nat, y % two64 < two64 := fun y => Nat.mod_lt _ two64_pos
  have heast : ∀ y : Nat, east y < two64 := fun y =>
    Nat.lt_of_le_of_lt (shiftRight_le_self _ _) (Nat.and_lt_two_pow _ (bnot64_lt _))
  cases d
  · exact hmod _
  · exact heast _
  · exact Nat.lt_of_le_of_lt (shiftRight_le_self _ _) hx
  · exact hmod _
  · exact hmod _
  · exact hmod _
  · exact Nat.lt_of_le_of_lt (shiftRight_le_self _ _) (heast _)
  · exact Nat.lt_of_le_of_lt (shiftRight_le_self _ _) (hmod _)

theorem sliding_loop_lt (other : bitboard) (d : Direction) :
    ∀ (fuel : Nat) (x acc r : bitboard), x < two64 → acc < two64 →
      sliding_loop other d fuel x acc = some r → r < two64 := by
  intro fuel
  induction fuel with
  | zero => intro x acc r _ _ h; cases h
  | succ fuel ih =>
    intro x acc r hx hacc h
    unfold sliding_loop at h
    split_ifs at h with hocc hstep
    · cases h; exact hacc
    · exact ih _ _ _ (move_direction_lt x d hx)
        (Nat.or_lt_two_pow hacc (move_direction_lt x d hx)) h
    · cases h; exact hacc

theorem and_and_bnot64_self (x y : bitboard) : x &&& (y &&& bnot64 x) = 0 := by
  apply Nat.eq_of_testBit_eq
  intro j
  simp only [Nat.testBit_and, testBit_bnot64, Nat.zero_testBit]
  cases x.testBit j <;> simp

theorem two_pow_and_and_bnot64 (l i occ : Nat) (hl : l < 64) (hli : l ≠ i) :
    2 ^ l &&& (occ &&& bnot64 (2 ^ i)) = 2 ^ l &&& occ := by
  apply Nat.eq_of_testBit_eq
  intro j
  simp only [Nat.testBit_and, testBit_bnot64, Nat.testBit_two_pow]
  by_cases hlj : l = j
  · subst hlj
    have : ¬ i = l := fun h => hli h.symm
    simp [hl, this]
  · simp [hlj]

theorem ray_and_other (i : Nat) (hi : i < 64) (d : Direction) (occ : bitboard) (j : Nat)
    (hj : 1 ≤ j) :
    ray (2 ^ i) d j &&& (occ &&& bnot64 (2 ^ i)) = ray (2 ^ i) d j &&& occ := by
  rcases ray_square d j i hi with h0 | ⟨l, hl, hray, hmono⟩
  · rw [h0, Nat.zero_and, Nat.zero_and]
  · rw [hray]
    apply two_pow_and_and_bnot64 _ _ _ hl
    split_ifs at hmono <;> omega

/-- On a board where White and Black share no square, the ray cast from a square returns a
64-bit value that misses the origin and meets a square exactly when that square lies on the
open ray. -/
theorem get_sliding_attacks_spec (b : Board)
    (hwb : get_all_piece_positions b Color.WHITE &&& get_all_piece_positions b Color.BLACK = 0)
    (p : bitboard) (hp : is_square p) (d : Direction) :
    ∃ r, get_sliding_attacks b p d = some r ∧ r < two64 ∧ r &&& p = 0 ∧
      ∀ q, is_square q → (r &&& q ≠ 0 ↔ on_open_ray b p d q) := by
  have hplt := is_square_lt p hp
  obtain ⟨i, hi, rfl⟩ := hp
  obtain ⟨r, hr⟩ := sliding_loop_total (occupancy b &&& bnot64 (2 ^ i)) d 64 (2 ^ i) 0
    (by decide) (ray_square_off_board d i hi)
  have hgsa : get_sliding_attacks b (2 ^ i) d = some r := by
    unfold get_sliding_attacks
    rw [if_neg (by rw [hwb]; exact fun h => h rfl)]
    exact hr
  have hspec : ∀ t, r.testBit t = true ↔ on_open_ray b (2 ^ i) d (2 ^ t) := by
    intro t
    rw [sliding_loop_spec _ d t 64 (2 ^ i) 0 r ⟨i, hi, rfl⟩ hr]
    simp only [Nat.zero_testBit, Bool.false_eq_true, false_or, on_open_ray]
    constructor
    · rintro ⟨k, hk, hray, hclear⟩
      refine ⟨k, hk, hray, fun j hj1 hjk => ?_⟩
      rw [← ray_and_other i hi d _ j hj1]
      exact hclear j hjk
    · rintro ⟨k, hk, hray, hclear⟩
      refine ⟨k, hk, hray, fun j hjk => ?_⟩
      rcases j with _ | j
      · exact and_and_bnot64_self _ _
      · rw [ray_and_other i hi d _ (j + 1) (by omega)]
        exact hclear (j + 1) (by omega) hjk
  refine ⟨r, hgsa, sliding_loop_lt _ d 64 _ 0 r hplt two64_pos hr, ?_, ?_⟩
  · rw [and_two_pow_eq_zero_iff]
    by_contra hbit
    obtain ⟨k, hk, hray, _⟩ := (hspec i).mp (by simpa using hbit)
    exact ray_square_ne_origin d i k hi hk hray
  · rintro q ⟨t, _, rfl⟩
    rw [and_two_pow_ne_zero_iff]
    exact hspec t

theorem on_open_ray_reverse (b : Board) (p q : bitboard) (d : Direction) (hp : is_square p)
    (hq : is_square q) (h : on_open_ray b q d p) : on_open_ray b p (opposite d) q := by
  obtain ⟨k, hk, hray, hclear⟩ := h
  have hrev := ray_reverse p q d k hq hp hray
  refine ⟨k, hk, ?_, ?_⟩
  · rw [hrev k (le_refl k), Nat.sub_self]; rfl
  · intro j hj1 hjk
    rw [hrev j (by omega)]
    exact hclear (k - j) (by omega) (by omega)

theorem on_open_ray_symm (b : Board) (p q : bitboard) (d : Direction) (hp : is_square p)
    (hq : is_square q) : on_open_ray b q d p ↔ on_open_ray b p (opposite d) q := by
  constructor
  · exact on_open_ray_reverse b p q d hp hq
  · intro h
    have := on_open_ray_reverse b q p (opposite d) hq hp h
    rwa [opposite_opposite] at this

theorem or_and_ne_zero_iff (a b p : Nat) : (a ||| b) &&& p ≠ 0 ↔ a &&& p ≠ 0 ∨ b &&& p ≠ 0 := by
  rw [ne_eq, or_and_eq_zero_iff]
  tauto

/-- The squares a rook on `p` reaches: the open rays in the four orthogonal directions. -/
theorem get_rook_attacks_spec (b : Board)
    (hwb : get_all_piece_positions b Color.WHITE &&& get_all_piece_positions b Color.BLACK = 0)
    (p : bitboard) (hp : is_square p) :
    ∃ n e s w, get_sliding_attacks b p Direction.NORTH = some n ∧
      get_sliding_attacks b p Direction.EAST = some e ∧
      get_sliding_attacks b p Direction.SOUTH = some s ∧
      get_sliding_attacks b p Direction.WEST = some w ∧
      get_rook_attacks b p = some (n ||| e ||| s ||| w) ∧ n ||| e ||| s ||| w < two64 ∧
      ∀ q, is_square q → ((n ||| e ||| s ||| w) &&& q ≠ 0 ↔
        (on_open_ray b p Direction.NORTH q ∨ on_open_ray b p Direction.EAST q ∨
          on_open_ray b p Direction.SOUTH q ∨ on_open_ray b p Direction.WEST q)) := by
  obtain ⟨n, hn, hnlt, _, hnq⟩ := get_sliding_attacks_spec b hwb p hp Direction.NORTH
  obtain ⟨e, he, helt, _, heq⟩ := get_sliding_attacks_spec b hwb p hp Direction.EAST
  obtain ⟨s, hs, hslt, _, hsq⟩ := get_sliding_attacks_spec b hwb p hp Direction.SOUTH
  obtain ⟨w, hw, hwlt, _, hwq⟩ := get_sliding_attacks_spec b hwb p hp Direction.WEST
  refine ⟨n, e, s, w, hn, he, hs, hw, ?_, ?_, ?_⟩
  · simp [get_rook_attacks, hn, he, hs, hw]
  · exact Nat.or_lt_two_pow (Nat.or_lt_two_pow (Nat.or_lt_two_pow hnlt helt) hslt) hwlt
  · intro q hq
    rw [or_and_ne_zero_iff, or_and_ne_zero_iff, or_and_ne_zero_iff, hnq q hq, heq q hq,
      hsq q hq, hwq q hq]
    tauto

/-- The squares a bishop on `p` reaches: the open rays in the four diagonal directions. -/
theorem get_bishop_attacks_spec (b : Board)
    (hwb : get_all_piece_positions b Color.WHITE &&& get_all_piece_positions b Color.BLACK = 0)
    (p : bitboard) (hp : is_square p) :
    ∃ ne nw se sw, get_sliding_attacks b p Direction.NORTHEAST = some ne ∧
      get_sliding_attacks b p Direction.NORTHWEST = some nw ∧
      get_sliding_attacks b p Direction.SOUTHEAST = some se ∧
      get_sliding_attacks b p Direction.SOUTHWEST = some sw ∧
      get_bishop_attacks b p = some (ne ||| nw ||| se ||| sw) ∧
      ne ||| nw ||| se ||| sw < two64 ∧
      ∀ q, is_square q → ((ne ||| nw ||| se ||| sw) &&& q ≠ 0 ↔
        (on_open_ray b p Direction.NORTHEAST q ∨ on_open_ray b p Direction.NORTHWEST q ∨
          on_open_ray b p Direction.SOUTHEAST q ∨ on_open_ray b p Direction.SOUTHWEST q)) := by
  obtain ⟨n, hn, hnlt, _, hnq⟩ := get_sliding_attacks_spec b hwb p hp Direction.NORTHEAST
  obtain ⟨e, he, helt, _, heq⟩ := get_sliding_attacks_spec b hwb p hp Direction.NORTHWEST
  obtain ⟨s, hs, hslt, _, hsq⟩ := get_sliding_attacks_spec b hwb p hp Direction.SOUTHEAST
  obtain ⟨w, hw, hwlt, _, hwq⟩ := get_sliding_attacks_spec b hwb p hp Direction.SOUTHWEST
  refine ⟨n, e, s, w, hn, he, hs, hw, ?_, ?_, ?_⟩
  · simp [get_bishop_attacks, hn, he, hs, hw]
  · exact Nat.or_lt_two_pow (Nat.or_lt_two_pow (Nat.or_lt_two_pow hnlt helt) hslt) hwlt
  · intro q hq
    rw [or_and_ne_zero_iff, or_and_ne_zero_iff, or_and_ne_zero_iff, hnq q hq, heq q hq,
      hsq q hq, hwq q hq]
    tauto

/-! ### The ray cast terminates from every 64-bit position -/

theorem file_h_testBit_fin : ∀ i : Fin 64, FILE_H.testBit i.val = decide (i.val % 8 = 0) := by
  decide

theorem file_a_testBit_fin : ∀ i : Fin 64, FILE_A.testBit i.val = decide (i.val % 8 = 7) := by
  decide

theorem bit_origin_north (x : bitboard) (j : Nat) (h : (north x).testBit j = true) :
    ∃ i, i < 64 ∧ x.testBit i = true ∧ north (2 ^ i) = 2 ^ j := by
  unfold north two64 at h
  rw [Nat.testBit_mod_two_pow, Nat.testBit_shiftLeft] at h
  simp only [Bool.and_eq_true, decide_eq_true_eq, ge_iff_le] at h
  obtain ⟨hj, h8, hx⟩ := h
  refine ⟨j - 8, by omega, hx, ?_⟩
  rw [north_two_pow _ (by omega), if_pos (by omega)]
  congr 1
  omega

theorem bit_origin_south (x : bitboard) (j : Nat) (hx : x < two64)
    (h : (south x).testBit j = true) :
    ∃ i, i < 64 ∧ x.testBit i = true ∧ south (2 ^ i) = 2 ^ j := by
  unfold south at h
  rw [Nat.testBit_shiftRight] at h
  have h64 : 8 + j < 64 := by
    by_contra hge
    have : x.testBit (8 + j) = false :=
      Nat.testBit_lt_two_pow
        (Nat.lt_of_lt_of_le hx (Nat.pow_le_pow_right (by decide) (by omega)))
    rw [this] at h
    exact absurd h (by decide)
  refine ⟨8 + j, h64, h, ?_⟩
  rw [south_two_pow _ h64, if_pos (by omega)]
  congr 1
  omega

theorem bit_origin_east (x : bitboard) (j : Nat) (h : (east x).testBit j = true) :
    ∃ i, i < 64 ∧ x.testBit i = true ∧ east (2 ^ i) = 2 ^ j := by
  unfold east at h
  rw [Nat.testBit_shiftRight, Nat.testBit_and, testBit_bnot64] at h
  simp only [Bool.and_eq_true, decide_eq_true_eq, Bool.not_eq_true'] at h
  obtain ⟨hx, h64, hfile⟩ := h
  have := file_h_testBit_fin ⟨1 + j, h64⟩
  simp only [hfile] at this
  have hmod : (1 + j) % 8 ≠ 0 := by
    intro h0
    rw [h0] at this
    exact absurd this (by decide)
  refine ⟨1 + j, h64, hx, ?_⟩
  rw [east_two_pow _ h64, if_pos hmod]
  congr 1
  omega

theorem bit_origin_west (x : bitboard) (j : Nat) (h : (west x).testBit j = true) :
    ∃ i, i < 64 ∧ x.testBit i = true ∧ west (2 ^ i) = 2 ^ j := by
  unfold west two64 at h
  rw [Nat.testBit_mod_two_pow, Nat.testBit_shiftLeft, Nat.testBit_and, testBit_bnot64] at h
  simp only [Bool.and_eq_true, decide_eq_true_eq, Bool.not_eq_true', ge_iff_le] at h
  obtain ⟨hj, h1, hx, h64, hfile⟩ := h
  have := file_a_testBit_fin ⟨j - 1, h64⟩
  simp only [hfile] at this
  have hmod : (j - 1) % 8 ≠ 7 := by
    intro h0
    rw [h0] at this
    exact absurd this (by decide)
  refine ⟨j - 1, h64, hx, ?_⟩
  rw [west_two_pow _ h64, if_pos hmod]
  congr 1
  omega

theorem east_lt (x : bitboard) : east x < two64 :=
  Nat.lt_of_le_of_lt (shiftRight_le_self _ _) (Nat.and_lt_two_pow _ (bnot64_lt _))

theorem west_lt (x : bitboard) : west x < two64 := Nat.mod_lt _ two64_pos

theorem bit_origin (x : bitboard) (d : Direction) (j : Nat) (hx : x < two64)
    (h : (move_direction x d).testBit j = true) :
    ∃ i, i < 64 ∧ x.testBit i = true ∧ move_direction (2 ^ i) d = 2 ^ j := by
  cases d with
  | NORTH => exact bit_origin_north x j h
  | EAST => exact bit_origin_east x j h
  | SOUTH => exact bit_origin_south x j hx h
  | WEST => exact bit_origin_west x j h
  | NORTHEAST =>
    obtain ⟨i1, _, h1, hn⟩ := bit_origin_north (east x) j h
    obtain ⟨i, hi, h2, he⟩ := bit_origin_east x i1 h1
    exact ⟨i, hi, h2, by simp only [move_direction, he, hn]⟩
  | NORTHWEST =>
    obtain ⟨i1, _, h1, hn⟩ := bit_origin_north (west x) j h
    obtain ⟨i, hi, h2, he⟩ := bit_origin_west x i1 h1
    exact ⟨i, hi, h2, by simp only [move_direction, he, hn]⟩
  | SOUTHEAST =>
    obtain ⟨i1, _, h1, hn⟩ := bit_origin_south (east x) j (east_lt x) h
    obtain ⟨i, hi, h2, he⟩ := bit_origin_east x i1 h1
    exact ⟨i, hi, h2, by simp only [move_direction, he, hn]⟩
  | SOUTHWEST =>
    obtain ⟨i1, _, h1, hn⟩ := bit_origin_south (west x) j (west_lt x) h
    obtain ⟨i, hi, h2, he⟩ := bit_origin_west x i1 h1
    exact ⟨i, hi, h2, by simp only [move_direction, he, hn]⟩

theorem ray_bit_origin (d : Direction) (k : Nat) : ∀ (x : bitboard) (j : Nat), x < two64 →
    (ray x d k).testBit j = true → ∃ i, i < 64 ∧ x.testBit i = true ∧ ray (2 ^ i) d k = 2 ^ j := by
  induction k with
  | zero =>
    intro x j hx h
    have hj : j < 64 := by
      by_contra hge
      have : x.testBit j = false :=
        Nat.testBit_lt_two_pow
          (Nat.lt_of_lt_of_le hx (Nat.pow_le_pow_right (by decide) (by omega)))
      rw [ray, this] at h
      exact absurd h (by decide)
    exact ⟨j, hj, h, rfl⟩
  | succ k ih =>
    intro x j hx h
    rw [ray] at h
    obtain ⟨i1, _, h1, hray⟩ := ih _ j (move_direction_lt x d hx) h
    obtain ⟨i, hi, h2, hstep⟩ := bit_origin x d i1 hx h1
    exact ⟨i, hi, h2, by rw [ray, hstep, hray]⟩

theorem ray_off_board (x : bitboard) (d : Direction) (hx : x < two64) : ray x d 64 = 0 := by
  by_contra hne
  obtain ⟨j, hj⟩ := Nat.ne_zero_implies_bit_true hne
  obtain ⟨i, hi, _, hray⟩ := ray_bit_origin d 64 x j hx hj
  rw [ray_square_off_board d i hi] at hray
  exact two_pow_ne_zero j hray.symm

/-- On a board where White and Black share no square the ray cast answers for every 64-bit
position. -/
theorem get_sliding_attacks_total (b : Board)
    (hwb : get_all_piece_positions b Color.WHITE &&& get_all_piece_positions b Color.BLACK = 0)
    (x : bitboard) (hx : x < two64) (d : Direction) :
    ∃ r, get_sliding_attacks b x d = some r := by
  unfold get_sliding_attacks
  rw [if_neg (by rw [hwb]; exact fun h => h rfl)]
  exact sliding_loop_total _ d 64 x 0 (by decide) (ray_off_board x d hx)

theorem get_piece_attacks_total (b : Board)
    (hwb : get_all_piece_positions b Color.WHITE &&& get_all_piece_positions b Color.BLACK = 0)
    (k : Piece) (hk : k ≠ Piece.NONE) (x : bitboard) (hx : x < two64) (c : Color) :
    ∃ a, get_piece_attacks b k x c = some a := by
  obtain ⟨n, hn⟩ := get_sliding_attacks_total b hwb x hx Direction.NORTH
  obtain ⟨e, he⟩ := get_sliding_attacks_total b hwb x hx Direction.EAST
  obtain ⟨s, hs⟩ := get_sliding_attacks_total b hwb x hx Direction.SOUTH
  obtain ⟨w, hw⟩ := get_sliding_attacks_total b hwb x hx Direction.WEST
  obtain ⟨ne, hne⟩ := get_sliding_attacks_total b hwb x hx Direction.NORTHEAST
  obtain ⟨nw, hnw⟩ := get_sliding_attacks_total b hwb x hx Direction.NORTHWEST
  obtain ⟨se, hse⟩ := get_sliding_attacks_total b hwb x hx Direction.SOUTHEAST
  obtain ⟨sw, hsw⟩ := get_sliding_attacks_total b hwb x hx Direction.SOUTHWEST
  cases k with
  | NONE => exact absurd rfl hk
  | PAWN => exact ⟨_, rfl⟩
  | KNIGHT => exact ⟨_, rfl⟩
  | KING => exact ⟨_, rfl⟩
  | ROOK =>
    exact ⟨n ||| e ||| s ||| w, by simp [get_piece_attacks, get_rook_attacks, hn, he, hs, hw]⟩
  | BISHOP =>
    exact ⟨ne ||| nw ||| se ||| sw,
      by simp [get_piece_attacks, get_bishop_attacks, hne, hnw, hse, hsw]⟩
  | QUEEN =>
    exact ⟨(ne ||| nw ||| se ||| sw) ||| (n ||| e ||| s ||| w),
      by simp [get_piece_attacks, get_queen_attacks, get_rook_attacks,
        get_bishop_attacks, hn, he, hs, hw, hne, hnw, hse, hsw]⟩

/-! ## The attack test -/

theorem pawn_attacks_symm_fin : ∀ (c : Color) (i j : Fin 64),
    pawn_attacks_lookups (negate_color c) (2 ^ i.val) &&& 2 ^ j.val ≠ 0 ↔
      pawn_attacks_lookups c (2 ^ j.val) &&& 2 ^ i.val ≠ 0 := by
  decide!

theorem knight_moves_symm_fin : ∀ (i j : Fin 64),
    knight_moves_lookup (2 ^ i.val) &&& 2 ^ j.val ≠ 0 ↔
      knight_moves_lookup (2 ^ j.val) &&& 2 ^ i.val ≠ 0 := by
  decide!

theorem king_moves_symm_fin : ∀ (i j : Fin 64),
    king_moves_lookup (2 ^ i.val) &&& 2 ^ j.val ≠ 0 ↔
      king_moves_lookup (2 ^ j.val) &&& 2 ^ i.val ≠ 0 := by
  decide!

theorem leaper_lookups_lt_fin : ∀ (i : Fin 64),
    pawn_attacks_lookups Color.WHITE (2 ^ i.val) < two64 ∧
      pawn_attacks_lookups Color.BLACK (2 ^ i.val) < two64 ∧
      knight_moves_lookup (2 ^ i.val) < two64 ∧ king_moves_lookup (2 ^ i.val) < two64 := by
  decide!

theorem and_ne_zero_iff_exists_square (a bb : bitboard) (ha : a < two64) :
    a &&& bb ≠ 0 ↔ ∃ p, is_square p ∧ bb &&& p ≠ 0 ∧ a &&& p ≠ 0 := by
  constructor
  · intro h
    obtain ⟨i, hi⟩ := Nat.ne_zero_implies_bit_true h
    rw [Nat.testBit_and, Bool.and_eq_true] at hi
    have hi64 : i < 64 := by
      by_contra hge
      have : a.testBit i = false :=
        Nat.testBit_lt_two_pow
          (Nat.lt_of_lt_of_le ha (Nat.pow_le_pow_right (by decide) (by omega)))
      rw [this] at hi
      exact absurd hi.1 (by decide)
    exact ⟨2 ^ i, ⟨i, hi64, rfl⟩, (and_two_pow_ne_zero_iff _ _).mpr hi.2,
      (and_two_pow_ne_zero_iff _ _).mpr hi.1⟩
  · rintro ⟨p, ⟨i, _, rfl⟩, hb, ha2⟩ h0
    rw [and_two_pow_ne_zero_iff] at hb ha2
    have := congrArg (fun y => y.testBit i) h0
    simp [ha2, hb] at this

theorem rook_attacks_symm (b : Board)
    (hwb : get_all_piece_positions b Color.WHITE &&& get_all_piece_positions b Color.BLACK = 0)
    (sq p : bitboard) (hsq : is_square sq) (hp : is_square p) :
    ∃ a1 a2, get_rook_attacks b sq = some a1 ∧ get_rook_attacks b p = some a2 ∧
      a1 < two64 ∧ (a1 &&& p ≠ 0 ↔ a2 &&& sq ≠ 0) := by
  obtain ⟨n, e, s, w, _, _, _, _, h1, hlt, hq1⟩ := get_rook_attacks_spec b hwb sq hsq
  obtain ⟨n2, e2, s2, w2, _, _, _, _, h2, _, hq2⟩ := get_rook_attacks_spec b hwb p hp
  refine ⟨_, _, h1, h2, hlt, ?_⟩
  rw [hq1 p hp, hq2 sq hsq, on_open_ray_symm b p sq Direction.NORTH hp hsq,
    on_open_ray_symm b p sq Direction.EAST hp hsq, on_open_ray_symm b p sq Direction.SOUTH hp hsq,
    on_open_ray_symm b p sq Direction.WEST hp hsq]
  simp only [opposite]
  tauto

theorem bishop_attacks_symm (b : Board)
    (hwb : get_all_piece_positions b Color.WHITE &&& get_all_piece_positions b Color.BLACK = 0)
    (sq p : bitboard) (hsq : is_square sq) (hp : is_square p) :
    ∃ a1 a2, get_bishop_attacks b sq = some a1 ∧ get_bishop_attacks b p = some a2 ∧
      a1 < two64 ∧ (a1 &&& p ≠ 0 ↔ a2 &&& sq ≠ 0) := by
  obtain ⟨n, e, s, w, _, _, _, _, h1, hlt, hq1⟩ := get_bishop_attacks_spec b hwb sq hsq
  obtain ⟨n2, e2, s2, w2, _, _, _, _, h2, _, hq2⟩ := get_bishop_attacks_spec b hwb p hp
  refine ⟨_, _, h1, h2, hlt, ?_⟩
  rw [hq1 p hp, hq2 sq hsq, on_open_ray_symm b p sq Direction.NORTHEAST hp hsq,
    on_open_ray_symm b p sq Direction.NORTHWEST hp hsq,
    on_open_ray_symm b p sq Direction.SOUTHEAST hp hsq,
    on_open_ray_symm b p sq Direction.SOUTHWEST hp hsq]
  simp only [opposite]
  tauto

/-- Attack sets are symmetric: the set of kind `k` computed on `sq` for the opposite colour
meets the square `p` exactly when the set computed on `p` for the colour meets `sq`. -/
theorem piece_attacks_symm (b : Board)
    (hwb : get_all_piece_positions b Color.WHITE &&& get_all_piece_positions b Color.BLACK = 0)
    (k : Piece) (hk : k ≠ Piece.NONE) (c : Color) (sq p : bitboard) (hsq : is_square sq)
    (hp : is_square p) :
    ∃ a1 a2, get_piece_attacks b k sq (negate_color c) = some a1 ∧
      get_piece_attacks b k p c = some a2 ∧ a1 < two64 ∧ (a1 &&& p ≠ 0 ↔ a2 &&& sq ≠ 0) := by
  cases k with
  | NONE => exact absurd rfl hk
  | PAWN =>
    obtain ⟨i, hi, rfl⟩ := hsq
    obtain ⟨j, hj, rfl⟩ := hp
    refine ⟨_, _, rfl, rfl, ?_, pawn_attacks_symm_fin c ⟨i, hi⟩ ⟨j, hj⟩⟩
    have := leaper_lookups_lt_fin ⟨i, hi⟩
    cases c
    · exact this.2.1
    · exact this.1
  | KNIGHT =>
    obtain ⟨i, hi, rfl⟩ := hsq
    obtain ⟨j, hj, rfl⟩ := hp
    exact ⟨_, _, rfl, rfl, (leaper_lookups_lt_fin ⟨i, hi⟩).2.2.1,
      knight_moves_symm_fin ⟨i, hi⟩ ⟨j, hj⟩⟩
  | KING =>
    obtain ⟨i, hi, rfl⟩ := hsq
    obtain ⟨j, hj, rfl⟩ := hp
    exact ⟨_, _, rfl, rfl, (leaper_lookups_lt_fin ⟨i, hi⟩).2.2.2,
      king_moves_symm_fin ⟨i, hi⟩ ⟨j, hj⟩⟩
  | ROOK => exact rook_attacks_symm b hwb sq p hsq hp
  | BISHOP => exact bishop_attacks_symm b hwb sq p hsq hp
  | QUEEN =>
    obtain ⟨r1, r2, hr1, hr2, hrlt, hr⟩ := rook_attacks_symm b hwb sq p hsq hp
    obtain ⟨d1, d2, hd1, hd2, hdlt, hd⟩ := bishop_attacks_symm b hwb sq p hsq hp
    refine ⟨d1 ||| r1, d2 ||| r2, ?_, ?_, Nat.or_lt_two_pow hdlt hrlt, ?_⟩
    · simp [get_piece_attacks, get_queen_attacks, hr1, hd1]
    · simp [get_piece_attacks, get_queen_attacks, hr2, hd2]
    · rw [or_and_ne_zero_iff, or_and_ne_zero_iff, hr, hd]

theorem attacked_loop_spec (b : Board) (sq : bitboard) (c : Color) :
    ∀ l : List Piece,
      (∀ k ∈ l, ∃ a, get_piece_attacks b k sq (negate_color c) = some a) →
      ∃ r, attacked_loop b sq c l = some r ∧
        (r = true ↔ ∃ k ∈ l, ∃ a, get_piece_attacks b k sq (negate_color c) = some a ∧
          a &&& get_piece_positions b k c ≠ 0) := by
  intro l
  induction l with
  | nil => intro _; exact ⟨false, rfl, by simp⟩
  | cons k rest ih =>
    intro hall
    obtain ⟨a, ha⟩ := hall k (List.mem_cons_self _ _)
    obtain ⟨r, hr, hiff⟩ := ih (fun k1 hk1 => hall k1 (List.mem_cons_of_mem _ hk1))
    unfold attacked_loop
    simp only [ha]
    by_cases hhit : a &&& get_piece_positions b k c ≠ 0
    · rw [if_pos hhit]
      refine ⟨true, rfl, ?_⟩
      simp only [true_iff]
      exact ⟨k, List.mem_cons_self _ _, a, ha, hhit⟩
    · rw [if_neg hhit]
      refine ⟨r, hr, ?_⟩
      rw [hiff]
      constructor
      · rintro ⟨k1, hk1, a1, ha1, h1⟩
        exact ⟨k1, List.mem_cons_of_mem _ hk1, a1, ha1, h1⟩
      · rintro ⟨k1, hk1, a1, ha1, h1⟩
        rcases List.mem_cons.mp hk1 with rfl | hk1
        · rw [ha] at ha1; cases ha1; exact absurd h1 hhit
        · exact ⟨k1, hk1, a1, ha1, h1⟩

theorem mem_piece_array_iff (k : Piece) : k ∈ piece_array ↔ k ≠ Piece.NONE := by
  cases k <;> simp [piece_array]

/-- The attack test answers, and it answers `true` exactly when some piece of the colour
attacks the square. -/
theorem is_position_attacked_by_spec (b : Board)
    (hwb : get_all_piece_positions b Color.WHITE &&& get_all_piece_positions b Color.BLACK = 0)
    (sq : bitboard) (hsq : is_square sq) (c : Color) :
    ∃ r, is_position_attacked_by b sq c = some r ∧
      (r = true ↔ ∃ (k : Piece) (p : bitboard), is_square p ∧
        get_piece_positions b k c &&& p ≠ 0 ∧
        ∃ a, get_piece_attacks b k p c = some a ∧ a &&& sq ≠ 0) := by
  obtain ⟨r, hr, hiff⟩ := attacked_loop_spec b sq c piece_array (by
    intro k hk
    obtain ⟨a1, _, h1, _⟩ :=
      piece_attacks_symm b hwb k ((mem_piece_array_iff k).mp hk) c sq sq hsq hsq
    exact ⟨a1, h1⟩)
  refine ⟨r, hr, ?_⟩
  rw [hiff]
  constructor
  · rintro ⟨k, hk, a1, ha1, hhit⟩
    have hkN := (mem_piece_array_iff k).mp hk
    obtain ⟨a1', _, h1, _, hlt, _⟩ := piece_attacks_symm b hwb k hkN c sq sq hsq hsq
    rw [ha1] at h1; cases h1
    obtain ⟨p, hp, hbp, hap⟩ := (and_ne_zero_iff_exists_square a1 _ hlt).mp hhit
    obtain ⟨a1', a2, h1, h2, _, hsym⟩ := piece_attacks_symm b hwb k hkN c sq p hsq hp
    rw [ha1] at h1; cases h1
    exact ⟨k, p, hp, hbp, a2, h2, hsym.mp hap⟩
  · rintro ⟨k, p, hp, hbp, a, ha, hasq⟩
    have hkN : k ≠ Piece.NONE := by
      rintro rfl
      exact hbp (Nat.zero_and _)
    obtain ⟨a1, a2, h1, h2, hlt, hsym⟩ := piece_attacks_symm b hwb k hkN c sq p hsq hp
    rw [ha] at h2; cases h2
    exact ⟨k, (mem_piece_array_iff k).mpr hkN, a1, h1,
      (and_ne_zero_iff_exists_square a1 _ hlt).mpr ⟨p, hp, hbp, hsym.mpr hasq⟩⟩

/-! ## White and Black stay on different squares -/

theorem get_piece_positions_congr (b1 b2 : Board)
    (h : b1.piece_bitboards = b2.piece_bitboards) (k : Piece) (c : Color) :
    get_piece_positions b1 k c = get_piece_positions b2 k c := by
  simp [get_piece_positions, h]

theorem get_all_piece_positions_congr (b1 b2 : Board)
    (h : b1.piece_bitboards = b2.piece_bitboards) (c : Color) :
    get_all_piece_positions b1 c = get_all_piece_positions b2 c := by
  simp [get_all_piece_positions, get_piece_positions, h]

theorem get_set_bitboard_ite (b : Board) (c : Color) (p : Piece) (v : bitboard) (k : Piece)
    (c1 : Color) (hp : p ≠ Piece.NONE) :
    get_piece_positions (b.set_bitboard c p v) k c1 =
      if c1 = c ∧ k = p then v else get_piece_positions b k c1 := by
  by_cases hc : c1 = c
  · subst hc
    by_cases hk : k = p
    · subst hk
      rw [if_pos ⟨rfl, rfl⟩, get_set_bitboard_same _ _ _ _ hp]
    · rw [if_neg (fun h => hk h.2), get_set_bitboard_other_piece _ _ _ _ _ hk]
  · rw [if_neg (fun h => hc h.1), get_set_bitboard_other_color _ _ _ _ _ _ hc]

theorem colours_apart_iff (b : Board) (t : Color) :
    get_all_piece_positions b Color.WHITE &&& get_all_piece_positions b Color.BLACK = 0 ↔
      ∀ k1 k2 : Piece,
        get_piece_positions b k1 t &&& get_piece_positions b k2 (negate_color t) = 0 := by
  have key : ∀ c1 c2 : Color,
      get_all_piece_positions b c1 &&& get_all_piece_positions b c2 = 0 ↔
        ∀ k1 k2 : Piece, get_piece_positions b k1 c1 &&& get_piece_positions b k2 c2 = 0 := by
    intro c1 c2
    rw [get_all_and_eq_zero_iff]
    constructor
    · intro h k1 k2
      have := h k1
      rw [Nat.and_comm, get_all_and_eq_zero_iff] at this
      rw [Nat.and_comm]
      exact this k2
    · intro h k1
      rw [Nat.and_comm, get_all_and_eq_zero_iff]
      intro k2
      rw [Nat.and_comm]
      exact h k1 k2
  cases t
  · exact key Color.WHITE Color.BLACK
  · rw [Nat.and_comm]
    exact key Color.BLACK Color.WHITE

theorem and_eq_zero_testBit (x y : Nat) (h : x &&& y = 0) (i : Nat)
    (hx : x.testBit i = true) : y.testBit i = false := by
  have := congrArg (fun z => z.testBit i) h
  simpa [hx] using this

theorem colours_apart_after (b X : Board) (t : Color) (E C : bitboard)
    (hwb : ∀ k1 k2 : Piece,
      get_piece_positions b k1 t &&& get_piece_positions b k2 (negate_color t) = 0)
    (hown : ∀ (k1 : Piece) (i : Nat), (get_piece_positions X k1 t).testBit i = true →
      (get_piece_positions b k1 t).testBit i = true ∨ E.testBit i = true)
    (hopp : ∀ (k2 : Piece) (i : Nat),
      (get_piece_positions X k2 (negate_color t)).testBit i = true →
        (get_piece_positions b k2 (negate_color t)).testBit i = true ∧ C.testBit i = false)
    (hE : ∀ i, E.testBit i = true → C.testBit i = true ∨
      ∀ k2 : Piece, (get_piece_positions b k2 (negate_color t)).testBit i = false) :
    ∀ k1 k2 : Piece,
      get_piece_positions X k1 t &&& get_piece_positions X k2 (negate_color t) = 0 := by
  intro k1 k2
  apply Nat.eq_of_testBit_eq
  intro i
  rw [Nat.testBit_and, Nat.zero_testBit]
  by_contra hne
  simp only [Bool.not_eq_false, Bool.and_eq_true] at hne
  obtain ⟨h1, h2⟩ := hne
  obtain ⟨h2b, hC⟩ := hopp k2 i h2
  rcases hown k1 i h1 with h1b | hEi
  · have := and_eq_zero_testBit _ _ (hwb k1 k2) i h1b
    rw [this] at h2b
    exact absurd h2b (by decide)
  · rcases hE i hEi with hCi | hfree
    · rw [hCi] at hC; exact absurd hC (by decide)
    · rw [hfree k2] at h2b; exact absurd h2b (by decide)

theorem xor_testBit_cases (x e : Nat) (i : Nat) (h : (x ^^^ e).testBit i = true) :
    x.testBit i = true ∨ e.testBit i = true := by
  rw [Nat.testBit_xor] at h
  cases hx : x.testBit i <;> cases he : e.testBit i <;> simp_all

theorem or_two_pow_testBit (io id i : Nat) (h : (2 ^ io ||| 2 ^ id).testBit i = true) :
    i = io ∨ i = id := by
  rw [Nat.testBit_or, Nat.testBit_two_pow, Nat.testBit_two_pow] at h
  simp only [Bool.or_eq_true, decide_eq_true_eq] at h
  rcases h with h | h
  · exact Or.inl h.symm
  · exact Or.inr h.symm

theorem opponent_free_of_own (b : Board) (t : Color) (i : Nat)
    (hwb : ∀ k1 k2 : Piece,
      get_piece_positions b k1 t &&& get_piece_positions b k2 (negate_color t) = 0)
    (h : get_all_piece_positions b t &&& 2 ^ i ≠ 0) :
    ∀ k2 : Piece, (get_piece_positions b k2 (negate_color t)).testBit i = false := by
  intro k2
  rw [ne_eq, get_all_and_eq_zero_iff] at h
  push_neg at h
  obtain ⟨k1, hk1⟩ := h
  exact and_eq_zero_testBit _ _ (hwb k1 k2) i ((and_two_pow_ne_zero_iff _ _).mp hk1)

theorem opponent_free_of_empty (b : Board) (c : Color) (i : Nat)
    (h : get_all_piece_positions b c &&& 2 ^ i = 0) :
    ∀ k2 : Piece, (get_piece_positions b k2 c).testBit i = false := by
  intro k2
  rw [get_all_and_eq_zero_iff] at h
  exact (and_two_pow_eq_zero_iff _ _).mp (h k2)

theorem opponent_free_of_and_zero (b : Board) (c : Color) (R : bitboard) (i : Nat)
    (h : get_all_piece_positions b c &&& R = 0) (hR : R.testBit i = true) :
    ∀ k2 : Piece, (get_piece_positions b k2 c).testBit i = false := by
  intro k2
  rw [get_all_and_eq_zero_iff] at h
  have := h k2
  rw [Nat.and_comm] at this
  exact and_eq_zero_testBit _ _ this i hR

/-- Executing an executable move on a board with disjoint occupancy leaves no square occupied
by both colours. -/
theorem execute_move_colours_apart (b b1 : Board) (m : Move) (hb : b.bounded)
    (hd : b.disjoint) (hx : executable b m) (h1 : execute_move b m = some b1) :
    get_all_piece_positions b1 Color.WHITE &&& get_all_piece_positions b1 Color.BLACK = 0 := by
  obtain ⟨⟨⟨io, hio, hoi⟩, ⟨id, hid, hdk⟩, hfl, hother, hquiet, hcap, hep, hprom⟩, hcastle⟩ := hx
  have hd0 : m.destination ≠ 0 := by rw [hdk]; exact two_pow_ne_zero id
  have hwb := (colours_apart_iff b b.turn_color).mp hd.2
  have hne := negate_color_ne b.turn_color
  rw [colours_apart_iff b1 b.turn_color]
  by_cases h23 : m.flags = 2 ∨ m.flags = 3
  · obtain ⟨b2, h2, _, h3⟩ := roundtrip_castle b m h23
    rw [h1] at h2; cases h2
    have hfree := hcastle h23
    have hK : Piece.KING ≠ Piece.NONE := by decide
    have hR : Piece.ROOK ≠ Piece.NONE := by decide
    intro k1 k2
    rw [get_piece_positions_congr _ _ h3, get_piece_positions_congr _ _ h3]
    revert k1 k2
    refine colours_apart_after b _ b.turn_color
      ((m.origin ||| m.destination) |||
        (castle_rook_origin_lookup m.destination ||| castle_rook_destination_lookup m.destination))
      0 hwb ?_ ?_ ?_
    · intro k1 i h
      rw [get_set_bitboard_ite _ _ _ _ _ _ hR, get_set_bitboard_ite _ _ _ _ _ _ hK] at h
      rw [Nat.testBit_or]
      split_ifs at h with hc1 hc2
      · obtain ⟨_, rfl⟩ := hc1
        rcases xor_testBit_cases _ _ _ h with h | h
        · exact Or.inl h
        · right; rw [h]; simp
      · obtain ⟨_, rfl⟩ := hc2
        rcases xor_testBit_cases _ _ _ h with h | h
        · exact Or.inl h
        · right; rw [h]; simp
      · exact Or.inl h
    · intro k2 i h
      rw [get_set_bitboard_other_color _ _ _ _ _ _ hne,
        get_set_bitboard_other_color _ _ _ _ _ _ hne] at h
      exact ⟨h, Nat.zero_testBit i⟩
    · intro i hE
      exact Or.inr (opponent_free_of_and_zero b _ _ i hfree hE)
  obtain ⟨hp, hown⟩ := hother h23
  have hP : Piece.PAWN ≠ Piece.NONE := by decide
  have hfree_o : ∀ k2 : Piece,
      (get_piece_positions b k2 (negate_color b.turn_color)).testBit io = false := by
    apply opponent_free_of_own b b.turn_color io hwb
    rw [← hoi]
    exact (get_piece_at_position_ne_none_iff _ _ _).mp hp
  have hopp_frame : ∀ (X : Board) (cp : Piece) (R : bitboard) (k2 : Piece) (i : Nat),
      cp ≠ Piece.NONE →
      (∀ c k, c ≠ b.turn_color → get_piece_positions X k c = get_piece_positions b k c) →
      (get_piece_positions
        (X.set_bitboard (negate_color b.turn_color) cp
          (get_piece_positions b cp (negate_color b.turn_color) &&& bnot64 R))
        k2 (negate_color b.turn_color)).testBit i = true →
      (get_piece_positions b k2 (negate_color b.turn_color)).testBit i = true ∧
        (k2 = cp → R.testBit i = false) := by
    intro X cp R k2 i hcp hX h
    rw [get_set_bitboard_ite _ _ _ _ _ _ hcp] at h
    split_ifs at h with hc
    · obtain ⟨_, rfl⟩ := hc
      rw [Nat.testBit_and, testBit_bnot64] at h
      simp only [Bool.and_eq_true, decide_eq_true_eq, Bool.not_eq_true'] at h
      exact ⟨h.1, fun _ => h.2.2⟩
    · rw [hX _ _ hne] at h
      exact ⟨h, fun hk => absurd ⟨rfl, hk⟩ hc⟩
  have hcapture_clear : ∀ (cp k2 : Piece) (i : Nat),
      get_piece_positions b cp (negate_color b.turn_color) &&& m.destination ≠ 0 →
      k2 ≠ cp → (get_piece_positions b k2 (negate_color b.turn_color)).testBit i = true →
      m.destination.testBit i = false := by
    intro cp k2 i hcbit hk h
    by_contra hdi
    rw [hdk, Nat.testBit_two_pow] at hdi
    have hidi : id = i := of_decide_eq_true (by simpa using hdi)
    subst hidi
    rw [hdk] at hcbit
    have := and_eq_zero_testBit _ _ (hd.1 (negate_color b.turn_color) k2 cp hk) id h
    rw [(and_two_pow_ne_zero_iff _ _).mp hcbit] at this
    exact absurd this (by decide)
  by_cases h01 : m.flags = 0 ∨ m.flags = 1
  · obtain ⟨b2, h2, _, h3⟩ := roundtrip_quiet b m h01 hp hd0 hown
    rw [h1] at h2; cases h2
    intro k1 k2
    rw [get_piece_positions_congr _ _ h3, get_piece_positions_congr _ _ h3]
    revert k1 k2
    refine colours_apart_after b _ b.turn_color (m.origin ||| m.destination) 0 hwb ?_ ?_ ?_
    · intro k1 i h
      rw [get_set_bitboard_ite _ _ _ _ _ _ hp] at h
      split_ifs at h with hc
      · obtain ⟨_, rfl⟩ := hc
        exact xor_testBit_cases _ _ _ h
      · exact Or.inl h
    · intro k2 i h
      rw [get_set_bitboard_other_color _ _ _ _ _ _ hne] at h
      exact ⟨h, Nat.zero_testBit i⟩
    · intro i hE
      right
      rw [hoi, hdk] at hE
      rcases or_two_pow_testBit io id i hE with rfl | rfl
      · exact hfree_o
      · apply opponent_free_of_empty
        rw [← hdk]
        exact hquiet (h01.elim Or.inl fun h => Or.inr (Or.inl h))
  by_cases h4 : m.flags = 4
  · have hoppN := (get_piece_at_position_ne_none_iff _ _ _).mpr (hcap (Or.inl h4))
    obtain ⟨b2, h2, _, h3⟩ := roundtrip_capture b m id h4 hb hdk hp hown hoppN
    rw [h1] at h2; cases h2
    have hcbit := get_piece_at_position_bit b m.destination _ hoppN
    intro k1 k2
    rw [get_piece_positions_congr _ _ h3, get_piece_positions_congr _ _ h3]
    revert k1 k2
    refine colours_apart_after b _ b.turn_color (m.origin ||| m.destination) m.destination
      hwb ?_ ?_ ?_
    · intro k1 i h
      rw [get_set_bitboard_other_color _ _ _ _ _ _ hne.symm,
        get_set_bitboard_ite _ _ _ _ _ _ hp] at h
      split_ifs at h with hc
      · obtain ⟨_, rfl⟩ := hc
        exact xor_testBit_cases _ _ _ h
      · exact Or.inl h
    · intro k2 i h
      obtain ⟨hbit, hclr⟩ := hopp_frame _ _ _ k2 i hoppN
        (fun c k hc => get_set_bitboard_other_color _ _ _ _ _ _ hc) h
      refine ⟨hbit, ?_⟩
      by_cases hk : k2 = get_piece_at_position b m.destination (negate_color b.turn_color)
      · exact hclr hk
      · exact hcapture_clear _ k2 i hcbit hk hbit
    · intro i hE
      rw [hoi, hdk] at hE
      rcases or_two_pow_testBit io id i hE with rfl | rfl
      · exact Or.inr hfree_o
      · left; rw [hdk]; exact Nat.testBit_two_pow_self
  by_cases h5 : m.flags = 5
  · obtain ⟨hdfree, hcs⟩ := hep h5
    have hne0 : en_passant_capture_square b m.destination ≠ 0 := by
      intro h0; rw [h0] at hcs; exact hcs (Nat.and_zero _)
    obtain ⟨j, _, hj⟩ := en_passant_capture_square_is_square b m.destination ⟨id, hid, hdk⟩ hne0
    have hoppN : get_piece_at_position b (2 ^ j) (negate_color b.turn_color) ≠ Piece.NONE := by
      rw [get_piece_at_position_ne_none_iff, ← hj]
      exact hcs
    obtain ⟨b2, h2, _, h3⟩ := roundtrip_en_passant b m j h5 hb hd0 hj hp hown hoppN
    rw [h1] at h2; cases h2
    intro k1 k2
    rw [get_piece_positions_congr _ _ h3, get_piece_positions_congr _ _ h3]
    revert k1 k2
    refine colours_apart_after b _ b.turn_color (m.origin ||| m.destination) 0 hwb ?_ ?_ ?_
    · intro k1 i h
      rw [get_set_bitboard_other_color _ _ _ _ _ _ hne.symm,
        get_set_bitboard_ite _ _ _ _ _ _ hp] at h
      split_ifs at h with hc
      · obtain ⟨_, rfl⟩ := hc
        exact xor_testBit_cases _ _ _ h
      · exact Or.inl h
    · intro k2 i h
      obtain ⟨hbit, _⟩ := hopp_frame _ _ _ k2 i hoppN
        (fun c k hc => get_set_bitboard_other_color _ _ _ _ _ _ hc) h
      exact ⟨hbit, Nat.zero_testBit i⟩
    · intro i hE
      right
      rw [hoi, hdk] at hE
      rcases or_two_pow_testBit io id i hE with rfl | rfl
      · exact hfree_o
      · apply opponent_free_of_empty
        rw [← hdk]
        exact hdfree
  have h8 : 8 ≤ m.flags ∧ m.flags ≤ 15 := by omega
  obtain ⟨hqN, hqP⟩ := promotion_piece_ne m.flags h8.1 h8.2
  have hown_promo : ∀ (k1 : Piece) (i : Nat),
      (get_piece_positions
        ((b.set_bitboard b.turn_color Piece.PAWN
            (get_piece_positions b Piece.PAWN b.turn_color &&& bnot64 m.origin)).set_bitboard
          b.turn_color (get_promotion_piece_from_flags m.flags)
          (get_piece_positions b (get_promotion_piece_from_flags m.flags) b.turn_color |||
            m.destination)) k1 b.turn_color).testBit i = true →
      (get_piece_positions b k1 b.turn_color).testBit i = true ∨
        m.destination.testBit i = true := by
    intro k1 i h
    rw [get_set_bitboard_ite _ _ _ _ _ _ hqN, get_set_bitboard_ite _ _ _ _ _ _ hP] at h
    split_ifs at h with hc1 hc2
    · obtain ⟨_, rfl⟩ := hc1
      rw [Nat.testBit_or, Bool.or_eq_true] at h
      exact h
    · obtain ⟨_, rfl⟩ := hc2
      rw [Nat.testBit_and, Bool.and_eq_true] at h
      exact Or.inl h.1
    · exact Or.inl h
  by_cases h11 : m.flags ≤ 11
  · obtain ⟨b2, h2, _, h3⟩ :=
      roundtrip_promotion b m io id h8.1 h11 hb hoi hdk (hprom h8.1) hown
    rw [h1] at h2; cases h2
    intro k1 k2
    rw [get_piece_positions_congr _ _ h3, get_piece_positions_congr _ _ h3]
    revert k1 k2
    refine colours_apart_after b _ b.turn_color m.destination 0 hwb hown_promo ?_ ?_
    · intro k2 i h
      rw [get_set_bitboard_other_color _ _ _ _ _ _ hne,
        get_set_bitboard_other_color _ _ _ _ _ _ hne] at h
      exact ⟨h, Nat.zero_testBit i⟩
    · intro i hE
      right
      exact opponent_free_of_and_zero b _ _ i (hquiet (Or.inr (Or.inr ⟨h8.1, h11⟩))) hE
  · have hoppN := (get_piece_at_position_ne_none_iff _ _ _).mpr
      (hcap (Or.inr ⟨by omega, h8.2⟩))
    obtain ⟨b2, h2, _, h3⟩ :=
      roundtrip_promotion_capture b m io id (by omega) h8.2 hb hoi hdk (hprom h8.1) hown hoppN
    rw [h1] at h2; cases h2
    have hcbit := get_piece_at_position_bit b m.destination _ hoppN
    intro k1 k2
    rw [get_piece_positions_congr _ _ h3, get_piece_positions_congr _ _ h3]
    revert k1 k2
    refine colours_apart_after b _ b.turn_color m.destination m.destination hwb ?_ ?_ ?_
    · intro k1 i h
      rw [get_set_bitboard_other_color _ _ _ _ _ _ hne.symm] at h
      exact hown_promo k1 i h
    · intro k2 i h
      obtain ⟨hbit, hclr⟩ := hopp_frame _ _ _ k2 i hoppN
        (fun c k hc => by
          rw [get_set_bitboard_other_color _ _ _ _ _ _ hc,
            get_set_bitboard_other_color _ _ _ _ _ _ hc]) h
      refine ⟨hbit, ?_⟩
      by_cases hk : k2 = get_piece_at_position b m.destination (negate_color b.turn_color)
      · exact hclr hk
      · exact hcapture_clear _ k2 i hcbit hk hbit
    · intro i hE
      exact Or.inl hE

/-- On a board where White and Black share no square the attack test answers for every 64-bit
position. -/
theorem is_position_attacked_by_total (b : Board)
    (hwb : get_all_piece_positions b Color.WHITE &&& get_all_piece_positions b Color.BLACK = 0)
    (x : bitboard) (hx : x < two64) (c : Color) :
    ∃ r, is_position_attacked_by b x c = some r := by
  obtain ⟨r, hr, _⟩ := attacked_loop_spec b x c piece_array (fun k hk =>
    get_piece_attacks_total b hwb k ((mem_piece_array_iff k).mp hk) x hx (negate_color c))
  exact ⟨r, hr⟩

/-- The legality filter on an executable move: it answers the negation of the attack test on
the mover's king in the board after the move and leaves the board as it was. -/
theorem is_move_legal_of_executable (b : Board) (m : Move) (hb : b.bounded) (hd : b.disjoint)
    (hx : executable b m) :
    ∃ b1 a, execute_move b m = some b1 ∧
      is_position_attacked_by b1 (get_piece_positions b1 Piece.KING b.turn_color)
        (negate_color b.turn_color) = some a ∧
      is_move_legal b m b.turn_color = some (!a, b) := by
  obtain ⟨b1, h1, h2⟩ := roundtrip_of_move_fits b m hb hx.1
  have hb1 : b1.bounded :=
    execute_move_bounded b b1 m hb (is_square_lt _ hx.1.1) (is_square_lt _ hx.1.2.1) h1
  have hwb1 := execute_move_colours_apart b b1 m hb hd hx h1
  obtain ⟨a, ha⟩ := is_position_attacked_by_total b1 hwb1
    (get_piece_positions b1 Piece.KING b.turn_color) (hb1 _ _) (negate_color b.turn_color)
  refine ⟨b1, a, h1, ha, ?_⟩
  simp [is_move_legal, is_checked, h1, ha, h2]

/-! ## Frame of the bitboard primitives and of `execute_move` -/

theorem move_piece_eq (b b1 : Board) (p : Piece) (c : Color) (o d : bitboard)
    (h : move_piece b p c o d = some b1) :
    p ≠ Piece.NONE ∧
      b1 = b.set_bitboard c p (get_piece_positions b p c ^^^ (o ||| d)) := by
  unfold move_piece at h
  split_ifs at h with hp
  cases h
  exact ⟨hp, rfl⟩

theorem set_piece_eq (b b1 : Board) (p : Piece) (c : Color) (pos : bitboard)
    (h : set_piece b p c pos = some b1) :
    p ≠ Piece.NONE ∧ get_piece_positions b p c &&& pos = 0 ∧
      b1 = b.set_bitboard c p (get_piece_positions b p c ||| pos) := by
  unfold set_piece at h
  split_ifs at h with hp hbit
  cases h
  exact ⟨hp, not_not.mp hbit, rfl⟩

theorem remove_piece_eq (b b1 : Board) (p : Piece) (c : Color) (pos : bitboard)
    (h : remove_piece b p c pos = some b1) :
    p ≠ Piece.NONE ∧ get_piece_positions b p c &&& pos ≠ 0 ∧
      b1 = b.set_bitboard c p (get_piece_positions b p c &&& bnot64 pos) := by
  unfold remove_piece at h
  split_ifs at h with hp hbit
  cases h
  exact ⟨hp, hbit, rfl⟩

/-- The rights, the rights stacks, the turn and the histories after `execute_move` are those
left by `update_castle_rights`, with the turn flipped and the move appended. -/
theorem execute_move_keeps_rights_of_update (b b1 : Board) (m : Move)
    (h : execute_move b m = some b1) :
    b1.can_castle =
        (update_castle_rights b m (get_piece_at_position b m.origin b.turn_color)).can_castle ∧
      b1.previous_can_castle_stacks =
        (update_castle_rights b m
          (get_piece_at_position b m.origin b.turn_color)).previous_can_castle_stacks ∧
      b1.turn_color = negate_color b.turn_color ∧
      b1.moves = b.moves.set b.turn_color (m :: b.moves.get b.turn_color) := by
  obtain ⟨r, hr⟩ := update_castle_rights_eq b m (get_piece_at_position b m.origin b.turn_color)
  unfold execute_move at h
  simp only [] at h
  split_ifs at h with h67 h01 h23 h4 hN h5 ht hc
  all_goals simp only [Option.bind_eq_bind, Option.bind_eq_some, Option.some.injEq,
    Option.pure_def, exists_and_left, execute_castle_move] at h
  all_goals obtain ⟨b5, hh, rfl⟩ := h
  · obtain ⟨_, rfl⟩ := move_piece_eq _ _ _ _ _ _ hh
    rw [hr]; exact ⟨rfl, rfl, rfl, rfl⟩
  · obtain ⟨b2, h2, h3⟩ := hh
    obtain ⟨_, rfl⟩ := move_piece_eq _ _ _ _ _ _ h2
    obtain ⟨_, rfl⟩ := move_piece_eq _ _ _ _ _ _ h3
    rw [hr]; exact ⟨rfl, rfl, rfl, rfl⟩
  · cases hh
  · obtain ⟨b2, h2, b3, h3, rfl⟩ := hh
    obtain ⟨_, rfl⟩ := move_piece_eq _ _ _ _ _ _ h2
    obtain ⟨_, _, rfl⟩ := remove_piece_eq _ _ _ _ _ h3
    rw [hr]; exact ⟨rfl, rfl, rfl, rfl⟩
  · obtain ⟨b3, h3, h4⟩ := hh
    obtain ⟨_, rfl⟩ := move_piece_eq _ _ _ _ _ _ h3
    obtain ⟨_, _, rfl⟩ := remove_piece_eq _ _ _ _ _ h4
    rw [hr]; exact ⟨rfl, rfl, rfl, rfl⟩
  · obtain ⟨b3, h3, h4⟩ := hh
    obtain ⟨_, rfl⟩ := move_piece_eq _ _ _ _ _ _ h3
    obtain ⟨_, _, rfl⟩ := remove_piece_eq _ _ _ _ _ h4
    rw [hr]; exact ⟨rfl, rfl, rfl, rfl⟩
  · obtain ⟨b2, h2, b3, h3, b4, h4, rfl⟩ := hh
    obtain ⟨_, _, rfl⟩ := remove_piece_eq _ _ _ _ _ h2
    obtain ⟨_, _, rfl⟩ := set_piece_eq _ _ _ _ _ h3
    obtain ⟨_, _, rfl⟩ := remove_piece_eq _ _ _ _ _ h4
    rw [hr]; exact ⟨rfl, rfl, rfl, rfl⟩
  · obtain ⟨b2, h2, b3, h3, rfl⟩ := hh
    obtain ⟨_, _, rfl⟩ := remove_piece_eq _ _ _ _ _ h2
    obtain ⟨_, _, rfl⟩ := set_piece_eq _ _ _ _ _ h3
    rw [hr]; exact ⟨rfl, rfl, rfl, rfl⟩

theorem update_castle_rights_rights (b : Board) (m : Move) (mp : Piece) :
    (update_castle_rights b m mp).can_castle.get b.turn_color =
        (if mp = Piece.KING then ⟨false, false⟩
         else if mp = Piece.ROOK then
           if m.origin = queenside_corner b.turn_color then
             ⟨(b.can_castle.get b.turn_color).king_side, false⟩
           else if m.origin = kingside_corner b.turn_color then
             ⟨false, (b.can_castle.get b.turn_color).queen_side⟩
           else b.can_castle.get b.turn_color
         else b.can_castle.get b.turn_color) ∧
      (update_castle_rights b m mp).can_castle.get (negate_color b.turn_color) =
        b.can_castle.get (negate_color b.turn_color) := by
  obtain ⟨pbs, t, cc, st, caps, mvs⟩ := b
  cases t <;>
    simp only [update_castle_rights, Board.push_rights, set_can_castle_queen,
      set_can_castle_king, queenside_corner, kingside_corner] <;>
    split_ifs <;> simp_all [PerColor.get, PerColor.set, negate_color]

theorem set_bitboard_frame (b : Board) (p : Piece) (c : Color) (v : bitboard)
    (k : Piece) (c1 : Color) (h : ¬ (k = p ∧ c1 = c)) :
    get_piece_positions (b.set_bitboard c p v) k c1 = get_piece_positions b k c1 := by
  by_cases hc : c1 = c
  · subst hc
    exact get_set_bitboard_other_piece _ _ _ _ _ (fun hk => h ⟨hk, rfl⟩)
  · exact get_set_bitboard_other_color _ _ _ _ _ _ hc

theorem testBit_eq_false_of_bounded (x : bitboard) (hx : x < two64) (j : Nat) (hj : 64 ≤ j) :
    x.testBit j = false :=
  Nat.testBit_lt_two_pow (Nat.lt_of_lt_of_le hx (Nat.pow_le_pow_right (by decide) hj))

/-! ## Loops over the one-hot masks, castle generators, en passant generator -/

theorem mem_masks (x : bitboard) : x ∈ masks ↔ is_square x := by
  unfold masks is_square
  simp only [List.mem_map, List.mem_range]
  constructor
  · rintro ⟨i, hi, rfl⟩
    exact ⟨i, hi, rfl⟩
  · rintro ⟨i, hi, rfl⟩
    exact ⟨i, hi, rfl⟩

theorem foldl_push_eq_filter_map (p : bitboard → Prop) [DecidablePred p] (f : bitboard → Move)
    (l : List bitboard) (init : List Move) :
    l.foldl (fun acc mask => if p mask then acc ++ [f mask] else acc) init
      = init ++ (l.filter fun mask => decide (p mask)).map f := by
  induction l generalizing init with
  | nil => simp
  | cons x xs ih =>
    rw [List.foldl_cons, ih]
    by_cases hx : p x
    · simp [hx, List.filter_cons]
    · simp [hx, List.filter_cons]

theorem castle_path_attacked_false (b : Board) (color : Color) (path : bitboard)
    (l : List bitboard) (h : castle_path_attacked b color path l = some false) :
    ∀ mask ∈ l, path &&& mask ≠ 0 →
      is_position_attacked_by b (path &&& mask) (negate_color color) = some false := by
  induction l with
  | nil => intro mask hm; cases hm
  | cons x xs ih =>
    intro mask hm hne
    unfold castle_path_attacked at h
    by_cases hx : path &&& x ≠ 0
    · rw [if_pos hx] at h
      cases hatt : is_position_attacked_by b (path &&& x) (negate_color color) with
      | none => rw [hatt] at h; cases h
      | some v =>
        rw [hatt] at h
        cases v with
        | true => cases h
        | false =>
          rcases List.mem_cons.mp hm with rfl | hm2
          · exact hatt
          · exact ih h mask hm2 hne
    · rw [if_neg hx] at h
      rcases List.mem_cons.mp hm with rfl | hm2
      · exact absurd hne hx
      · exact ih h mask hm2 hne

theorem castle_path_clear_on_squares (b : Board) (color : Color) (path : bitboard)
    (h : castle_path_attacked b color path masks = some false) (sq : bitboard)
    (hsq : is_square sq) (hp : path &&& sq ≠ 0) :
    is_position_attacked_by b sq (negate_color color) = some false := by
  have h1 := castle_path_attacked_false b color path masks h sq ((mem_masks sq).mpr hsq) hp
  obtain ⟨i, _, rfl⟩ := hsq
  rwa [and_two_pow_eq_self path i hp] at h1

theorem kingside_castle_cases (paths : CastlePaths) (b : Board) (color : Color)
    (moves res : List Move) (h : add_legal_kingside_castle_move paths b color moves = some res) :
    res = moves ∨
      (res = moves ++ [Move.mk (king_start color) (kingside_corner color) 2] ∧
        get_can_castle_king b color = true ∧
        castle_path_attacked b color (kingside_castle_path paths color) masks = some false) := by
  unfold add_legal_kingside_castle_move at h
  cases hr : get_can_castle_king b color with
  | false =>
    rw [hr] at h
    simp only [Bool.not_false, if_true, Option.some.injEq] at h
    exact Or.inl h.symm
  | true =>
    rw [hr] at h
    simp only [Bool.not_true, Bool.false_eq_true, if_false] at h
    cases color
    all_goals
      simp only [reduceCtorEq, if_true, if_false] at h
      split at h
      · exact Or.inl (Option.some.inj h).symm
      · split at h
        · cases h
        · exact Or.inl (Option.some.inj h).symm
        · rename_i hatt
          exact Or.inr ⟨(Option.some.inj h).symm, rfl, hatt⟩

theorem queenside_castle_cases (paths : CastlePaths) (b : Board) (color : Color)
    (moves res : List Move) (h : add_legal_queenside_castle_move paths b color moves = some res) :
    res = moves ∨
      (res = moves ++ [Move.mk (king_start color) (queenside_corner color) 2] ∧
        get_can_castle_queen b color = true ∧
        castle_path_attacked b color (queenside_castle_path paths color) masks = some false) := by
  unfold add_legal_queenside_castle_move at h
  cases hr : get_can_castle_queen b color with
  | false =>
    rw [hr] at h
    simp only [Bool.not_false, if_true, Option.some.injEq] at h
    exact Or.inl h.symm
  | true =>
    rw [hr] at h
    simp only [Bool.not_true, Bool.false_eq_true, if_false] at h
    cases color
    all_goals
      simp only [reduceCtorEq, if_true, if_false] at h
      split at h
      · exact Or.inl (Option.some.inj h).symm
      · split at h
        · cases h
        · exact Or.inl (Option.some.inj h).symm
        · rename_i hatt
          exact Or.inr ⟨(Option.some.inj h).symm, rfl, hatt⟩

theorem square_in_walk_in_path (walk path sq : bitboard) (hcov : walk &&& bnot64 path = 0)
    (hsq : is_square sq) (hw : sq &&& walk ≠ 0) : path &&& sq ≠ 0 := by
  obtain ⟨i, hi, rfl⟩ := hsq
  rw [Nat.and_comm, and_two_pow_ne_zero_iff] at hw
  rw [and_two_pow_ne_zero_iff]
  have h1 : (walk &&& bnot64 path).testBit i = false := by rw [hcov]; exact Nat.zero_testBit i
  rw [Nat.testBit_and, testBit_bnot64, hw] at h1
  simp only [hi, decide_True, Bool.true_and, Bool.not_eq_false'] at h1
  exact h1

theorem testBit_two_pow_eq (n i : Nat) (h : ((2 : Nat) ^ n).testBit i = true) : i = n := by
  rw [Nat.testBit_two_pow] at h
  exact (of_decide_eq_true h).symm

theorem neighbour_of_testBit (j i : Nat) (hj : j < 64)
    (h : (west (2 ^ j) ||| east (2 ^ j)).testBit i = true) :
    (i = j + 1 ∧ j % 8 ≠ 7) ∨ (i + 1 = j ∧ j % 8 ≠ 0) := by
  rw [Nat.testBit_or, west_two_pow j hj, east_two_pow j hj, Bool.or_eq_true] at h
  rcases h with h | h
  · by_cases h7 : j % 8 ≠ 7
    · rw [if_pos h7] at h
      exact Or.inl ⟨testBit_two_pow_eq _ _ h, h7⟩
    · rw [if_neg h7, Nat.zero_testBit] at h
      cases h
  · by_cases h0 : j % 8 ≠ 0
    · rw [if_pos h0] at h
      have := testBit_two_pow_eq _ _ h
      exact Or.inr ⟨by omega, h0⟩
    · rw [if_neg h0, Nat.zero_testBit] at h
      cases h

theorem en_passant_moves_spec (b : Board) (color : Color) (moves : List Move) :
    ∃ new, add_pseudo_legal_en_passant_moves b color moves = moves ++ new ∧
      ∀ m ∈ new, ∃ last i,
        is_moves_empty b (negate_color color) = false ∧
        get_last_move b (negate_color color) = some last ∧ last.flags = 1 ∧ i < 64 ∧
        m = Move.mk (2 ^ i)
          (if color = Color.WHITE then north last.destination else south last.destination) 5 ∧
        (get_piece_positions b Piece.PAWN color).testBit i = true ∧
        (west last.destination ||| east last.destination).testBit i = true := by
  unfold add_pseudo_legal_en_passant_moves
  dsimp only
  cases he : is_moves_empty b (negate_color color) with
  | true => exact ⟨[], by simp, by simp⟩
  | false =>
    cases hl : get_last_move b (negate_color color) with
    | none => exact ⟨[], by simp, by simp⟩
    | some last =>
      dsimp only
      by_cases hf : last.flags = 1
      · have hd : last.is_double_pawn_push = true := by
          simp [Move.is_double_pawn_push, hf]
        simp only [Bool.false_eq_true, if_false, hd, Bool.not_true]
        rw [foldl_push_eq_filter_map
          (fun mask => get_piece_positions b Piece.PAWN color &&&
            (west last.destination ||| east last.destination) &&& mask ≠ 0)
          (fun mask => Move.mk (get_piece_positions b Piece.PAWN color &&&
            (west last.destination ||| east last.destination) &&& mask)
            (if color = Color.WHITE then north last.destination else south last.destination) 5)]
        refine ⟨_, rfl, ?_⟩
        intro m hm
        rw [List.mem_map] at hm
        obtain ⟨mask, hmask, rfl⟩ := hm
        rw [List.mem_filter, mem_masks] at hmask
        obtain ⟨⟨i, hi, rfl⟩, hne⟩ := hmask
        have hne2 := of_decide_eq_true hne
        have hbit := (and_two_pow_ne_zero_iff _ i).mp hne2
        rw [Nat.testBit_and, Bool.and_eq_true] at hbit
        refine ⟨last, i, trivial, rfl, hf, hi, ?_, hbit.1, hbit.2⟩
        rw [and_two_pow_eq_self _ i hne2]
      · have hd : last.is_double_pawn_push = false := by
          simp [Move.is_double_pawn_push, hf]
        exact ⟨[], by simp [hd], by simp⟩

/-! ## Position import -/

theorem fen_letter_facts (ch : Char) (h : ch ∈ fen_letters) :
    ch ≠ '/' ∧ ch.isDigit = false ∧ get_piece_from_char ch ≠ Piece.NONE ∧ fen_cell ch = 1 ∧
      is_space ch = false := by
  simp only [fen_letters, List.mem_cons, List.mem_singleton, List.not_mem_nil, or_false] at h
  rcases h with rfl | rfl | rfl | rfl | rfl | rfl | rfl | rfl | rfl | rfl | rfl | rfl <;> decide

theorem fen_alphabet_cases (ch : Char) (h : ch ∈ fen_alphabet) :
    ch ∈ fen_letters ∨ (ch ≠ '/' ∧ ch.isDigit = true ∧ ch ∉ fen_letters ∧ is_space ch = false)
      ∨ ch = '/' := by
  simp only [fen_alphabet, fen_letters, List.cons_append, List.nil_append, List.mem_cons,
    List.mem_singleton, List.not_mem_nil, or_false] at h
  rcases h with rfl | rfl | rfl | rfl | rfl | rfl | rfl | rfl | rfl | rfl | rfl | rfl | rfl |
    rfl | rfl | rfl | rfl | rfl | rfl | rfl | rfl <;> decide

theorem fen_position_shift (k n : Nat) :
    ((0x8000000000000000 : Nat) >>> k) >>> n = (0x8000000000000000 : Nat) >>> (k + n) :=
  (Nat.shiftRight_add _ k n).symm

theorem fen_position_square (k : Nat) (hk : k < 64) :
    (0x8000000000000000 : Nat) >>> k = 2 ^ (63 - k) := by
  have h : ∀ j : Fin 64, (0x8000000000000000 : Nat) >>> j.val = 2 ^ (63 - j.val) := by decide
  exact h ⟨k, hk⟩

theorem fen_places_nil (k : Nat) (kind : Piece) (color : Color) (i : Nat) :
    ¬ fen_places [] k kind color i := by
  rintro ⟨pre, ch, post, h, _⟩
  cases pre <;> cases h

theorem fen_places_cons (x : Char) (rest : List Char) (k : Nat) (kind : Piece) (color : Color)
    (i : Nat) :
    fen_places (x :: rest) k kind color i ↔
      (x ∈ fen_letters ∧ get_piece_from_char x = kind ∧
        (if x.isUpper then Color.WHITE else Color.BLACK) = color ∧ i + k = 63) ∨
      fen_places rest (k + fen_cell x) kind color i := by
  constructor
  · rintro ⟨pre, ch, post, h, h1, h2, h3, h4⟩
    cases pre with
    | nil =>
      simp only [List.nil_append, List.cons.injEq] at h
      obtain ⟨rfl, rfl⟩ := h
      exact Or.inl ⟨h1, h2, h3, by simpa [fen_cells] using h4⟩
    | cons y pre2 =>
      simp only [List.cons_append, List.cons.injEq] at h
      obtain ⟨rfl, rfl⟩ := h
      refine Or.inr ⟨pre2, ch, post, rfl, h1, h2, h3, ?_⟩
      simp only [fen_cells] at h4
      omega
  · rintro (⟨h1, h2, h3, h4⟩ | ⟨pre, ch, post, h, h1, h2, h3, h4⟩)
    · exact ⟨[], x, rest, rfl, h1, h2, h3, by simpa [fen_cells] using h4⟩
    · refine ⟨x :: pre, ch, post, by rw [h]; rfl, h1, h2, h3, ?_⟩
      simp only [fen_cells]
      omega

theorem set_bitboard_fields (b : Board) (c : Color) (p : Piece) (v : bitboard) :
    (b.set_bitboard c p v).turn_color = b.turn_color ∧
    (b.set_bitboard c p v).can_castle = b.can_castle ∧
    (b.set_bitboard c p v).previous_can_castle_stacks = b.previous_can_castle_stacks ∧
    (b.set_bitboard c p v).captured_pieces = b.captured_pieces ∧
    (b.set_bitboard c p v).moves = b.moves :=
  ⟨rfl, rfl, rfl, rfl, rfl⟩

theorem fen_loop_spec : ∀ (l : List Char) (k : Nat) (b : Board),
    (∀ ch ∈ l, ch ∈ fen_alphabet) → k + fen_cells l ≤ 64 →
    (∀ kind color i, (get_piece_positions b kind color).testBit i = true → 63 < i + k) →
    ∃ b1, fen_loop l ((0x8000000000000000 : Nat) >>> k) b = some b1 ∧
      b1.turn_color = b.turn_color ∧ b1.can_castle = b.can_castle ∧
      b1.previous_can_castle_stacks = b.previous_can_castle_stacks ∧
      b1.captured_pieces = b.captured_pieces ∧ b1.moves = b.moves ∧
      ∀ kind color i, (get_piece_positions b1 kind color).testBit i = true ↔
        ((get_piece_positions b kind color).testBit i = true ∨ fen_places l k kind color i) := by
  intro l
  induction l with
  | nil =>
    intro k b _ _ _
    refine ⟨b, rfl, rfl, rfl, rfl, rfl, rfl, ?_⟩
    intro kind color i
    simp [fen_places_nil]
  | cons x rest ih =>
    intro k b hchars hcells hbits
    have hrest : ∀ ch ∈ rest, ch ∈ fen_alphabet := fun ch h => hchars ch (List.mem_cons_of_mem _ h)
    have hcells2 : k + fen_cell x + fen_cells rest ≤ 64 := by
      simp only [fen_cells] at hcells
      omega
    rcases fen_alphabet_cases x (hchars x (List.mem_cons_self _ _)) with hl | ⟨hs, hd, hnl, _⟩ | hs
    · -- a piece letter
      obtain ⟨hs, hd, hp, hc, _⟩ := fen_letter_facts x hl
      have hk : k < 64 := by omega
      have hclear : get_piece_positions b (get_piece_from_char x)
          (if x.isUpper then Color.WHITE else Color.BLACK) &&& 2 ^ (63 - k) = 0 := by
        rw [and_two_pow_eq_zero_iff]
        cases hb : (get_piece_positions b (get_piece_from_char x)
          (if x.isUpper then Color.WHITE else Color.BLACK)).testBit (63 - k) with
        | false => rfl
        | true =>
          have := hbits _ _ _ hb
          omega
      have hbits2 : ∀ kind color i,
          (get_piece_positions
            (b.set_bitboard (if x.isUpper then Color.WHITE else Color.BLACK)
              (get_piece_from_char x)
              (get_piece_positions b (get_piece_from_char x)
                (if x.isUpper then Color.WHITE else Color.BLACK) ||| 2 ^ (63 - k)))
            kind color).testBit i = true ↔
          ((get_piece_positions b kind color).testBit i = true ∨
            (get_piece_from_char x = kind ∧
              (if x.isUpper then Color.WHITE else Color.BLACK) = color ∧ i + k = 63)) := by
        intro kind color i
        rw [get_set_bitboard_ite _ _ _ _ _ _ hp]
        by_cases hm : color = (if x.isUpper then Color.WHITE else Color.BLACK) ∧
            kind = get_piece_from_char x
        · rw [if_pos hm, Nat.testBit_or, Bool.or_eq_true, Nat.testBit_two_pow, hm.1, hm.2]
          simp only [decide_eq_true_eq, true_and]
          constructor
          · rintro (h | h)
            · exact Or.inl h
            · exact Or.inr (by omega)
          · rintro (h | h)
            · exact Or.inl h
            · exact Or.inr (by omega)
        · rw [if_neg hm]
          constructor
          · exact Or.inl
          · rintro (h | ⟨h1, h2, _⟩)
            · exact h
            · exact absurd ⟨h2.symm, h1.symm⟩ hm
      obtain ⟨b1, hb1, ht, hcc, hst, hcap, hmv, hiff⟩ :=
        ih (k + fen_cell x)
          (b.set_bitboard (if x.isUpper then Color.WHITE else Color.BLACK)
            (get_piece_from_char x)
            (get_piece_positions b (get_piece_from_char x)
              (if x.isUpper then Color.WHITE else Color.BLACK) ||| 2 ^ (63 - k)))
          hrest hcells2
          (by
            intro kind color i hb
            rcases (hbits2 kind color i).mp hb with h | ⟨_, _, h⟩
            · have := hbits _ _ _ h
              omega
            · omega)
      refine ⟨b1, ?_, ht, hcc, hst, hcap, hmv, ?_⟩
      · rw [fen_loop, if_neg hs, hd]
        simp only [Bool.false_eq_true, if_false]
        rw [fen_position_shift, fen_position_square k hk, set_piece, if_neg hp,
          if_neg (not_not.mpr hclear)]
        simp only [Option.some_bind]
        rw [hc] at hb1
        exact hb1
      · intro kind color i
        rw [hiff, hbits2, fen_places_cons]
        constructor
        · rintro ((h | ⟨h1, h2, h3⟩) | h)
          · exact Or.inl h
          · exact Or.inr (Or.inl ⟨hl, h1, h2, h3⟩)
          · exact Or.inr (Or.inr h)
        · rintro (h | ⟨_, h1, h2, h3⟩ | h)
          · exact Or.inl (Or.inl h)
          · exact Or.inl (Or.inr ⟨h1, h2, h3⟩)
          · exact Or.inr h
    · -- a digit
      obtain ⟨b1, hb1, ht, hcc, hst, hcap, hmv, hiff⟩ :=
        ih (k + fen_cell x) b hrest hcells2
          (by
            intro kind color i hb
            have := hbits _ _ _ hb
            omega)
      refine ⟨b1, ?_, ht, hcc, hst, hcap, hmv, ?_⟩
      · rw [fen_loop, if_neg hs, hd]
        simp only [if_true]
        rw [fen_position_shift]
        have : fen_cell x = x.toNat - 48 := by simp [fen_cell, hs, hd]
        rw [← this]
        exact hb1
      · intro kind color i
        rw [hiff, fen_places_cons]
        constructor
        · rintro (h | h)
          · exact Or.inl h
          · exact Or.inr (Or.inr h)
        · rintro (h | ⟨h, _⟩ | h)
          · exact Or.inl h
          · exact absurd h hnl
          · exact Or.inr h
    · -- the rank separator
      subst hs
      have h0 : fen_cell '/' = 0 := by decide
      have hnl : '/' ∉ fen_letters := by decide
      obtain ⟨b1, hb1, ht, hcc, hst, hcap, hmv, hiff⟩ :=
        ih (k + fen_cell '/') b hrest hcells2
          (by
            intro kind color i hb
            have := hbits _ _ _ hb
            omega)
      refine ⟨b1, ?_, ht, hcc, hst, hcap, hmv, ?_⟩
      · rw [fen_loop, if_pos rfl]
        rw [h0, Nat.add_zero] at hb1
        exact hb1
      · intro kind color i
        rw [hiff, fen_places_cons]
        constructor
        · rintro (h | h)
          · exact Or.inl h
          · exact Or.inr (Or.inr h)
        · rintro (h | ⟨h, _⟩ | h)
          · exact Or.inl h
          · exact absurd h hnl
          · exact Or.inr h

theorem takeWhile_field (p : Char → Bool) (tok rest : List Char) (h : ∀ ch ∈ tok, p ch = true)
    (hr : rest = [] ∨ ∃ c tl, rest = c :: tl ∧ p c = false) :
    (tok ++ rest).takeWhile p = tok ∧ (tok ++ rest).dropWhile p = rest := by
  induction tok with
  | nil =>
    rcases hr with rfl | ⟨c, tl, rfl, hc⟩
    · exact ⟨rfl, rfl⟩
    · simp [List.takeWhile, List.dropWhile, hc]
  | cons t ts ih =>
    have ht : p t = true := h t (List.mem_cons_self _ _)
    have := ih fun ch hch => h ch (List.mem_cons_of_mem _ hch)
    simp [List.takeWhile, List.dropWhile, ht, this.1, this.2]

theorem read_token_field (tok rest : List Char) (hne : tok ≠ [])
    (h : ∀ ch ∈ tok, is_space ch = false)
    (hr : rest = [] ∨ ∃ c tl, rest = c :: tl ∧ is_space c = true) :
    read_token (tok ++ rest) = (tok, rest) := by
  unfold read_token
  have hdrop : (tok ++ rest).dropWhile is_space = tok ++ rest := by
    cases tok with
    | nil => exact absurd rfl hne
    | cons t ts =>
      have ht : is_space t = false := h t (List.mem_cons_self _ _)
      simp [List.dropWhile, ht]
  have hr2 : rest = [] ∨ ∃ c tl, rest = c :: tl ∧ (fun c => !is_space c) c = false := by
    rcases hr with hr | ⟨c, tl, h1, h2⟩
    · exact Or.inl hr
    · exact Or.inr ⟨c, tl, h1, by simp [h2]⟩
  have := takeWhile_field (fun c => !is_space c) tok rest (fun ch hch => by simp [h ch hch]) hr2
  simp only [hdrop, this.1, this.2]

theorem read_token_skip (sep stream : List Char) (h : ∀ ch ∈ sep, is_space ch = true) :
    read_token (sep ++ stream) = read_token stream := by
  unfold read_token
  have : (sep ++ stream).dropWhile is_space = stream.dropWhile is_space := by
    induction sep with
    | nil => rfl
    | cons t ts ih =>
      have ht : is_space t = true := h t (List.mem_cons_self _ _)
      have := ih fun ch hch => h ch (List.mem_cons_of_mem _ hch)
      simp only [List.cons_append, List.dropWhile, ht]
      exact this
  simp only [this]

theorem initialize_fen_eq (b : Board) (pieces sep rest : List Char) (side : Char)
    (hne : pieces ≠ []) (hchars : ∀ ch ∈ pieces, ch ∈ fen_alphabet)
    (hsep : sep ≠ [] ∧ ∀ ch ∈ sep, is_space ch = true) (hside : side = 'w' ∨ side = 'b')
    (hrest : rest = [] ∨ ∃ c tl, rest = c :: tl ∧ is_space c = true) :
    initialize_fen b (String.mk (pieces ++ (sep ++ side :: rest)))
      = (fen_loop pieces 0x8000000000000000 b).bind fun b1 =>
          some (true, set_turn_color b1 (if side = 'w' then Color.WHITE else Color.BLACK)) := by
  have hnsp : ∀ ch ∈ pieces, is_space ch = false := by
    intro ch hch
    rcases fen_alphabet_cases ch (hchars ch hch) with h | ⟨_, _, _, h⟩ | h
    · exact (fen_letter_facts ch h).2.2.2.2
    · exact h
    · rw [h]; decide
  have h1 : read_token (pieces ++ (sep ++ side :: rest)) = (pieces, sep ++ side :: rest) := by
    apply read_token_field pieces _ hne hnsp
    cases hs : sep with
    | nil => exact absurd hs hsep.1
    | cons c tl =>
      exact Or.inr ⟨c, tl ++ side :: rest, rfl,
        hsep.2 c (by rw [hs]; exact List.mem_cons_self _ _)⟩
  have h2 : read_token (sep ++ side :: rest) = ([side], rest) := by
    rw [read_token_skip sep _ hsep.2]
    have := read_token_field [side] rest (by simp)
      (by
        intro ch hch
        rw [List.mem_singleton] at hch
        rcases hside with h | h <;> (rw [hch, h]; decide))
      hrest
    simpa using this
  unfold initialize_fen
  rw [show (String.mk (pieces ++ (sep ++ side :: rest))).toList
    = pieces ++ (sep ++ side :: rest) from rfl]
  simp only [h1, h2]
  congr 1
  funext b1
  rcases hside with h | h <;> subst h <;> simp

/-! ## What `execute_move` leaves on the stacks -/

theorem get_piece_at_position_update (b : Board) (m : Move) (p : Piece) (pos : bitboard)
    (c : Color) :
    get_piece_at_position (update_castle_rights b m p) pos c = get_piece_at_position b pos c :=
  get_piece_at_position_congr _ _ _ _ (by rw [update_castle_rights_piece_bitboards])

theorem get_piece_positions_update (b : Board) (m : Move) (p : Piece) (k : Piece) (c : Color) :
    get_piece_positions (update_castle_rights b m p) k c = get_piece_positions b k c :=
  get_piece_positions_congr _ _ (update_castle_rights_piece_bitboards b m p) k c

theorem update_castle_rights_captured (b : Board) (m : Move) (p : Piece) :
    (update_castle_rights b m p).captured_pieces = b.captured_pieces := by
  obtain ⟨r, hr⟩ := update_castle_rights_eq b m p
  rw [hr]

theorem get_piece_at_position_set_other (b : Board) (c : Color) (p : Piece) (v pos : bitboard) :
    get_piece_at_position (b.set_bitboard c p v) pos (negate_color c)
      = get_piece_at_position b pos (negate_color c) := by
  apply get_piece_at_position_congr
  simp [Board.set_bitboard]

theorem set_bitboard_turn_color (b : Board) (c : Color) (p : Piece) (v : bitboard) :
    (b.set_bitboard c p v).turn_color = b.turn_color := rfl

theorem set_bitboard_captured (b : Board) (c : Color) (p : Piece) (v : bitboard) :
    (b.set_bitboard c p v).captured_pieces = b.captured_pieces := rfl

theorem push_captured_turn_color (b : Board) (c : Color) (p : Piece) :
    (b.push_captured c p).turn_color = b.turn_color := rfl

theorem push_captured_captured (b : Board) (c : Color) (p : Piece) :
    (b.push_captured c p).captured_pieces
      = b.captured_pieces.set c (p :: b.captured_pieces.get c) := rfl

theorem push_captured_positions (b : Board) (c : Color) (p k : Piece) (c1 : Color) :
    get_piece_positions (b.push_captured c p) k c1 = get_piece_positions b k c1 := rfl

theorem get_piece_at_position_push_captured (b : Board) (c : Color) (p : Piece)
    (pos : bitboard) (c1 : Color) :
    get_piece_at_position (b.push_captured c p) pos c1 = get_piece_at_position b pos c1 := rfl

theorem finish_move_captured (b : Board) (c c1 : Color) (m : Move) :
    (set_turn_color (b.push_move c m) c1).captured_pieces = b.captured_pieces := rfl

theorem finish_move_positions (b : Board) (c c1 : Color) (m : Move) (k : Piece) (c2 : Color) :
    get_piece_positions (set_turn_color (b.push_move c m) c1) k c2
      = get_piece_positions b k c2 := rfl

theorem get_set_bitboard_negate (b : Board) (c : Color) (p k : Piece) (v : bitboard) :
    get_piece_positions (b.set_bitboard c p v) k (negate_color c)
      = get_piece_positions b k (negate_color c) :=
  get_set_bitboard_other_color _ _ _ _ _ _ (negate_color_ne c)

/-- The captured stacks after `execute_move`: untouched by the flags 0-3 and 8-11; for the
flags 4, 5 and 12-15 the kind standing on the capture square for the opponent is pushed on
the mover's stack, that kind is not `NONE`, its bit on the capture square was set and is
cleared, and no other bitboard of the opponent changes. -/
theorem execute_move_captured (b b1 : Board) (m : Move) (h : execute_move b m = some b1) :
    (m.flags = 0 ∨ m.flags = 1 ∨ m.flags = 2 ∨ m.flags = 3 ∨ (8 ≤ m.flags ∧ m.flags ≤ 11) →
      b1.captured_pieces = b.captured_pieces ∧
      ∀ k, get_piece_positions b1 k (negate_color b.turn_color)
        = get_piece_positions b k (negate_color b.turn_color)) ∧
    (m.flags = 4 ∨ m.flags = 5 ∨ (12 ≤ m.flags ∧ m.flags ≤ 15) →
      ∀ sq, sq = (if m.flags = 5 then en_passant_capture_square b m.destination
          else m.destination) →
      ∀ k, k = get_piece_at_position b sq (negate_color b.turn_color) →
        k ≠ Piece.NONE ∧
        b1.captured_pieces
          = b.captured_pieces.set b.turn_color (k :: b.captured_pieces.get b.turn_color) ∧
        get_piece_positions b k (negate_color b.turn_color) &&& sq ≠ 0 ∧
        get_piece_positions b1 k (negate_color b.turn_color)
          = get_piece_positions b k (negate_color b.turn_color) &&& bnot64 sq ∧
        ∀ k2, k2 ≠ k → get_piece_positions b1 k2 (negate_color b.turn_color)
          = get_piece_positions b k2 (negate_color b.turn_color)) := by
  have hcap := update_castle_rights_captured b m (get_piece_at_position b m.origin b.turn_color)
  have hturn := update_castle_rights_turn_color b m
    (get_piece_at_position b m.origin b.turn_color)
  have hpos := get_piece_positions_update b m (get_piece_at_position b m.origin b.turn_color)
  have hat := get_piece_at_position_update b m (get_piece_at_position b m.origin b.turn_color)
  unfold execute_move at h
  simp only [] at h
  generalize update_castle_rights b m (get_piece_at_position b m.origin b.turn_color) = u
    at h hcap hturn hpos hat
  split_ifs at h with h67 h01 h23 h4 hN h5 ht hc
  all_goals simp only [Option.bind_eq_bind, Option.bind_eq_some, Option.some.injEq,
    Option.pure_def, exists_and_left, execute_castle_move] at h
  all_goals obtain ⟨b5, hh, rfl⟩ := h
  · obtain ⟨_, rfl⟩ := move_piece_eq _ _ _ _ _ _ hh
    refine ⟨fun _ => ⟨hcap, fun k => ?_⟩, fun hf => ?_⟩
    · rw [finish_move_positions, hturn, get_set_bitboard_negate, hpos]
    · omega
  · obtain ⟨b2, h2, h3⟩ := hh
    obtain ⟨_, rfl⟩ := move_piece_eq _ _ _ _ _ _ h2
    obtain ⟨_, rfl⟩ := move_piece_eq _ _ _ _ _ _ h3
    refine ⟨fun _ => ⟨hcap, fun k => ?_⟩, fun hf => ?_⟩
    · simp only [finish_move_positions, set_bitboard_turn_color, hturn,
        get_set_bitboard_negate, hpos]
    · omega
  · cases hh
  · obtain ⟨b2, h2, b3, h3, rfl⟩ := hh
    obtain ⟨_, rfl⟩ := move_piece_eq _ _ _ _ _ _ h2
    obtain ⟨hk3, hbit, rfl⟩ := remove_piece_eq _ _ _ _ _ h3
    simp only [set_bitboard_turn_color, hturn, hat, get_set_bitboard_negate, hpos]
      at hN hk3 hbit
    refine ⟨fun hf => ?_, fun _ sq hsq k hk => ?_⟩
    · omega
    · rw [if_neg (by omega)] at hsq
      subst hsq
      subst hk
      refine ⟨hN, ?_, hbit, ?_, fun k2 hk2 => ?_⟩
      · simp only [finish_move_captured, push_captured_captured, set_bitboard_captured,
          set_bitboard_turn_color, hturn, hat, hcap]
      · simp only [finish_move_positions, push_captured_positions, set_bitboard_turn_color,
          hturn, hat, get_set_bitboard_negate, hpos]
        rw [get_set_bitboard_same _ _ _ _ hN]
      · simp only [finish_move_positions, push_captured_positions, set_bitboard_turn_color,
          hturn, hat, get_set_bitboard_negate, hpos]
        rw [get_set_bitboard_other_piece _ _ _ _ _ hk2, get_set_bitboard_negate, hpos]
  · obtain ⟨b3, h3, h4⟩ := hh
    obtain ⟨_, rfl⟩ := move_piece_eq _ _ _ _ _ _ h3
    obtain ⟨hk3, hbit, rfl⟩ := remove_piece_eq _ _ _ _ _ h4
    simp only [set_bitboard_turn_color, push_captured_turn_color, hturn, hat,
      get_set_bitboard_negate, push_captured_positions, get_piece_at_position_push_captured,
      hpos] at hk3 hbit
    refine ⟨fun hf => ?_, fun _ sq hsq k hk => ?_⟩
    · omega
    · rw [if_pos h5] at hsq
      unfold en_passant_capture_square at hsq
      rw [if_pos (hturn ▸ ht)] at hsq
      subst hsq
      subst hk
      refine ⟨hk3, ?_, hbit, ?_, fun k2 hk2 => ?_⟩
      · simp only [finish_move_captured, push_captured_captured, set_bitboard_captured,
          set_bitboard_turn_color, push_captured_turn_color, hturn, hat, hcap]
      · simp only [finish_move_positions, push_captured_positions, set_bitboard_turn_color,
          push_captured_turn_color, hturn, hat, get_set_bitboard_negate, hpos]
        rw [get_set_bitboard_same _ _ _ _ hk3]
      · simp only [finish_move_positions, push_captured_positions, set_bitboard_turn_color,
          push_captured_turn_color, hturn, hat, get_set_bitboard_negate, hpos]
        rw [get_set_bitboard_other_piece _ _ _ _ _ hk2, get_set_bitboard_negate,
          push_captured_positions, hpos]
  · obtain ⟨b3, h3, h4⟩ := hh
    obtain ⟨_, rfl⟩ := move_piece_eq _ _ _ _ _ _ h3
    obtain ⟨hk3, hbit, rfl⟩ := remove_piece_eq _ _ _ _ _ h4
    simp only [set_bitboard_turn_color, push_captured_turn_color, hturn, hat,
      get_set_bitboard_negate, push_captured_positions, get_piece_at_position_push_captured,
      hpos] at hk3 hbit
    refine ⟨fun hf => ?_, fun _ sq hsq k hk => ?_⟩
    · omega
    · rw [if_pos h5] at hsq
      unfold en_passant_capture_square at hsq
      rw [if_neg (hturn ▸ ht)] at hsq
      subst hsq
      subst hk
      refine ⟨hk3, ?_, hbit, ?_, fun k2 hk2 => ?_⟩
      · simp only [finish_move_captured, push_captured_captured, set_bitboard_captured,
          set_bitboard_turn_color, push_captured_turn_color, hturn, hat, hcap]
      · simp only [finish_move_positions, push_captured_positions, set_bitboard_turn_color,
          push_captured_turn_color, hturn, hat, get_set_bitboard_negate, hpos]
        rw [get_set_bitboard_same _ _ _ _ hk3]
      · simp only [finish_move_positions, push_captured_positions, set_bitboard_turn_color,
          push_captured_turn_color, hturn, hat, get_set_bitboard_negate, hpos]
        rw [get_set_bitboard_other_piece _ _ _ _ _ hk2, get_set_bitboard_negate,
          push_captured_positions, hpos]
  · obtain ⟨b2, h2, b3, h3, b4, h4, rfl⟩ := hh
    obtain ⟨_, _, rfl⟩ := remove_piece_eq _ _ _ _ _ h2
    obtain ⟨_, _, rfl⟩ := set_piece_eq _ _ _ _ _ h3
    obtain ⟨hk3, hbit, rfl⟩ := remove_piece_eq _ _ _ _ _ h4
    simp only [set_bitboard_turn_color, hturn, hat, get_piece_at_position_set_other,
      get_set_bitboard_negate, hpos] at hk3 hbit
    refine ⟨fun hf => ?_, fun _ sq hsq k hk => ?_⟩
    · omega
    · rw [if_neg (by omega)] at hsq
      subst hsq
      subst hk
      refine ⟨hk3, ?_, hbit, ?_, fun k2 hk2 => ?_⟩
      · simp only [finish_move_captured, push_captured_captured, set_bitboard_captured,
          set_bitboard_turn_color, hturn, hat, get_piece_at_position_set_other, hcap]
      · simp only [finish_move_positions, push_captured_positions, set_bitboard_turn_color,
          hturn, hat, get_piece_at_position_set_other, get_set_bitboard_negate, hpos]
        rw [get_set_bitboard_same _ _ _ _ hk3]
      · simp only [finish_move_positions, push_captured_positions, set_bitboard_turn_color,
          hturn, hat, get_piece_at_position_set_other, get_set_bitboard_negate, hpos]
        rw [get_set_bitboard_other_piece _ _ _ _ _ hk2, get_set_bitboard_negate,
          get_set_bitboard_negate, hpos]
  · obtain ⟨b2, h2, b3, h3, rfl⟩ := hh
    obtain ⟨_, _, rfl⟩ := remove_piece_eq _ _ _ _ _ h2
    obtain ⟨_, _, rfl⟩ := set_piece_eq _ _ _ _ _ h3
    refine ⟨fun _ => ⟨hcap, fun k => ?_⟩, fun hf => ?_⟩
    · simp only [finish_move_positions, set_bitboard_turn_color, hturn,
        get_set_bitboard_negate, hpos]
    · omega

/-- What `execute_move` leaves of the rights stacks and of the side that did not move. -/
theorem execute_move_stacks (b b1 : Board) (m : Move) (h : execute_move b m = some b1) :
    b1.previous_can_castle_stacks.get b.turn_color
      = b.can_castle.get b.turn_color :: b.previous_can_castle_stacks.get b.turn_color ∧
    b1.previous_can_castle_stacks.get (negate_color b.turn_color)
      = b.previous_can_castle_stacks.get (negate_color b.turn_color) ∧
    b1.can_castle.get (negate_color b.turn_color)
      = b.can_castle.get (negate_color b.turn_color) ∧
    b1.moves.get b.turn_color = m :: b.moves.get b.turn_color ∧
    b1.moves.get (negate_color b.turn_color) = b.moves.get (negate_color b.turn_color) := by
  obtain ⟨hcc, hst, _, hmv⟩ := execute_move_keeps_rights_of_update b b1 m h
  obtain ⟨r, hr⟩ := update_castle_rights_eq b m (get_piece_at_position b m.origin b.turn_color)
  have hrr := (update_castle_rights_rights b m
    (get_piece_at_position b m.origin b.turn_color)).2
  rw [← hcc] at hrr
  rw [hr] at hst
  simp only at hst
  rw [hst, hmv]
  exact ⟨per_color_get_set_same _ _ _, per_color_get_set_negate _ _ _, hrr,
    per_color_get_set_same _ _ _, per_color_get_set_negate _ _ _⟩

theorem execute_move_flags (b b1 : Board) (m : Move) (h : execute_move b m = some b1) :
    m.flags = 0 ∨ m.flags = 1 ∨ m.flags = 2 ∨ m.flags = 3 ∨ m.flags = 4 ∨ m.flags = 5 ∨
      (8 ≤ m.flags ∧ m.flags ≤ 15) := by
  unfold execute_move at h
  simp only [] at h
  split_ifs at h with h67 h01 h23 h4 hN h5 ht hc
  all_goals simp only [Option.bind_eq_bind, Option.bind_eq_some, Option.some.injEq,
    Option.pure_def, exists_and_left, execute_castle_move] at h
  all_goals obtain ⟨b5, hh, _⟩ := h
  any_goals omega
  obtain ⟨b2, _, b3, h3, _⟩ := hh
  obtain ⟨hp, _, _⟩ := set_piece_eq _ _ _ _ _ h3
  by_contra hcon
  apply hp
  unfold get_promotion_piece_from_flags
  simp only [show ¬ m.flags = 8 by omega, show ¬ m.flags = 9 by omega,
    show ¬ m.flags = 10 by omega, show ¬ m.flags = 11 by omega,
    show ¬ m.flags = 12 by omega, show ¬ m.flags = 13 by omega,
    show ¬ m.flags = 14 by omega, show ¬ m.flags = 15 by omega, if_false]

/-! ## The traced `undo_move` faults exactly where `undo_move` does -/

theorem toOption_bind {α β : Type} (x : Except Fault α) (f : α → Except Fault β) :
    (x >>= f).toOption = x.toOption.bind fun a => (f a).toOption := by
  cases x <;> rfl

theorem toOption_except_bind {α β : Type} (x : Except Fault α) (f : α → Except Fault β) :
    (x.bind f).toOption = x.toOption.bind fun a => (f a).toOption := by
  cases x <;> rfl

theorem move_piece_traced_toOption (b : Board) (p : Piece) (c : Color) (o d : bitboard) :
    (move_piece_traced b p c o d).toOption = move_piece b p c o d := by
  unfold move_piece_traced move_piece
  split_ifs <;> rfl

theorem set_piece_traced_toOption (b : Board) (p : Piece) (c : Color) (pos : bitboard) :
    (set_piece_traced b p c pos).toOption = set_piece b p c pos := by
  unfold set_piece_traced set_piece
  split_ifs <;> rfl

theorem remove_piece_traced_toOption (b : Board) (p : Piece) (c : Color) (pos : bitboard) :
    (remove_piece_traced b p c pos).toOption = remove_piece b p c pos := by
  unfold remove_piece_traced remove_piece
  split_ifs <;> rfl

theorem execute_castle_move_traced_toOption (b : Board) (o d : bitboard) :
    (execute_castle_move_traced b o d).toOption = execute_castle_move b o d := by
  unfold execute_castle_move_traced execute_castle_move
  simp only [toOption_bind, move_piece_traced_toOption]
  rfl

theorem pop_captured_traced_toOption (b : Board) (c : Color) :
    (b.pop_captured_traced c).toOption = b.pop_captured c := by
  unfold Board.pop_captured_traced Board.pop_captured
  split <;> rfl

theorem pop_move_traced_toOption (b : Board) (c : Color) :
    (b.pop_move_traced c).toOption = b.pop_move c := by
  unfold Board.pop_move_traced Board.pop_move
  split <;> rfl

theorem revert_castle_rights_traced_toOption (b : Board) (c : Color) :
    (revert_castle_rights_traced b c).toOption = revert_castle_rights b c := by
  unfold revert_castle_rights_traced revert_castle_rights
  split <;> rfl

/-- Forgetting the kind of fault, the traced `undo_move` is `undo_move`. -/
theorem undo_move_traced_toOption (b : Board) (m : Move) :
    (undo_move_traced b m).toOption = undo_move b m := by
  unfold undo_move_traced undo_move
  simp only []
  split_ifs
  · rfl
  all_goals
    simp only [toOption_bind, toOption_except_bind, move_piece_traced_toOption,
      set_piece_traced_toOption, remove_piece_traced_toOption,
      execute_castle_move_traced_toOption, pop_captured_traced_toOption,
      pop_move_traced_toOption, revert_castle_rights_traced_toOption]
  all_goals rfl

/-! ## Castle, promotion and en passant moves on the bitboards -/

theorem xor_move_square (x s d : bitboard) (hx : x < two64) (hs : is_square s)
    (hd : is_square d) (h1 : x &&& s ≠ 0) (h2 : x &&& d = 0) :
    x ^^^ (s ||| d) = (x &&& bnot64 s) ||| d := by
  obtain ⟨i, _, rfl⟩ := hs
  obtain ⟨j, _, rfl⟩ := hd
  have hi := (and_two_pow_ne_zero_iff x i).mp h1
  have hj := (and_two_pow_eq_zero_iff x j).mp h2
  apply Nat.eq_of_testBit_eq
  intro t
  simp only [Nat.testBit_xor, Nat.testBit_or, Nat.testBit_and, testBit_bnot64,
    Nat.testBit_two_pow]
  by_cases hti : i = t
  · subst hti
    have hij : ¬ j = i := by
      intro h
      rw [h, hi] at hj
      cases hj
    simp [hi, hij]
  · by_cases htj : j = t
    · subst htj
      simp [hj, hti]
    · by_cases ht : t < 64
      · simp [hti, htj, ht]
      · have : x.testBit t = false := testBit_eq_false_of_bounded x hx t (by omega)
        simp [hti, htj, this]

theorem castle_squares (c : Color) (kingside : Bool) :
    is_square (king_start c) ∧ is_square (king_castled_square c kingside) ∧
    is_square (rook_corner c kingside) ∧ is_square (rook_castled_square c kingside) ∧
    castle_rook_origin_lookup (king_castled_square c kingside) = rook_corner c kingside ∧
    castle_rook_destination_lookup (king_castled_square c kingside)
      = rook_castled_square c kingside := by
  cases c <;> cases kingside <;> decide!

/-- The bitboards and rights after a castle move of the side to move, when king and rook stand
on their squares and the squares they land on hold no king and no rook of that side. -/
theorem execute_castle_spec (b : Board) (c : Color) (kingside : Bool) (f : Nat)
    (hturn : b.turn_color = c) (hf : f = 2 ∨ f = 3) (hb : b.bounded) (hd : b.disjoint)
    (hking : get_piece_positions b Piece.KING c &&& king_start c ≠ 0)
    (hrook : get_piece_positions b Piece.ROOK c &&& rook_corner c kingside ≠ 0)
    (hkd : get_piece_positions b Piece.KING c &&& king_castled_square c kingside = 0)
    (hrd : get_piece_positions b Piece.ROOK c &&& rook_castled_square c kingside = 0) :
    ∃ b1, execute_move b ⟨king_start c, king_castled_square c kingside, f⟩ = some b1 ∧
      undo_move b1 ⟨king_start c, king_castled_square c kingside, f⟩ = some b ∧
      get_piece_positions b1 Piece.KING c
        = (get_piece_positions b Piece.KING c &&& bnot64 (king_start c))
          ||| king_castled_square c kingside ∧
      get_piece_positions b1 Piece.ROOK c
        = (get_piece_positions b Piece.ROOK c &&& bnot64 (rook_corner c kingside))
          ||| rook_castled_square c kingside ∧
      (∀ k col, ¬ (col = c ∧ (k = Piece.KING ∨ k = Piece.ROOK)) →
        get_piece_positions b1 k col = get_piece_positions b k col) ∧
      get_can_castle_king b1 c = false ∧ get_can_castle_queen b1 c = false := by
  subst hturn
  obtain ⟨hs1, hs2, hs3, hs4, hl1, hl2⟩ := castle_squares b.turn_color kingside
  obtain ⟨b1, h1, h2, hpb⟩ :=
    roundtrip_castle b ⟨king_start b.turn_color, king_castled_square b.turn_color kingside, f⟩ hf
  simp only [hl1, hl2] at hpb
  have hK : Piece.KING ≠ Piece.NONE := by decide
  have hR : Piece.ROOK ≠ Piece.NONE := by decide
  have hRK : Piece.ROOK ≠ Piece.KING := by decide
  have hKR : Piece.KING ≠ Piece.ROOK := by decide
  have hmp : get_piece_at_position b (king_start b.turn_color) b.turn_color = Piece.KING := by
    apply get_piece_at_position_unique _ _ _ _ hK hking
    intro k hk
    have h0 := hd.1 b.turn_color k Piece.KING hk
    obtain ⟨i, _, hi⟩ := hs1
    rw [hi] at hking ⊢
    rw [and_two_pow_eq_zero_iff]
    have hbit := (and_two_pow_ne_zero_iff _ _).mp hking
    rw [Nat.and_comm] at h0
    exact and_eq_zero_testBit _ _ h0 i hbit
  refine ⟨b1, h1, h2, ?_, ?_, ?_, ?_⟩
  · rw [get_piece_positions_congr _ _ hpb, get_set_bitboard_other_piece _ _ _ _ _ hKR,
      get_set_bitboard_same _ _ _ _ hK]
    exact xor_move_square _ _ _ (hb _ _) hs1 hs2 hking hkd
  · rw [get_piece_positions_congr _ _ hpb, get_set_bitboard_same _ _ _ _ hR]
    exact xor_move_square _ _ _ (hb _ _) hs3 hs4 hrook hrd
  · intro k col hk
    rw [get_piece_positions_congr _ _ hpb]
    rw [set_bitboard_frame _ _ _ _ _ _ (fun h => hk ⟨h.2, Or.inr h.1⟩),
      set_bitboard_frame _ _ _ _ _ _ (fun h => hk ⟨h.2, Or.inl h.1⟩)]
  · obtain ⟨hcc, _, _, _⟩ := execute_move_keeps_rights_of_update b b1 _ h1
    have hr := (update_castle_rights_rights b
      ⟨king_start b.turn_color, king_castled_square b.turn_color kingside, f⟩
      (get_piece_at_position b (king_start b.turn_color) b.turn_color)).1
    simp only [hmp, if_true] at hr
    unfold get_can_castle_king get_can_castle_queen
    rw [hcc]
    simp only [hmp]
    rw [hr]
    exact ⟨rfl, rfl⟩

theorem pawn_on_square (b : Board) (pos : bitboard) (c : Color)
    (h : get_piece_positions b Piece.PAWN c &&& pos ≠ 0) :
    get_piece_at_position b pos c = Piece.PAWN := by
  unfold get_piece_at_position
  rw [if_pos h]

theorem own_free_of_opponent (b : Board) (c : Color) (pos : bitboard) (hs : is_square pos)
    (hd : b.disjoint)
    (h : get_all_piece_positions b (negate_color c) &&& pos ≠ 0) :
    get_all_piece_positions b c &&& pos = 0 := by
  obtain ⟨i, _, rfl⟩ := hs
  have hwb := (colours_apart_iff b (negate_color c)).mp hd.2
  have := opponent_free_of_own b (negate_color c) i hwb h
  rw [negate_color_negate_color] at this
  rw [get_all_and_eq_zero_iff]
  intro k
  exact (and_two_pow_eq_zero_iff _ _).mpr (this k)

theorem empty_of_occupancy (b : Board) (c : Color) (pos : bitboard)
    (h : occupancy b &&& pos = 0) : get_all_piece_positions b c &&& pos = 0 := by
  unfold occupancy at h
  rw [or_and_eq_zero_iff] at h
  cases c
  · exact h.1
  · exact h.2

/-- A promotion move on a board with 64-bit, disjoint bitboards: the pawn leaves the origin,
the promoted kind stands on the destination, a defender on the destination is removed, and
`undo_move` restores the board. -/
theorem execute_promotion_spec (b : Board) (m : Move) (hb : b.bounded) (hd : b.disjoint)
    (ho : is_square m.origin) (hdst : is_square m.destination)
    (hf : 8 ≤ m.flags ∧ m.flags ≤ 15)
    (hpawn : get_piece_positions b Piece.PAWN b.turn_color &&& m.origin ≠ 0)
    (hquiet : m.flags ≤ 11 → occupancy b &&& m.destination = 0)
    (hcapt : 12 ≤ m.flags →
      get_all_piece_positions b (negate_color b.turn_color) &&& m.destination ≠ 0) :
    ∃ b1, execute_move b m = some b1 ∧ undo_move b1 m = some b ∧
      get_piece_positions b1 Piece.PAWN b.turn_color
        = get_piece_positions b Piece.PAWN b.turn_color &&& bnot64 m.origin ∧
      get_piece_positions b1 (get_promotion_piece_from_flags m.flags) b.turn_color
        = get_piece_positions b (get_promotion_piece_from_flags m.flags) b.turn_color
          ||| m.destination ∧
      (∀ k, k ≠ Piece.PAWN → k ≠ get_promotion_piece_from_flags m.flags →
        get_piece_positions b1 k b.turn_color = get_piece_positions b k b.turn_color) ∧
      get_all_piece_positions b1 (negate_color b.turn_color) &&& m.destination = 0 := by
  obtain ⟨i, hi, hoi⟩ := ho
  obtain ⟨j, hj, hdj⟩ := hdst
  obtain ⟨hpN, hpP⟩ := promotion_piece_ne m.flags hf.1 hf.2
  have hP : Piece.PAWN ≠ Piece.NONE := by decide
  have hp := pawn_on_square b m.origin b.turn_color hpawn
  by_cases h12 : 12 ≤ m.flags
  · have hopp := hcapt h12
    have hown := own_free_of_opponent b b.turn_color m.destination ⟨j, hj, hdj⟩ hd hopp
    have hcp := (get_piece_at_position_ne_none_iff b m.destination
      (negate_color b.turn_color)).mpr hopp
    obtain ⟨b1, h1, h2, hpb⟩ :=
      roundtrip_promotion_capture b m i j h12 hf.2 hb hoi hdj hp hown hcp
    refine ⟨b1, h1, h2, ?_, ?_, ?_, ?_⟩
    · rw [get_piece_positions_congr _ _ hpb, get_set_bitboard_other_color _ _ _ _ _ _
        (negate_color_ne _).symm, get_set_bitboard_other_piece _ _ _ _ _ hpP.symm,
        get_set_bitboard_same _ _ _ _ hP]
    · rw [get_piece_positions_congr _ _ hpb, get_set_bitboard_other_color _ _ _ _ _ _
        (negate_color_ne _).symm, get_set_bitboard_same _ _ _ _ hpN]
    · intro k hk1 hk2
      rw [get_piece_positions_congr _ _ hpb, get_set_bitboard_other_color _ _ _ _ _ _
        (negate_color_ne _).symm, get_set_bitboard_other_piece _ _ _ _ _ hk2,
        get_set_bitboard_other_piece _ _ _ _ _ hk1]
    · rw [get_all_and_eq_zero_iff]
      intro k
      rw [get_piece_positions_congr _ _ hpb]
      by_cases hk : k = get_piece_at_position b m.destination (negate_color b.turn_color)
      · rw [hk, get_set_bitboard_same _ _ _ _ hcp, hdj]
        exact cleared_and _ _
      · rw [get_set_bitboard_other_piece _ _ _ _ _ hk, get_set_bitboard_negate,
          get_set_bitboard_negate]
        have hbit := get_piece_at_position_bit b m.destination (negate_color b.turn_color) hcp
        have h0 := hd.1 (negate_color b.turn_color) k _ hk
        rw [hdj] at hbit h0 ⊢
        rw [and_two_pow_eq_zero_iff]
        have hb2 := (and_two_pow_ne_zero_iff _ _).mp hbit
        rw [Nat.and_comm] at h0
        exact and_eq_zero_testBit _ _ h0 j hb2
  · have hocc := hquiet (by omega)
    have hown := empty_of_occupancy b b.turn_color m.destination hocc
    obtain ⟨b1, h1, h2, hpb⟩ :=
      roundtrip_promotion b m i j hf.1 (by omega) hb hoi hdj hp hown
    refine ⟨b1, h1, h2, ?_, ?_, ?_, ?_⟩
    · rw [get_piece_positions_congr _ _ hpb, get_set_bitboard_other_piece _ _ _ _ _ hpP.symm,
        get_set_bitboard_same _ _ _ _ hP]
    · rw [get_piece_positions_congr _ _ hpb, get_set_bitboard_same _ _ _ _ hpN]
    · intro k hk1 hk2
      rw [get_piece_positions_congr _ _ hpb, get_set_bitboard_other_piece _ _ _ _ _ hk2,
        get_set_bitboard_other_piece _ _ _ _ _ hk1]
    · rw [get_all_and_eq_zero_iff]
      intro k
      rw [get_piece_positions_congr _ _ hpb, get_set_bitboard_negate, get_set_bitboard_negate]
      exact (get_all_and_eq_zero_iff b _ _).mp
        (empty_of_occupancy b (negate_color b.turn_color) m.destination hocc) k

theorem double_push_geometry_fin :
    ∀ s : Fin 64,
      (get_pawn_double_push (2 ^ s.val) Color.WHITE ≠ 0 →
        8 ≤ s.val ∧ s.val < 16 ∧ get_pawn_single_push (2 ^ s.val) Color.WHITE = 2 ^ (s.val + 8) ∧
          get_pawn_double_push (2 ^ s.val) Color.WHITE = 2 ^ (s.val + 16)) ∧
      (get_pawn_double_push (2 ^ s.val) Color.BLACK ≠ 0 →
        48 ≤ s.val ∧ s.val < 56 ∧
          get_pawn_single_push (2 ^ s.val) Color.BLACK = 2 ^ (s.val - 8) ∧
          get_pawn_double_push (2 ^ s.val) Color.BLACK = 2 ^ (s.val - 16)) := by
  decide!

theorem double_push_geometry (col : Color) (s : Nat) (hs : s < 64)
    (h : get_pawn_double_push (2 ^ s) col ≠ 0) :
    ∃ t u, t < 64 ∧ u < 64 ∧ get_pawn_single_push (2 ^ s) col = 2 ^ t ∧
      get_pawn_double_push (2 ^ s) col = 2 ^ u ∧
      (if negate_color col = Color.WHITE then north (2 ^ u) else south (2 ^ u)) = 2 ^ t ∧
      (if negate_color col = Color.WHITE then south (2 ^ t) else north (2 ^ t)) = 2 ^ u := by
  have hfin := double_push_geometry_fin ⟨s, hs⟩
  cases col
  · obtain ⟨h1, h2, h3, h4⟩ := hfin.1 h
    simp only at h1 h2 h3 h4
    refine ⟨s + 8, s + 16, by omega, by omega, h3, h4, ?_, ?_⟩
    · simp only [negate_color, reduceCtorEq, if_false]
      rw [south_two_pow _ (by omega), if_pos (by omega)]
      congr 1
    · simp only [negate_color, reduceCtorEq, if_false]
      rw [north_two_pow _ (by omega), if_pos (by omega)]
  · obtain ⟨h1, h2, h3, h4⟩ := hfin.2 h
    simp only at h1 h2 h3 h4
    refine ⟨s - 8, s - 16, by omega, by omega, h3, h4, ?_, ?_⟩
    · simp only [negate_color, if_true]
      rw [north_two_pow _ (by omega), if_pos (by omega)]
      congr 1
      omega
    · simp only [negate_color, if_true]
      rw [south_two_pow _ (by omega), if_pos (by omega)]
      congr 1

theorem get_all_set_bitboard_negate (b : Board) (c : Color) (p : Piece) (v : bitboard) :
    get_all_piece_positions (b.set_bitboard c p v) (negate_color c)
      = get_all_piece_positions b (negate_color c) := by
  simp only [get_all_piece_positions, List.foldl, get_set_bitboard_negate]

theorem and_or_eq_zero (x a b : Nat) (h : x &&& (a ||| b) = 0) : x &&& a = 0 ∧ x &&& b = 0 := by
  rw [Nat.and_comm, or_and_eq_zero_iff] at h
  exact ⟨by rw [Nat.and_comm]; exact h.1, by rw [Nat.and_comm]; exact h.2⟩

/-- After a double pawn push, every en passant move the generator emits for the other side
takes the pushed pawn: the capture square is the pushed pawn's square, the capturing pawn goes
from origin to destination, exactly the pushed pawn is removed, and `PAWN` is pushed on the
captured stack. -/
theorem en_passant_after_double_push (b0 : Board) (push : Move) (hb : b0.bounded)
    (hpush : double_pawn_push b0 push) :
    ∃ b, execute_move b0 push = some b ∧ b.turn_color = negate_color b0.turn_color ∧
      get_last_move b b0.turn_color = some push ∧
      get_piece_positions b Piece.PAWN b0.turn_color &&& push.destination ≠ 0 ∧
      ∀ (moves : List Move) (m : Move),
        m ∈ add_pseudo_legal_en_passant_moves b (negate_color b0.turn_color) moves →
        m ∉ moves →
        m.flags = 5 ∧ is_square m.origin ∧
        get_piece_positions b Piece.PAWN (negate_color b0.turn_color) &&& m.origin ≠ 0 ∧
        m.destination = get_pawn_single_push push.origin b0.turn_color ∧
        en_passant_capture_square b m.destination = push.destination ∧
        ∃ b1, execute_move b m = some b1 ∧
          get_piece_positions b1 Piece.PAWN (negate_color b0.turn_color)
            = (get_piece_positions b Piece.PAWN (negate_color b0.turn_color)
                &&& bnot64 m.origin) ||| m.destination ∧
          get_piece_positions b1 Piece.PAWN b0.turn_color
            = get_piece_positions b Piece.PAWN b0.turn_color &&& bnot64 push.destination ∧
          (∀ k col, k ≠ Piece.PAWN →
            get_piece_positions b1 k col = get_piece_positions b k col) ∧
          b1.captured_pieces.get (negate_color b0.turn_color)
            = Piece.PAWN :: b.captured_pieces.get (negate_color b0.turn_color) := by
  obtain ⟨hf1, ⟨s, hs, hos⟩, hpawn, hdst, hdne, hocc⟩ := hpush
  have hP : Piece.PAWN ≠ Piece.NONE := by decide
  have hp0 := pawn_on_square b0 push.origin b0.turn_color hpawn
  obtain ⟨hocc1, hocc2⟩ := and_or_eq_zero _ _ _ hocc
  rw [hos] at hdst hocc1
  rw [hdst] at hdne
  obtain ⟨t, u, ht, hu, hsingle, hdouble, hnorth, hsouth⟩ :=
    double_push_geometry b0.turn_color s hs hdne
  rw [hdouble] at hdst
  rw [hsingle] at hocc1
  rw [hdst] at hocc2
  -- the double push
  obtain ⟨b, hex, _, hpb⟩ := roundtrip_quiet b0 push (Or.inr hf1) (by rw [hp0]; exact hP)
    (by rw [hdst]; exact two_pow_ne_zero u)
    (by rw [hdst]; exact empty_of_occupancy b0 _ _ hocc2)
  rw [hp0, hos, hdst] at hpb
  obtain ⟨_, _, _, hmv, _⟩ := execute_move_stacks b0 b push hex
  have hturn := (execute_move_keeps_rights_of_update b0 b push hex).2.2.1
  have hbb : b.bounded := execute_move_bounded b0 b push hb
    (by rw [hos]; exact is_square_lt _ ⟨s, hs, rfl⟩)
    (by rw [hdst]; exact is_square_lt _ ⟨u, hu, rfl⟩) hex
  have hlast : get_last_move b b0.turn_color = some push := by
    unfold get_last_move
    rw [hmv]
    rfl
  have hown_c : ∀ k, get_piece_positions b k (negate_color b0.turn_color)
      = get_piece_positions b0 k (negate_color b0.turn_color) := by
    intro k
    rw [get_piece_positions_congr _ _ hpb, get_set_bitboard_negate]
  have hpd : get_piece_positions b Piece.PAWN b0.turn_color
      = get_piece_positions b0 Piece.PAWN b0.turn_color ^^^ (2 ^ s ||| 2 ^ u) := by
    rw [get_piece_positions_congr _ _ hpb, get_set_bitboard_same _ _ _ _ hP]
  have hd0u : (get_piece_positions b0 Piece.PAWN b0.turn_color).testBit u = false :=
    opponent_free_of_empty b0 _ u (empty_of_occupancy b0 _ _ hocc2) _
  have hsu : s ≠ u := by
    intro h
    rw [hos, h] at hpawn
    exact hpawn ((and_two_pow_eq_zero_iff _ _).mpr hd0u)
  have hpdu : get_piece_positions b Piece.PAWN b0.turn_color &&& 2 ^ u ≠ 0 := by
    rw [and_two_pow_ne_zero_iff, hpd, Nat.testBit_xor, hd0u, Nat.testBit_or,
      Nat.testBit_two_pow, Nat.testBit_two_pow]
    simp
  refine ⟨b, hex, hturn, hlast, by rw [hdst]; exact hpdu, ?_⟩
  intro moves m hm hnm
  obtain ⟨new, hres, hnew⟩ := en_passant_moves_spec b (negate_color b0.turn_color) moves
  rw [hres, List.mem_append] at hm
  have hm2 : m ∈ new := hm.resolve_left hnm
  obtain ⟨last, i, _, hl, _, hi, rfl, hpc, _⟩ := hnew m hm2
  rw [negate_color_negate_color, hlast] at hl
  cases hl
  simp only [hdst, hnorth, hos, hsingle]
  have hcs : en_passant_capture_square b (2 ^ t) = 2 ^ u := by
    unfold en_passant_capture_square
    rw [hturn]
    exact hsouth
  have hpci := (and_two_pow_ne_zero_iff _ _).mpr hpc
  have hown_t : get_all_piece_positions b (negate_color b0.turn_color) &&& 2 ^ t = 0 := by
    rw [get_all_and_eq_zero_iff]
    intro k
    rw [hown_c]
    exact (get_all_and_eq_zero_iff b0 _ _).mp (empty_of_occupancy b0 _ _ hocc1) k
  have hmp : get_piece_at_position b (2 ^ i) (negate_color b0.turn_color) = Piece.PAWN :=
    pawn_on_square b _ _ hpci
  have hcp : get_piece_at_position b (2 ^ u) b0.turn_color = Piece.PAWN :=
    pawn_on_square b _ _ hpdu
  obtain ⟨b1, hex1, _, hpb1⟩ := roundtrip_en_passant b ⟨2 ^ i, 2 ^ t, 5⟩ u rfl hbb
    (two_pow_ne_zero t) hcs (by rw [hturn, hmp]; exact hP) (by rw [hturn]; exact hown_t)
    (by rw [hturn, negate_color_negate_color, hcp]; exact hP)
  simp only [hturn, negate_color_negate_color, hmp, hcp] at hpb1
  refine ⟨trivial, ⟨i, hi, rfl⟩, hpci, trivial, hcs, b1, hex1, ?_, ?_, ?_, ?_⟩
  · rw [get_piece_positions_congr _ _ hpb1, get_set_bitboard_other_color _ _ _ _ _ _
      (negate_color_ne _), get_set_bitboard_same _ _ _ _ hP]
    exact xor_move_square _ _ _ (hbb _ _) ⟨i, hi, rfl⟩ ⟨t, ht, rfl⟩ hpci
      ((get_all_and_eq_zero_iff b _ _).mp hown_t _)
  · rw [get_piece_positions_congr _ _ hpb1, get_set_bitboard_same _ _ _ _ hP]
  · intro k col hk
    rw [get_piece_positions_congr _ _ hpb1, set_bitboard_frame _ _ _ _ _ _ (fun h => hk h.1),
      set_bitboard_frame _ _ _ _ _ _ (fun h => hk h.1)]
  · obtain ⟨_, hcap, _⟩ := (execute_move_captured b b1 _ hex1).2 (Or.inr (Or.inl rfl)) _ rfl _ rfl
    simp only [if_true, hcs, hturn, negate_color_negate_color, hcp] at hcap
    rw [hcap]
    exact per_color_get_set_same _ _ _

/-! ## The shape of the generated moves -/

theorem foldl_push_mem (p : bitboard → Prop) [DecidablePred p] (g : bitboard → List Move)
    (l : List bitboard) (init : List Move) (m : Move)
    (h : m ∈ l.foldl (fun acc x => if p x then acc ++ g x else acc) init) :
    m ∈ init ∨ ∃ x ∈ l, p x ∧ m ∈ g x := by
  induction l generalizing init with
  | nil => exact Or.inl h
  | cons x xs ih =>
    rw [List.foldl_cons] at h
    rcases ih _ h with h1 | ⟨y, hy, hpy, hm⟩
    · by_cases hx : p x
      · rw [if_pos hx, List.mem_append] at h1
        rcases h1 with h1 | h1
        · exact Or.inl h1
        · exact Or.inr ⟨x, List.mem_cons_self _ _, hx, h1⟩
      · rw [if_neg hx] at h1
        exact Or.inl h1
    · exact Or.inr ⟨y, List.mem_cons_of_mem _ hy, hpy, hm⟩

theorem well_formed_of_bits (b : Board) (c : Color) (k i f : Nat) (hk : k < 64) (hi : i < 64)
    (hok : (get_all_piece_positions b c).testBit k = true)
    (hoi : (get_all_piece_positions b c).testBit i = false) :
    well_formed_move b c ⟨2 ^ k, 2 ^ i, f⟩ := by
  refine ⟨⟨k, hk, rfl⟩, (and_two_pow_ne_zero_iff _ _).mpr hok, ⟨i, hi, rfl⟩, ?_,
    (and_two_pow_eq_zero_iff _ _).mpr hoi⟩
  intro h
  have : i = k := Nat.pow_right_injective (le_refl 2) h
  rw [this, hok] at hoi
  cases hoi

theorem add_moves_well_formed (b : Board) (c : Color) (k f : Nat) (dests : bitboard)
    (moves : List Move) (hk : k < 64)
    (hok : (get_all_piece_positions b c).testBit k = true)
    (hd : ∀ i, dests.testBit i = true → (get_all_piece_positions b c).testBit i = false)
    (hmoves : ∀ m ∈ moves, well_formed_move b c m) :
    ∀ m ∈ add_moves (2 ^ k) dests f moves, well_formed_move b c m := by
  intro m hm
  unfold add_moves at hm
  rcases foldl_push_mem (fun mask => dests &&& mask ≠ 0)
    (fun mask => [Move.mk (2 ^ k) (dests &&& mask) f]) masks moves m hm with h | ⟨x, hx, hp, hmx⟩
  · exact hmoves m h
  · obtain ⟨i, hi, rfl⟩ := (mem_masks x).mp hx
    rw [List.mem_singleton] at hmx
    rw [hmx, and_two_pow_eq_self _ _ hp]
    exact well_formed_of_bits b c k i f hk hi hok (hd i ((and_two_pow_ne_zero_iff _ _).mp hp))

theorem add_promotion_moves_well_formed (b : Board) (c : Color) (k : Nat) (capture : Bool)
    (dests : bitboard) (moves : List Move) (hk : k < 64)
    (hok : (get_all_piece_positions b c).testBit k = true)
    (hd : ∀ i, dests.testBit i = true → (get_all_piece_positions b c).testBit i = false)
    (hmoves : ∀ m ∈ moves, well_formed_move b c m) :
    ∀ m ∈ add_promotion_moves (2 ^ k) dests capture moves, well_formed_move b c m := by
  intro m hm
  unfold add_promotion_moves at hm
  simp only [List.append_assoc] at hm
  rcases foldl_push_mem (fun mask => dests &&& mask ≠ 0)
    (fun mask => [Move.mk (2 ^ k) (dests &&& mask) 0] ++
      (List.range 4).map fun i =>
        Move.mk (2 ^ k) (dests &&& mask) ((if capture = true then 12 else 8) + i))
    masks moves m hm with h | ⟨x, hx, hp, hmx⟩
  · exact hmoves m h
  · obtain ⟨i, hi, rfl⟩ := (mem_masks x).mp hx
    rw [and_two_pow_eq_self _ _ hp] at hmx
    have hgood := fun f => well_formed_of_bits b c k i f hk hi hok
      (hd i ((and_two_pow_ne_zero_iff _ _).mp hp))
    rw [List.mem_append, List.mem_singleton, List.mem_map] at hmx
    rcases hmx with rfl | ⟨j, _, rfl⟩
    · exact hgood 0
    · exact hgood _

theorem kind_bit_in_all (b : Board) (c : Color) (p : Piece) (k : Nat)
    (h : get_piece_positions b p c &&& 2 ^ k ≠ 0) :
    (get_all_piece_positions b c).testBit k = true := by
  rw [← and_two_pow_ne_zero_iff]
  intro h0
  exact h ((get_all_and_eq_zero_iff b c _).mp h0 p)

theorem opponent_bit_not_own (b : Board) (c : Color) (hd : b.disjoint) (i : Nat)
    (h : (get_all_piece_positions b (negate_color c)).testBit i = true) :
    (get_all_piece_positions b c).testBit i = false := by
  have h0 := hd.2
  cases c
  · rw [Nat.and_comm] at h0
    exact and_eq_zero_testBit _ _ h0 i h
  · exact and_eq_zero_testBit _ _ h0 i h

theorem pawn_moves_step_well_formed (b : Board) (c : Color) (hd : b.disjoint)
    (moves : List Move) (k : Nat) (hk : k < 64)
    (hmoves : ∀ m ∈ moves, well_formed_move b c m) :
    ∃ ms, pawn_moves_step b c moves (2 ^ k) = some ms ∧ ∀ m ∈ ms, well_formed_move b c m := by
  unfold pawn_moves_step
  simp only []
  by_cases hcur : get_piece_positions b Piece.PAWN c &&& 2 ^ k ≠ 0
  · rw [if_pos hcur, and_two_pow_eq_self _ _ hcur]
    have hok := kind_bit_in_all b c _ k hcur
    refine ⟨_, rfl, ?_⟩
    apply add_promotion_moves_well_formed b c k _ _ _ hk hok
    · intro i hi
      simp only [Nat.testBit_and, Bool.and_eq_true] at hi
      exact opponent_bit_not_own b c hd i hi.1.2
    apply add_moves_well_formed b c k _ _ _ hk hok
    · intro i hi
      simp only [Nat.testBit_and, Bool.and_eq_true] at hi
      exact opponent_bit_not_own b c hd i hi.1.2
    apply add_moves_well_formed b c k _ _ _ hk hok
    · intro i hi
      simp only [Nat.testBit_and, testBit_bnot64, Bool.and_eq_true, Bool.not_eq_true',
        decide_eq_true_eq] at hi
      exact hi.2.2
    apply add_promotion_moves_well_formed b c k _ _ _ hk hok
    · intro i hi
      simp only [Nat.testBit_and, testBit_bnot64, Bool.and_eq_true, Bool.not_eq_true',
        decide_eq_true_eq] at hi
      exact hi.1.2.2
    apply add_moves_well_formed b c k _ _ _ hk hok
    · intro i hi
      simp only [Nat.testBit_and, testBit_bnot64, Bool.and_eq_true, Bool.not_eq_true',
        decide_eq_true_eq] at hi
      exact hi.1.2.2
    exact hmoves
  · rw [if_neg hcur]
    exact ⟨moves, rfl, hmoves⟩

theorem piece_moves_step_well_formed (b : Board) (c : Color) (piece : Piece)
    (hp : piece ≠ Piece.NONE) (hd : b.disjoint)
    (moves : List Move) (k : Nat) (hk : k < 64)
    (hmoves : ∀ m ∈ moves, well_formed_move b c m) :
    ∃ ms, piece_moves_step b c piece moves (2 ^ k) = some ms ∧
      ∀ m ∈ ms, well_formed_move b c m := by
  unfold piece_moves_step
  simp only []
  by_cases hcur : get_piece_positions b piece c &&& 2 ^ k ≠ 0
  · rw [if_pos hcur, and_two_pow_eq_self _ _ hcur]
    have hok := kind_bit_in_all b c _ k hcur
    obtain ⟨a, ha⟩ := get_piece_attacks_total b hd.2 piece hp (2 ^ k)
      (is_square_lt _ ⟨k, hk, rfl⟩) c
    rw [ha]
    refine ⟨_, rfl, ?_⟩
    have hdest : ∀ i, (a &&& bnot64 (get_all_piece_positions b c) &&&
        bnot64 (get_all_piece_positions b (negate_color c))).testBit i = true →
        (get_all_piece_positions b c).testBit i = false := by
      intro i hi
      simp only [Nat.testBit_and, testBit_bnot64, Bool.and_eq_true, Bool.not_eq_true',
        decide_eq_true_eq] at hi
      exact hi.1.2.2
    apply add_moves_well_formed b c k _ _ _ hk hok hdest
    exact add_moves_well_formed b c k _ _ _ hk hok hdest hmoves
  · rw [if_neg hcur]
    exact ⟨moves, rfl, hmoves⟩

theorem foldlM_masks_invariant (f : List Move → bitboard → Option (List Move))
    (P : List Move → Prop)
    (hstep : ∀ acc k, k < 64 → P acc → ∃ acc1, f acc (2 ^ k) = some acc1 ∧ P acc1)
    (init : List Move) (hinit : P init) :
    ∃ r, masks.foldlM f init = some r ∧ P r := by
  have hgen : ∀ (l : List bitboard), (∀ x ∈ l, is_square x) → ∀ init, P init →
      ∃ r, l.foldlM f init = some r ∧ P r := by
    intro l
    induction l with
    | nil => intro _ init hinit; exact ⟨init, rfl, hinit⟩
    | cons x xs ih =>
      intro hl init hinit
      obtain ⟨k, hk, rfl⟩ := hl x (List.mem_cons_self _ _)
      obtain ⟨acc1, h1, hP1⟩ := hstep init k hk hinit
      obtain ⟨r, hr, hPr⟩ := ih (fun y hy => hl y (List.mem_cons_of_mem _ hy)) acc1 hP1
      refine ⟨r, ?_, hPr⟩
      rw [List.foldlM_cons, h1]
      exact hr
  exact hgen masks (fun x hx => (mem_masks x).mp hx) init hinit

theorem add_pseudo_legal_pawn_moves_well_formed (b : Board) (c : Color) (hd : b.disjoint)
    (moves : List Move) (hmoves : ∀ m ∈ moves, well_formed_move b c m) :
    ∃ ms, add_pseudo_legal_pawn_moves b c moves = some ms ∧
      ∀ m ∈ ms, well_formed_move b c m :=
  foldlM_masks_invariant (pawn_moves_step b c) (fun l => ∀ m ∈ l, well_formed_move b c m)
    (fun acc k hk h => pawn_moves_step_well_formed b c hd acc k hk h) moves hmoves

theorem add_pseudo_legal_piece_moves_well_formed (b : Board) (c : Color) (piece : Piece)
    (hp : piece ≠ Piece.NONE) (hd : b.disjoint)
    (moves : List Move) (hmoves : ∀ m ∈ moves, well_formed_move b c m) :
    ∃ ms, add_pseudo_legal_piece_moves b c piece moves = some ms ∧
      ∀ m ∈ ms, well_formed_move b c m :=
  foldlM_masks_invariant (piece_moves_step b c piece)
    (fun l => ∀ m ∈ l, well_formed_move b c m)
    (fun acc k hk h => piece_moves_step_well_formed b c piece hp hd acc k hk h) moves hmoves

theorem option_bind_of_eq {α β : Type} (x : Option α) (f : α → Option β) (a : α)
    (h : x = some a) : (x >>= f) = f a := by
  subst h
  rfl

/-- On a board with disjoint occupancy the generator returns a list, and every move in it has
a square holding a piece of the colour as origin and a different square free of the colour's
pieces as destination. -/
theorem generate_pseudo_legal_moves_well_formed (b : Board) (c : Color) (hd : b.disjoint) :
    ∃ ms, generate_pseudo_legal_moves b c = some ms ∧ ∀ m ∈ ms, well_formed_move b c m := by
  obtain ⟨m1, h1, g1⟩ := add_pseudo_legal_pawn_moves_well_formed b c hd []
    (fun m hm => absurd hm (List.not_mem_nil m))
  obtain ⟨m2, h2, g2⟩ :=
    add_pseudo_legal_piece_moves_well_formed b c Piece.KNIGHT (by decide) hd m1 g1
  obtain ⟨m3, h3, g3⟩ :=
    add_pseudo_legal_piece_moves_well_formed b c Piece.BISHOP (by decide) hd m2 g2
  obtain ⟨m4, h4, g4⟩ :=
    add_pseudo_legal_piece_moves_well_formed b c Piece.ROOK (by decide) hd m3 g3
  obtain ⟨m5, h5, g5⟩ :=
    add_pseudo_legal_piece_moves_well_formed b c Piece.QUEEN (by decide) hd m4 g4
  obtain ⟨m6, h6, g6⟩ :=
    add_pseudo_legal_piece_moves_well_formed b c Piece.KING (by decide) hd m5 g5
  refine ⟨m6, ?_, g6⟩
  unfold generate_pseudo_legal_moves
  rw [option_bind_of_eq _ _ m1 h1, option_bind_of_eq _ _ m2 h2, option_bind_of_eq _ _ m3 h3,
    option_bind_of_eq _ _ m4 h4, option_bind_of_eq _ _ m5 h5]
  exact h6

/-! ## The properties of the specification -/

theorem undo_moves_append (b : Board) (l1 l2 : List Move) :
    undo_moves b (l1 ++ l2) = (undo_moves b l1).bind fun b1 => undo_moves b1 l2 := by
  induction l1 generalizing b with
  | nil => rfl
  | cons m rest ih =>
    simp only [List.cons_append, undo_moves]
    cases undo_move b m with
    | none => rfl
    | some b1 => exact ih b1

/-- Executing a sequence of fitting moves and undoing it in reverse order gives back the
board. -/
theorem roundtrip_of_moves_fit (ms : List Move) :
    ∀ b : Board, b.bounded → moves_fit b ms = true →
      ∃ b1, execute_moves b ms = some b1 ∧ undo_moves b1 ms.reverse = some b := by
  induction ms with
  | nil => intro b _ _; exact ⟨b, rfl, rfl⟩
  | cons m rest ih =>
    intro b hb hseq
    simp only [moves_fit, Bool.and_eq_true, decide_eq_true_eq] at hseq
    obtain ⟨hx, hrest⟩ := hseq
    obtain ⟨b1, h1, h2⟩ := roundtrip_of_move_fits b m hb hx
    rw [h1] at hrest
    have hb1 : b1.bounded :=
      execute_move_bounded b b1 m hb (is_square_lt _ hx.1) (is_square_lt _ hx.2.1) h1
    obtain ⟨b2, h3, h4⟩ := ih b1 hb1 hrest
    refine ⟨b2, ?_, ?_⟩
    · simp only [execute_moves, h1, Option.bind]
      exact h3
    · rw [List.reverse_cons, undo_moves_append, h4]
      simp only [Option.bind, undo_moves, h2]

/-- C1: for every board whose bitboards are 64-bit values and every move of the side to move
that fits the board (any flag 0-5 or 8-15; every legal move does), `execute_move` succeeds
and `undo_move` on its result succeeds and returns the very same board: the twelve bitboards,
both colours' castling rights, the turn colour, both move histories, the rights-snapshot
stacks and the captured-piece stacks are all equal to those before the move. -/
theorem execute_then_undo_restores (b : Board) (m : Move) (hb : b.bounded)
    (hx : move_fits b m) :
    ∃ b1, execute_move b m = some b1 ∧ undo_move b1 m = some b :=
  roundtrip_of_move_fits b m hb hx

/-- Witness for C1: the double pawn push e2-e4 on the starting position. -/
theorem execute_then_undo_restores_witness :
    starting_board.bounded ∧ move_fits starting_board ⟨0x800, 0x8000000, 1⟩ ∧
      ∃ b1, execute_move starting_board ⟨0x800, 0x8000000, 1⟩ = some b1 ∧
        undo_move b1 ⟨0x800, 0x8000000, 1⟩ = some starting_board :=
  ⟨by decide, by decide,
    execute_then_undo_restores starting_board ⟨0x800, 0x8000000, 1⟩ (by decide) (by decide)⟩

/-- C2: for every board whose bitboards are 64-bit values and every sequence of moves in which
each move fits the state reached by the moves before it, executing the sequence
with `execute_move` succeeds, and undoing it with `undo_move` in exact reverse order succeeds
and returns the very same board (bitboards, rights and rights stacks, captured stacks, turn
and both move histories). -/
theorem execute_all_then_undo_all_restores (b : Board) (ms : List Move) (hb : b.bounded)
    (hseq : moves_fit b ms = true) :
    ∃ b1, execute_moves b ms = some b1 ∧ undo_moves b1 ms.reverse = some b :=
  roundtrip_of_moves_fit ms b hb hseq

/-- Witness for C2: 1. e4 d5 2. exd5 from the starting position. -/
theorem execute_all_then_undo_all_restores_witness :
    starting_board.bounded ∧
      moves_fit starting_board
        [⟨0x800, 0x8000000, 1⟩, ⟨0x10000000000000, 0x1000000000, 1⟩,
          ⟨0x8000000, 0x1000000000, 4⟩] = true ∧
      ∃ b1, execute_moves starting_board
          [⟨0x800, 0x8000000, 1⟩, ⟨0x10000000000000, 0x1000000000, 1⟩,
            ⟨0x8000000, 0x1000000000, 4⟩] = some b1 ∧
        undo_moves b1
          [⟨0x800, 0x8000000, 1⟩, ⟨0x10000000000000, 0x1000000000, 1⟩,
            ⟨0x8000000, 0x1000000000, 4⟩].reverse = some starting_board :=
  ⟨by decide, by decide,
    execute_all_then_undo_all_restores starting_board _ (by decide) (by decide)⟩

/-- C5: on every board with disjoint occupancy, for every one-hot origin square and each of the
eight directions, `get_sliding_attacks` returns a 64-bit value whose squares are exactly those
reached by stepping repeatedly from the origin in that direction with no occupied square
strictly before them on the ray (so the ray runs up to and including the first occupied
square, or to the last on-board square); the origin is never in the result.
`get_rook_attacks` is the union of the four orthogonal results, `get_bishop_attacks` of the
four diagonal results, and `get_queen_attacks` the union of those two. -/
theorem sliding_attacks_follow_the_ray (b : Board) (hd : b.disjoint) (p : bitboard)
    (hp : is_square p) :
    (∀ d : Direction, ∃ r, get_sliding_attacks b p d = some r ∧ r < two64 ∧ r &&& p = 0 ∧
      ∀ q, is_square q → (r &&& q ≠ 0 ↔ on_open_ray b p d q)) ∧
    ∃ n e s w ne nw se sw,
      get_sliding_attacks b p Direction.NORTH = some n ∧
      get_sliding_attacks b p Direction.EAST = some e ∧
      get_sliding_attacks b p Direction.SOUTH = some s ∧
      get_sliding_attacks b p Direction.WEST = some w ∧
      get_sliding_attacks b p Direction.NORTHEAST = some ne ∧
      get_sliding_attacks b p Direction.NORTHWEST = some nw ∧
      get_sliding_attacks b p Direction.SOUTHEAST = some se ∧
      get_sliding_attacks b p Direction.SOUTHWEST = some sw ∧
      get_rook_attacks b p = some (n ||| e ||| s ||| w) ∧
      get_bishop_attacks b p = some (ne ||| nw ||| se ||| sw) ∧
      get_queen_attacks b p = some ((ne ||| nw ||| se ||| sw) ||| (n ||| e ||| s ||| w)) := by
  refine ⟨fun d => get_sliding_attacks_spec b hd.2 p hp d, ?_⟩
  obtain ⟨n, e, s, w, hn, he, hs, hw, hrook, _, _⟩ := get_rook_attacks_spec b hd.2 p hp
  obtain ⟨ne, nw, se, sw, hne, hnw, hse, hsw, hbishop, _, _⟩ :=
    get_bishop_attacks_spec b hd.2 p hp
  refine ⟨n, e, s, w, ne, nw, se, sw, hn, he, hs, hw, hne, hnw, hse, hsw, hrook, hbishop, ?_⟩
  simp [get_queen_attacks, hrook, hbishop]

/-- Witness for C5: the rays from a1 (`0x80`) on the starting position. -/
theorem sliding_attacks_follow_the_ray_witness :
    starting_board.disjoint ∧ is_square 0x80 ∧
    ((∀ d : Direction, ∃ r, get_sliding_attacks starting_board 0x80 d = some r ∧ r < two64 ∧
        r &&& 0x80 = 0 ∧
        ∀ q, is_square q → (r &&& q ≠ 0 ↔ on_open_ray starting_board 0x80 d q)) ∧
      ∃ n e s w ne nw se sw,
        get_sliding_attacks starting_board 0x80 Direction.NORTH = some n ∧
        get_sliding_attacks starting_board 0x80 Direction.EAST = some e ∧
        get_sliding_attacks starting_board 0x80 Direction.SOUTH = some s ∧
        get_sliding_attacks starting_board 0x80 Direction.WEST = some w ∧
        get_sliding_attacks starting_board 0x80 Direction.NORTHEAST = some ne ∧
        get_sliding_attacks starting_board 0x80 Direction.NORTHWEST = some nw ∧
        get_sliding_attacks starting_board 0x80 Direction.SOUTHEAST = some se ∧
        get_sliding_attacks starting_board 0x80 Direction.SOUTHWEST = some sw ∧
        get_rook_attacks starting_board 0x80 = some (n ||| e ||| s ||| w) ∧
        get_bishop_attacks starting_board 0x80 = some (ne ||| nw ||| se ||| sw) ∧
        get_queen_attacks starting_board 0x80 =
          some ((ne ||| nw ||| se ||| sw) ||| (n ||| e ||| s ||| w))) :=
  ⟨by decide, by decide,
    sliding_attacks_follow_the_ray starting_board (by decide) 0x80 (by decide)⟩

/-- C4: on every board with disjoint occupancy, for every one-hot square `sq` and colour `c`,
`is_position_attacked_by` returns an answer, and the answer is `true` if and only if there
are a piece kind `k` and a square `p` on which a piece of colour `c` and kind `k` stands such
that `sq` lies in `get_piece_attacks(k, p, c)`, the set that piece attacks from `p` under the
current occupancy. -/
theorem attacked_iff_some_piece_attacks (b : Board) (hd : b.disjoint) (sq : bitboard)
    (hsq : is_square sq) (c : Color) :
    ∃ r, is_position_attacked_by b sq c = some r ∧
      (r = true ↔ ∃ (k : Piece) (p : bitboard), is_square p ∧
        get_piece_positions b k c &&& p ≠ 0 ∧
        ∃ a, get_piece_attacks b k p c = some a ∧ a &&& sq ≠ 0) :=
  is_position_attacked_by_spec b hd.2 sq hsq c

/-- Witness for C4: the square f3 (`0x40000`) and White on the starting position. -/
theorem attacked_iff_some_piece_attacks_witness :
    starting_board.disjoint ∧ is_square 0x40000 ∧
      ∃ r, is_position_attacked_by starting_board 0x40000 Color.WHITE = some r ∧
        (r = true ↔ ∃ (k : Piece) (p : bitboard), is_square p ∧
          get_piece_positions starting_board k Color.WHITE &&& p ≠ 0 ∧
          ∃ a, get_piece_attacks starting_board k p Color.WHITE = some a ∧ a &&& 0x40000 ≠ 0) :=
  ⟨by decide, by decide,
    attacked_iff_some_piece_attacks starting_board (by decide) 0x40000 (by decide) Color.WHITE⟩

/-- C6: for every board with 64-bit bitboards and disjoint occupancy and every move `m`
executable by the side to move `c`, `execute_move` yields a board `b1`, the attack test of
`c`'s king bitboard by the opposite colour on `b1` yields an answer `a`, and
`is_move_legal(m, c)` returns `true` exactly when `a` is `false` (it returns `!a`) and leaves
the board equal to the one before the call (bitboards, rights, turn, histories and stacks). -/
theorem is_move_legal_checks_king_and_restores (b : Board) (m : Move) (hb : b.bounded)
    (hd : b.disjoint) (hx : executable b m) :
    ∃ b1 a, execute_move b m = some b1 ∧
      is_position_attacked_by b1 (get_piece_positions b1 Piece.KING b.turn_color)
        (negate_color b.turn_color) = some a ∧
      is_move_legal b m b.turn_color = some (!a, b) :=
  is_move_legal_of_executable b m hb hd hx

/-- Witness for C6: the double pawn push e2-e4 on the starting position. -/
theorem is_move_legal_checks_king_and_restores_witness :
    starting_board.bounded ∧ starting_board.disjoint ∧
      executable starting_board ⟨0x800, 0x8000000, 1⟩ ∧
      ∃ b1 a, execute_move starting_board ⟨0x800, 0x8000000, 1⟩ = some b1 ∧
        is_position_attacked_by b1 (get_piece_positions b1 Piece.KING starting_board.turn_color)
          (negate_color starting_board.turn_color) = some a ∧
        is_move_legal starting_board ⟨0x800, 0x8000000, 1⟩ starting_board.turn_color =
          some (!a, starting_board) :=
  ⟨by decide, by decide, by decide,
    is_move_legal_checks_king_and_restores starting_board ⟨0x800, 0x8000000, 1⟩
      (by decide) (by decide) (by decide)⟩

/-- C3 (the code departs from the claim): on `promotion_board`, whose occupancy is disjoint, the
pawn generator, and with it `generate_pseudo_legal_moves`, emits for White the flag-0 move
g7-h8 onto the square of the black rook (the extra untagged move of `add_promotion_moves`);
`execute_move` of that move succeeds and leaves h8 occupied by both colours, so the board
after the move is not disjoint. -/
theorem generated_move_breaks_disjointness :
    promotion_board.bounded ∧ promotion_board.disjoint ∧
    (∃ ms, add_pseudo_legal_pawn_moves promotion_board Color.WHITE [] = some ms ∧
      Move.mk 0x2000000000000 0x100000000000000 0 ∈ ms) ∧
    (∃ ms, generate_pseudo_legal_moves promotion_board Color.WHITE = some ms ∧
      Move.mk 0x2000000000000 0x100000000000000 0 ∈ ms) ∧
    ∃ b1, execute_move promotion_board ⟨0x2000000000000, 0x100000000000000, 0⟩ = some b1 ∧
      get_all_piece_positions b1 Color.WHITE &&& get_all_piece_positions b1 Color.BLACK =
        0x100000000000000 ∧
      ¬ b1.disjoint :=
  ⟨by decide!, by decide!, ⟨_, rfl, by decide!⟩, ⟨_, rfl, by decide!⟩, ⟨_, rfl, by decide!, by decide!⟩⟩

/-- C7 (the code departs from the claim): from the starting position
`generate_pseudo_legal_moves` returns 24 moves for White, not 20: besides the 16 pawn moves
and the 4 quiet knight moves it returns the 4 knight moves again with the capture flag 4.
`is_move_legal` answers `true` on the first 20 and faults on each of the 4 flag-4 moves
(the assertion `captured_piece != NONE` of `execute_move`), so the count of 20 is never
produced. -/
theorem start_position_generates_24_moves :
    ∃ ms, generate_pseudo_legal_moves starting_board Color.WHITE = some ms ∧
      ms.length = 24 ∧
      (ms.filter fun m =>
        decide ((is_move_legal starting_board m Color.WHITE).map Prod.fst = some true)).length
        = 20 ∧
      (ms.filter fun m => decide (is_move_legal starting_board m Color.WHITE = none)) =
        [⟨0x2, 0x10000, 4⟩, ⟨0x2, 0x40000, 4⟩, ⟨0x40, 0x200000, 4⟩, ⟨0x40, 0x800000, 4⟩] ∧
      execute_move starting_board ⟨0x2, 0x10000, 4⟩ = none :=
  ⟨_, rfl, by decide!, by decide!, by decide!, by decide!⟩

/-- C8 (the code departs from the claim): on `knight_capture_board` the white knight on b1
attacks d2, c3 and a3, and c3 holds a black pawn.  `add_pseudo_legal_piece_moves` emits the
quiet moves to d2 and a3 and then the same two destinations again with the capture flag 4;
it emits no move at all to c3. -/
theorem piece_moves_flag_quiet_squares_as_captures :
    knight_capture_board.disjoint ∧
    get_piece_attacks knight_capture_board Piece.KNIGHT 0x40 Color.WHITE = some 0xA01000 ∧
    get_all_piece_positions knight_capture_board Color.BLACK &&& 0xA01000 = 0x200000 ∧
    occupancy knight_capture_board &&& 0x1000 = 0 ∧
    add_pseudo_legal_piece_moves knight_capture_board Color.WHITE Piece.KNIGHT [] =
      some [⟨0x40, 0x1000, 0⟩, ⟨0x40, 0x800000, 0⟩, ⟨0x40, 0x1000, 4⟩, ⟨0x40, 0x800000, 4⟩] :=
  ⟨by decide!, by decide!, by decide!, by decide!, by decide!⟩

/-- C9 (the code departs from the claim): on `promotion_board` the white pawn on g7 can push to
g8 and capture on h8.  `add_pseudo_legal_pawn_moves` emits five moves for each of the two
destinations: a move with the quiet flag 0 followed by the four promotion moves (flags 8-11
for the push, 12-15 for the capture). -/
theorem promotion_emits_extra_quiet_move :
    add_pseudo_legal_pawn_moves promotion_board Color.WHITE [] =
      some [⟨0x2000000000000, 0x200000000000000, 0⟩, ⟨0x2000000000000, 0x200000000000000, 8⟩,
        ⟨0x2000000000000, 0x200000000000000, 9⟩, ⟨0x2000000000000, 0x200000000000000, 10⟩,
        ⟨0x2000000000000, 0x200000000000000, 11⟩, ⟨0x2000000000000, 0x100000000000000, 0⟩,
        ⟨0x2000000000000, 0x100000000000000, 12⟩, ⟨0x2000000000000, 0x100000000000000, 13⟩,
        ⟨0x2000000000000, 0x100000000000000, 14⟩, ⟨0x2000000000000, 0x100000000000000, 15⟩] := by
  decide!

/-- C10 (the code departs from the claim): on `knight_f3_board` the square f3 directly ahead of
the white pawn on f2 is occupied by a knight and f4 is empty; `add_pseudo_legal_pawn_moves`
emits the double push f2-f4 with flag 1 all the same. -/
theorem double_push_jumps_over_occupied_square :
    knight_f3_board.disjoint ∧
    get_pawn_single_push 0x400 Color.WHITE = 0x40000 ∧
    occupancy knight_f3_board &&& 0x40000 ≠ 0 ∧
    occupancy knight_f3_board &&& 0x4000000 = 0 ∧
    ∃ ms, add_pseudo_legal_pawn_moves knight_f3_board Color.WHITE [] = some ms ∧
      Move.mk 0x400 0x4000000 1 ∈ ms :=
  ⟨by decide!, by decide!, by decide!, by decide!, _, rfl, by decide!⟩

/-- C11 fails in the code: on `castle_blocked_board` White holds both rights, black knights
stand on f1 (between e1 and h1) and on d1 (between e1 and a1), and still both castle moves
are emitted, whichever squares between the king and rook squares the path constants
contain: the generators test the path against the mover's own pieces only. -/
theorem castle_emitted_through_opponent_piece :
    get_piece_at_position castle_blocked_board 0x4 Color.BLACK = Piece.KNIGHT ∧
    get_piece_at_position castle_blocked_board 0x10 Color.BLACK = Piece.KNIGHT ∧
    (∀ P : Fin 16,
      add_legal_kingside_castle_move ⟨P.val, 0, 0, 0⟩ castle_blocked_board Color.WHITE []
        = some [⟨0x8, 0x1, 2⟩]) ∧
    (∀ Q : Fin 32,
      add_legal_queenside_castle_move ⟨0, 0, 8 * Q.val, 0⟩ castle_blocked_board Color.WHITE []
        = some [⟨0x8, 0x80, 2⟩]) := by
  decide!

/-- C12: when the path constant of a side covers the squares the king starts on, passes
through and lands on, a castle generator that returns a list other than the one it was given
has appended exactly one move, the colour holds the right of that side, and
`is_position_attacked_by` answers `false` for the opponent on each of the king's squares (and
on every square of the path constant); with the king on its start square and in check, both
generators return the list unchanged. -/
theorem castle_needs_right_and_safe_king_squares (paths : CastlePaths) (b : Board)
    (color : Color) (moves : List Move)
    (hk : king_walk_kingside color &&& bnot64 (kingside_castle_path paths color) = 0)
    (hq : king_walk_queenside color &&& bnot64 (queenside_castle_path paths color) = 0) :
    (∀ res, add_legal_kingside_castle_move paths b color moves = some res → res ≠ moves →
      res = moves ++ [Move.mk (king_start color) (kingside_corner color) 2] ∧
      get_can_castle_king b color = true ∧
      (∀ sq, is_square sq → kingside_castle_path paths color &&& sq ≠ 0 →
        is_position_attacked_by b sq (negate_color color) = some false) ∧
      (∀ sq, is_square sq → sq &&& king_walk_kingside color ≠ 0 →
        is_position_attacked_by b sq (negate_color color) = some false)) ∧
    (∀ res, add_legal_queenside_castle_move paths b color moves = some res → res ≠ moves →
      res = moves ++ [Move.mk (king_start color) (queenside_corner color) 2] ∧
      get_can_castle_queen b color = true ∧
      (∀ sq, is_square sq → queenside_castle_path paths color &&& sq ≠ 0 →
        is_position_attacked_by b sq (negate_color color) = some false) ∧
      (∀ sq, is_square sq → sq &&& king_walk_queenside color ≠ 0 →
        is_position_attacked_by b sq (negate_color color) = some false)) ∧
    (get_piece_positions b Piece.KING color = king_start color →
      is_checked b color = some true →
      (∀ res, add_legal_kingside_castle_move paths b color moves = some res → res = moves) ∧
      (∀ res, add_legal_queenside_castle_move paths b color moves = some res → res = moves) ∧
      (∀ res, add_legal_castle_moves paths b color moves = some res → res = moves)) := by
  have hstart : is_square (king_start color) := by cases color <;> decide
  have hsk : king_start color &&& king_walk_kingside color ≠ 0 := by cases color <;> decide
  have hsq : king_start color &&& king_walk_queenside color ≠ 0 := by cases color <;> decide
  have hK : ∀ res, add_legal_kingside_castle_move paths b color moves = some res →
      res ≠ moves →
      res = moves ++ [Move.mk (king_start color) (kingside_corner color) 2] ∧
      get_can_castle_king b color = true ∧
      (∀ sq, is_square sq → kingside_castle_path paths color &&& sq ≠ 0 →
        is_position_attacked_by b sq (negate_color color) = some false) ∧
      (∀ sq, is_square sq → sq &&& king_walk_kingside color ≠ 0 →
        is_position_attacked_by b sq (negate_color color) = some false) := by
    intro res h hne
    rcases kingside_castle_cases paths b color moves res h with h1 | ⟨h1, h2, h3⟩
    · exact absurd h1 hne
    · refine ⟨h1, h2, fun sq hs hp => castle_path_clear_on_squares b color _ h3 sq hs hp,
        fun sq hs hw => castle_path_clear_on_squares b color _ h3 sq hs ?_⟩
      exact square_in_walk_in_path _ _ sq hk hs hw
  have hQ : ∀ res, add_legal_queenside_castle_move paths b color moves = some res →
      res ≠ moves →
      res = moves ++ [Move.mk (king_start color) (queenside_corner color) 2] ∧
      get_can_castle_queen b color = true ∧
      (∀ sq, is_square sq → queenside_castle_path paths color &&& sq ≠ 0 →
        is_position_attacked_by b sq (negate_color color) = some false) ∧
      (∀ sq, is_square sq → sq &&& king_walk_queenside color ≠ 0 →
        is_position_attacked_by b sq (negate_color color) = some false) := by
    intro res h hne
    rcases queenside_castle_cases paths b color moves res h with h1 | ⟨h1, h2, h3⟩
    · exact absurd h1 hne
    · refine ⟨h1, h2, fun sq hs hp => castle_path_clear_on_squares b color _ h3 sq hs hp,
        fun sq hs hw => castle_path_clear_on_squares b color _ h3 sq hs ?_⟩
      exact square_in_walk_in_path _ _ sq hq hs hw
  refine ⟨hK, hQ, ?_⟩
  intro hking hchk
  unfold is_checked at hchk
  rw [hking] at hchk
  have hk1 : ∀ res, add_legal_kingside_castle_move paths b color moves = some res →
      res = moves := by
    intro res h
    by_contra hne
    have h4 := (hK res h hne).2.2.2 (king_start color) hstart hsk
    rw [hchk] at h4
    cases h4
  have hq1 : ∀ ms res, add_legal_queenside_castle_move paths b color ms = some res →
      res = ms := by
    intro ms res h
    rcases queenside_castle_cases paths b color ms res h with h1 | ⟨_, _, h3⟩
    · exact h1
    · have h4 := castle_path_clear_on_squares b color _ h3 (king_start color) hstart
        (square_in_walk_in_path _ _ _ hq hstart hsq)
      rw [hchk] at h4
      cases h4
  refine ⟨hk1, hq1 moves, ?_⟩
  intro res h
  unfold add_legal_castle_moves at h
  cases h1 : add_legal_kingside_castle_move paths b color moves with
  | none => rw [h1] at h; cases h
  | some ms =>
    rw [h1] at h
    have := hk1 ms h1
    subst this
    exact hq1 _ res h

/-- Witness for C12: with the king-walk squares as path constants, White castles both ways on
`castle_ready_board`, and with a black rook giving check on the e-file
(`castle_in_check_board`) nothing is emitted. -/
theorem castle_needs_right_and_safe_king_squares_witness :
    add_legal_castle_moves king_walk_paths castle_ready_board Color.WHITE []
      = some [⟨0x8, 0x1, 2⟩, ⟨0x8, 0x80, 2⟩] ∧
    get_can_castle_king castle_ready_board Color.WHITE = true ∧
    is_position_attacked_by castle_ready_board 0x2 Color.BLACK = some false ∧
    add_legal_castle_moves king_walk_paths castle_in_check_board Color.WHITE [] = some [] := by
  have h := castle_needs_right_and_safe_king_squares king_walk_paths castle_ready_board
    Color.WHITE [] (by decide) (by decide)
  have hk : add_legal_kingside_castle_move king_walk_paths castle_ready_board Color.WHITE []
      = some [⟨0x8, 0x1, 2⟩] := by decide!
  have h3 := h.1 _ hk (by decide)
  exact ⟨by decide!, h3.2.1, h3.2.2.2 0x2 (by decide) (by decide), by decide!⟩

/-- C13: `add_pseudo_legal_en_passant_moves` for colour `c` appends moves to the list it is
given, and appends none when the history of the opposite colour is empty or its most recent
move does not carry flag 1.  Every appended move has flag 5; its origin is a square holding a
pawn of `c`; when the pushed pawn stands on square `j`, the origin is square `j + 1` (and
`j` is not on the a-file) or square `j - 1` (and `j` is not on the h-file), so it is on the
same rank in a neighbouring file; and its destination is the square north of the pushed pawn
for White (`j + 8`) and south of it for Black (`j - 8`). -/
theorem en_passant_only_after_double_push (b : Board) (c : Color) (moves : List Move) :
    ∃ new, add_pseudo_legal_en_passant_moves b c moves = moves ++ new ∧
      (is_moves_empty b (negate_color c) = true → new = []) ∧
      (∀ last, get_last_move b (negate_color c) = some last → last.flags ≠ 1 → new = []) ∧
      ∀ m ∈ new, ∃ last,
        is_moves_empty b (negate_color c) = false ∧
        get_last_move b (negate_color c) = some last ∧ last.flags = 1 ∧
        m.flags = 5 ∧ is_square m.origin ∧
        get_piece_positions b Piece.PAWN c &&& m.origin ≠ 0 ∧
        m.destination
          = (if c = Color.WHITE then north last.destination else south last.destination) ∧
        ∀ j, j < 64 → last.destination = 2 ^ j →
          ((m.origin = 2 ^ (j + 1) ∧ j % 8 ≠ 7 ∧ (j + 1) / 8 = j / 8) ∨
            (m.origin = 2 ^ (j - 1) ∧ j % 8 ≠ 0 ∧ (j - 1) / 8 = j / 8)) ∧
          (c = Color.WHITE → j < 56 → m.destination = 2 ^ (j + 8)) ∧
          (c = Color.BLACK → 8 ≤ j → m.destination = 2 ^ (j - 8)) := by
  obtain ⟨new, hres, hnew⟩ := en_passant_moves_spec b c moves
  refine ⟨new, hres, ?_, ?_, ?_⟩
  · intro he
    cases new with
    | nil => rfl
    | cons m rest =>
      obtain ⟨_, _, he2, _⟩ := hnew m (List.mem_cons_self _ _)
      rw [he] at he2
      cases he2
  · intro last hl hf
    cases new with
    | nil => rfl
    | cons m rest =>
      obtain ⟨last2, _, _, hl2, hf2, _⟩ := hnew m (List.mem_cons_self _ _)
      rw [hl] at hl2
      cases hl2
      exact absurd hf2 hf
  · intro m hm
    obtain ⟨last, i, he, hl, hf, hi, rfl, hp, hn⟩ := hnew m hm
    refine ⟨last, he, hl, hf, rfl, ⟨i, hi, rfl⟩, (and_two_pow_ne_zero_iff _ i).mpr hp, rfl, ?_⟩
    intro j hj hd
    rw [hd] at hn
    refine ⟨?_, ?_, ?_⟩
    · rcases neighbour_of_testBit j i hj hn with ⟨h1, h2⟩ | ⟨h1, h2⟩
      · exact Or.inl ⟨by rw [h1], h2, by omega⟩
      · refine Or.inr ⟨?_, h2, by omega⟩
        have : i = j - 1 := by omega
        rw [this]
    · intro hc hj2
      simp only [hc, if_true, hd]
      rw [north_two_pow j hj, if_pos hj2]
    · intro hc hj2
      simp only [hc, reduceCtorEq, if_false, hd]
      rw [south_two_pow j hj, if_pos hj2]

/-- Witness for C13: on `en_passant_board`, where Black has just played d7-d5 next to the
white pawn on e5, the generator appends the single move e5-d6 with flag 5. -/
theorem en_passant_only_after_double_push_witness :
    get_last_move en_passant_board Color.BLACK = some ⟨0x10000000000000, 0x1000000000, 1⟩ ∧
    ∃ new, add_pseudo_legal_en_passant_moves en_passant_board Color.WHITE [] = [] ++ new ∧
      new = [⟨0x800000000, 0x100000000000, 5⟩] ∧
      ∀ m ∈ new, m.flags = 5 ∧ m.destination = north 0x1000000000 := by
  obtain ⟨new, h, _, _, hall⟩ := en_passant_only_after_double_push en_passant_board Color.WHITE []
  have hv : add_pseudo_legal_en_passant_moves en_passant_board Color.WHITE []
      = [] ++ [⟨0x800000000, 0x100000000000, 5⟩] := by decide!
  have hn : new = [⟨0x800000000, 0x100000000000, 5⟩] := by
    rw [h] at hv
    exact List.append_cancel_left hv
  refine ⟨by decide, new, h, hn, ?_⟩
  intro m hm
  obtain ⟨last, _, hl, _, hf, _, _, hd, _⟩ := hall m hm
  have hl2 : get_last_move en_passant_board Color.BLACK
      = some ⟨0x10000000000000, 0x1000000000, 1⟩ := by decide
  rw [show negate_color Color.WHITE = Color.BLACK from rfl, hl2] at hl
  cases hl
  exact ⟨hf, hd⟩

/-- C14 fails in the code: on `en_passant_board`, reached by Black's double push d7-d5 next
to the white pawn on e5, the en passant generator yields the flag-5 move e5-d6 (which
`execute_move` accepts), but `generate_pseudo_legal_moves` never calls that generator: its
list holds no flag-5 move. -/
theorem generate_pseudo_legal_moves_omits_en_passant :
    execute_move en_passant_board_before ⟨0x10000000000000, 0x1000000000, 1⟩
      = some en_passant_board ∧
    add_pseudo_legal_en_passant_moves en_passant_board Color.WHITE []
      = [⟨0x800000000, 0x100000000000, 5⟩] ∧
    (execute_move en_passant_board ⟨0x800000000, 0x100000000000, 5⟩).isSome = true ∧
    ∃ ms, generate_pseudo_legal_moves en_passant_board Color.WHITE = some ms ∧
      (⟨0x800000000, 0x100000000000, 5⟩ : Move) ∉ ms ∧ ∀ m ∈ ms, m.flags ≠ 5 := by
  refine ⟨by decide!, by decide!, by decide!, ?_⟩
  refine ⟨[⟨0x800000000, 0x80000000000, 0⟩, ⟨0x8, 0x4, 0⟩, ⟨0x8, 0x10, 0⟩, ⟨0x8, 0x400, 0⟩,
    ⟨0x8, 0x800, 0⟩, ⟨0x8, 0x1000, 0⟩, ⟨0x8, 0x4, 4⟩, ⟨0x8, 0x10, 4⟩, ⟨0x8, 0x400, 4⟩,
    ⟨0x8, 0x800, 4⟩, ⟨0x8, 0x1000, 4⟩], by decide!, by decide, by decide⟩

/-- C15 fails in the code for the queenside: on `castle_ready_board`, whichever squares from
a1 to e1 the path constant contains, `add_legal_queenside_castle_move` emits the move from e1
to a1 with flag 2, the kingside flag, not flag 3; and in every state every move that the
queenside generator appends has flag 2. -/
theorem queenside_castle_carries_kingside_flag :
    (∀ Q : Fin 32,
      add_legal_queenside_castle_move ⟨0, 0, 8 * Q.val, 0⟩ castle_ready_board Color.WHITE []
        = some [⟨0x8, 0x80, 2⟩]) ∧
    (∀ (paths : CastlePaths) (b : Board) (color : Color) (moves res : List Move),
      add_legal_queenside_castle_move paths b color moves = some res →
        ∃ new, res = moves ++ new ∧ ∀ m ∈ new, m.flags = 2 ∧ m.flags ≠ 3) := by
  refine ⟨by decide!, ?_⟩
  intro paths b color moves res h
  rcases queenside_castle_cases paths b color moves res h with h1 | ⟨h1, _, _⟩
  · exact ⟨[], by simp [h1], by simp⟩
  · exact ⟨_, h1, by simp⟩

/-- C16: whenever `execute_move` of a move `m` by the side to move `c` succeeds, the castling
rights of `c` afterwards are: both false if the piece on the origin is `c`'s king; queenside
false and kingside unchanged if it is a rook leaving `c`'s queenside corner (`0x80` for White,
`0x8000000000000000` for Black); kingside false and queenside unchanged if it is a rook
leaving `c`'s kingside corner (`0x1`, `0x100000000000000`); unchanged for every other move.
On a board with 64-bit bitboards every move that fits the board can be executed. -/
theorem execute_move_updates_castle_rights (b : Board) (m : Move) :
    (b.bounded → move_fits b m → ∃ b1, execute_move b m = some b1) ∧
    ∀ b1, execute_move b m = some b1 →
      (get_piece_at_position b m.origin b.turn_color = Piece.KING →
        get_can_castle_king b1 b.turn_color = false ∧
          get_can_castle_queen b1 b.turn_color = false) ∧
      (get_piece_at_position b m.origin b.turn_color = Piece.ROOK →
        m.origin = queenside_corner b.turn_color →
        get_can_castle_queen b1 b.turn_color = false ∧
          get_can_castle_king b1 b.turn_color = get_can_castle_king b b.turn_color) ∧
      (get_piece_at_position b m.origin b.turn_color = Piece.ROOK →
        m.origin = kingside_corner b.turn_color →
        get_can_castle_king b1 b.turn_color = false ∧
          get_can_castle_queen b1 b.turn_color = get_can_castle_queen b b.turn_color) ∧
      (get_piece_at_position b m.origin b.turn_color ≠ Piece.KING →
        ¬ (get_piece_at_position b m.origin b.turn_color = Piece.ROOK ∧
          (m.origin = queenside_corner b.turn_color ∨
            m.origin = kingside_corner b.turn_color)) →
        get_can_castle_king b1 b.turn_color = get_can_castle_king b b.turn_color ∧
          get_can_castle_queen b1 b.turn_color = get_can_castle_queen b b.turn_color) := by
  refine ⟨fun hb hx => ?_, fun b1 h => ?_⟩
  · obtain ⟨b1, h1, _⟩ := roundtrip_of_move_fits b m hb hx
    exact ⟨b1, h1⟩
  · obtain ⟨hcc, _⟩ := execute_move_keeps_rights_of_update b b1 m h
    have hr := (update_castle_rights_rights b m
      (get_piece_at_position b m.origin b.turn_color)).1
    rw [← hcc] at hr
    have hqk : queenside_corner b.turn_color ≠ kingside_corner b.turn_color := by
      cases b.turn_color <;> decide
    have hRK : Piece.ROOK ≠ Piece.KING := by decide
    simp only [get_can_castle_king, get_can_castle_queen]
    refine ⟨fun hk => ?_, fun hrook hq => ?_, fun hrook hk => ?_, fun hnk hnr => ?_⟩
    · rw [if_pos hk] at hr
      rw [hr]; exact ⟨rfl, rfl⟩
    · rw [if_neg (by rw [hrook]; exact hRK), if_pos hrook, if_pos hq] at hr
      rw [hr]; exact ⟨rfl, rfl⟩
    · have hne : m.origin ≠ queenside_corner b.turn_color := by rw [hk]; exact hqk.symm
      rw [if_neg (by rw [hrook]; exact hRK), if_pos hrook, if_neg hne, if_pos hk] at hr
      rw [hr]; exact ⟨rfl, rfl⟩
    · by_cases hrook : get_piece_at_position b m.origin b.turn_color = Piece.ROOK
      · have h1 : m.origin ≠ queenside_corner b.turn_color := fun h => hnr ⟨hrook, Or.inl h⟩
        have h2 : m.origin ≠ kingside_corner b.turn_color := fun h => hnr ⟨hrook, Or.inr h⟩
        rw [if_neg hnk, if_pos hrook, if_neg h1, if_neg h2] at hr
        rw [hr]; exact ⟨rfl, rfl⟩
      · rw [if_neg hnk, if_neg hrook] at hr
        rw [hr]; exact ⟨rfl, rfl⟩


/-- Witness for C16: on `castle_ready_board` the white rook leaves h1 for h2; the move is
executed, White loses the kingside right and keeps the queenside right. -/
theorem execute_move_updates_castle_rights_witness :
    castle_ready_board.bounded ∧ move_fits castle_ready_board ⟨0x1, 0x100, 0⟩ ∧
      get_piece_at_position castle_ready_board 0x1 Color.WHITE = Piece.ROOK ∧
      ∃ b1, execute_move castle_ready_board ⟨0x1, 0x100, 0⟩ = some b1 ∧
        get_can_castle_king b1 Color.WHITE = false ∧
        get_can_castle_queen b1 Color.WHITE = true := by
  have h := execute_move_updates_castle_rights castle_ready_board ⟨0x1, 0x100, 0⟩
  obtain ⟨b1, h1⟩ := h.1 (by decide) (by decide)
  have h2 := (h.2 b1 h1).2.2.1 (by decide) (by decide)
  exact ⟨by decide, by decide, by decide, b1, h1, h2.1, h2.2⟩

/-- C17 fails in the code: `initialize_fen` places the pieces of the first field before it
looks at the side token.  On a freshly constructed board the string
`4k3/8/8/8/8/8/8/4K3 x` is reported as invalid and the turn colour is left as it was, but the
board is not the board before the call: both kings now stand on it. -/
theorem initialize_fen_places_pieces_before_rejecting :
    ∃ b1, initialize_fen new_board "4k3/8/8/8/8/8/8/4K3 x" = some (false, b1) ∧
      b1.turn_color = new_board.turn_color ∧
      b1 ≠ new_board ∧
      get_piece_positions new_board Piece.KING Color.WHITE = 0 ∧
      get_piece_positions b1 Piece.KING Color.WHITE = 0x8 ∧
      get_piece_positions new_board Piece.KING Color.BLACK = 0 ∧
      get_piece_positions b1 Piece.KING Color.BLACK = 0x800000000000000 :=
  ⟨board_of
      { pawn := 0, knight := 0, bishop := 0, rook := 0, queen := 0, king := 0x8 }
      { pawn := 0, knight := 0, bishop := 0, rook := 0, queen := 0, king := 0x800000000000000 },
    by decide!, by decide, by decide, by decide, by decide, by decide, by decide⟩

/-- C18: let the input be a non-empty piece-placement field over the letters `pnbrqkPNBRQK`,
the digits 1 to 8 and `/` describing at most 64 cells, then white space, then the side
character `w` or `b`, then nothing or white space and anything.  On a board with all
bitboards empty `initialize_fen` succeeds; bit `i` of the bitboard of a kind and colour is set
exactly when the field has a letter of that kind (`get_piece_from_char`, listed below) and
colour (uppercase White, lowercase Black) preceded by cells totalling `63 - i`; the turn is
White for `w` and Black for `b`; the rights, stacks and histories are untouched; and the
result is the one obtained with nothing after the side character. -/
theorem initialize_fen_places_letters (b : Board) (pieces sep rest : List Char) (side : Char)
    (hclear : ∀ kind color, get_piece_positions b kind color = 0)
    (hne : pieces ≠ [])
    (hchars : ∀ ch ∈ pieces, ch ∈ fen_alphabet)
    (hcells : fen_cells pieces ≤ 64)
    (hsep : sep ≠ [] ∧ ∀ ch ∈ sep, is_space ch = true)
    (hside : side = 'w' ∨ side = 'b')
    (hrest : rest = [] ∨ ∃ c tl, rest = c :: tl ∧ is_space c = true) :
    ∃ b1, initialize_fen b (String.mk (pieces ++ (sep ++ side :: rest))) = some (true, b1) ∧
      initialize_fen b (String.mk (pieces ++ (sep ++ [side]))) = some (true, b1) ∧
      b1.turn_color = (if side = 'w' then Color.WHITE else Color.BLACK) ∧
      (∀ kind color i, (get_piece_positions b1 kind color).testBit i = true ↔
        ∃ pre ch post, pieces = pre ++ ch :: post ∧ ch ∈ fen_letters ∧
          get_piece_from_char ch = kind ∧
          (if ch.isUpper then Color.WHITE else Color.BLACK) = color ∧
          i + fen_cells pre = 63) ∧
      fen_letters.map get_piece_from_char
        = [Piece.PAWN, Piece.KNIGHT, Piece.BISHOP, Piece.ROOK, Piece.QUEEN, Piece.KING,
           Piece.PAWN, Piece.KNIGHT, Piece.BISHOP, Piece.ROOK, Piece.QUEEN, Piece.KING] ∧
      fen_letters.map Char.isUpper
        = [false, false, false, false, false, false, true, true, true, true, true, true] ∧
      b1.can_castle = b.can_castle ∧
      b1.previous_can_castle_stacks = b.previous_can_castle_stacks ∧
      b1.captured_pieces = b.captured_pieces ∧ b1.moves = b.moves := by
  obtain ⟨b1, hb1, _, hcc, hst, hcap, hmv, hiff⟩ :=
    fen_loop_spec pieces 0 b hchars (by omega)
      (by
        intro kind color i h
        rw [hclear, Nat.zero_testBit] at h
        cases h)
  rw [Nat.shiftRight_zero] at hb1
  refine ⟨set_turn_color b1 (if side = 'w' then Color.WHITE else Color.BLACK), ?_, ?_, rfl, ?_,
    by decide, by decide, hcc, hst, hcap, hmv⟩
  · rw [initialize_fen_eq b pieces sep rest side hne hchars hsep hside hrest, hb1]
    rfl
  · rw [initialize_fen_eq b pieces sep [] side hne hchars hsep hside (Or.inl rfl), hb1]
    rfl
  · intro kind color i
    have h := hiff kind color i
    rw [hclear, Nat.zero_testBit] at h
    simp only [Bool.false_eq_true, false_or] at h
    exact h

/-- Witness for C18: the placement field of the standard start position, one blank, `w`, and
further fields, imported on a freshly constructed board. -/
theorem initialize_fen_places_letters_witness :
    ∃ b1, initialize_fen new_board
        (String.mk ("rnbqkbnr/pppppppp/8/8/8/8/PPPPPPPP/RNBQKBNR".toList
          ++ ([' '] ++ 'w' :: " KQkq - 0 1".toList))) = some (true, b1) ∧
      b1 = starting_board ∧ b1.turn_color = Color.WHITE ∧
      ∀ kind color i, (get_piece_positions b1 kind color).testBit i = true ↔
        ∃ pre ch post, "rnbqkbnr/pppppppp/8/8/8/8/PPPPPPPP/RNBQKBNR".toList = pre ++ ch :: post ∧
          ch ∈ fen_letters ∧ get_piece_from_char ch = kind ∧
          (if ch.isUpper then Color.WHITE else Color.BLACK) = color ∧
          i + fen_cells pre = 63 := by
  obtain ⟨b1, h1, _, h2, h3, _⟩ :=
    initialize_fen_places_letters new_board
      "rnbqkbnr/pppppppp/8/8/8/8/PPPPPPPP/RNBQKBNR".toList [' '] " KQkq - 0 1".toList 'w'
      (by intro kind color; cases kind <;> cases color <;> rfl)
      (by decide) (by decide) (by decide) (by decide) (by decide)
      (Or.inr ⟨' ', "KQkq - 0 1".toList, rfl, by decide⟩)
  have hs : initialize_fen new_board
      (String.mk ("rnbqkbnr/pppppppp/8/8/8/8/PPPPPPPP/RNBQKBNR".toList
        ++ ([' '] ++ 'w' :: " KQkq - 0 1".toList))) = some (true, starting_board) := by
    decide!
  have hb : b1 = starting_board := by
    rw [h1] at hs
    exact (Prod.mk.inj (Option.some.inj hs)).2
  exact ⟨b1, h1, hb, h2, h3⟩
/-- C19: the board made by the constructor followed by `initialize_board_starting_position` is
the standard start position: each side has 8 pawns, 2 knights, 2 bishops, 2 rooks, 1 queen and
1 king on the standard squares (White on ranks 1 and 2 with the king on `0x8` and the rooks on
`0x81`, Black mirrored on ranks 8 and 7), White is to move, and both colours hold both
castling rights. -/
theorem starting_position_is_standard :
    initialize_board_starting_position new_board = starting_board ∧
    (∀ c : Color,
      popcount (get_piece_positions starting_board Piece.PAWN c) = 8 ∧
      popcount (get_piece_positions starting_board Piece.KNIGHT c) = 2 ∧
      popcount (get_piece_positions starting_board Piece.BISHOP c) = 2 ∧
      popcount (get_piece_positions starting_board Piece.ROOK c) = 2 ∧
      popcount (get_piece_positions starting_board Piece.QUEEN c) = 1 ∧
      popcount (get_piece_positions starting_board Piece.KING c) = 1) ∧
    starting_board.piece_bitboards.white =
      { pawn := 0xFF00, knight := 0x42, bishop := 0x24, rook := 0x81, queen := 0x10,
        king := 0x8 } ∧
    starting_board.piece_bitboards.black =
      { pawn := 0xFF00 <<< 40, knight := 0x42 <<< 56, bishop := 0x24 <<< 56,
        rook := 0x81 <<< 56, queen := 0x10 <<< 56, king := 0x8 <<< 56 } ∧
    starting_board.disjoint ∧
    get_all_piece_positions starting_board Color.WHITE = 0xFFFF ∧
    get_all_piece_positions starting_board Color.BLACK = 0xFFFF000000000000 ∧
    starting_board.turn_color = Color.WHITE ∧
    (∀ c : Color, get_can_castle_king starting_board c = true ∧
      get_can_castle_queen starting_board c = true) :=
  ⟨rfl, by decide, by decide, by decide, by decide, by decide, by decide, rfl, by decide⟩

/-- C20, as stated, fails: on `promotion_board` the square h8 holds a black rook, and
`set_piece(QUEEN, WHITE, h8)` succeeds all the same. -/
theorem set_piece_succeeds_on_occupied_square :
    get_piece_positions promotion_board Piece.ROOK Color.BLACK &&& 0x100000000000000 ≠ 0 ∧
    ∃ b1, set_piece promotion_board Piece.QUEEN Color.WHITE 0x100000000000000 = some b1 :=
  ⟨by decide, _, rfl⟩

/-- C20, amended: on a board with 64-bit bitboards, for a kind, a colour and a square `sq`,
`set_piece` succeeds exactly when the kind is not `NONE` and bit `sq` of the bitboard of that
kind and colour is clear (what other bitboards hold on `sq` plays no part), and `remove_piece`
succeeds exactly when the kind is not `NONE` and that bit is set; otherwise they fail without
producing a state.  On success `set_piece` sets and `remove_piece` clears exactly bit `sq` of
that one bitboard; every other bitboard, the turn, the rights, the stacks and the histories
are unchanged. -/
theorem set_and_remove_piece_on_own_bitboard (b : Board) (piece : Piece) (color : Color)
    (i : Nat) (hb : b.bounded) (_ : i < 64) :
    ((∃ b1, set_piece b piece color (2 ^ i) = some b1) ↔
      piece ≠ Piece.NONE ∧ (get_piece_positions b piece color).testBit i = false) ∧
    ((∃ b1, remove_piece b piece color (2 ^ i) = some b1) ↔
      piece ≠ Piece.NONE ∧ (get_piece_positions b piece color).testBit i = true) ∧
    (∀ b1, set_piece b piece color (2 ^ i) = some b1 →
      (∀ j, (get_piece_positions b1 piece color).testBit j =
        ((get_piece_positions b piece color).testBit j || decide (j = i))) ∧
      (∀ k c, ¬ (k = piece ∧ c = color) →
        get_piece_positions b1 k c = get_piece_positions b k c) ∧
      b1.turn_color = b.turn_color ∧ b1.can_castle = b.can_castle ∧
      b1.previous_can_castle_stacks = b.previous_can_castle_stacks ∧
      b1.captured_pieces = b.captured_pieces ∧ b1.moves = b.moves) ∧
    (∀ b1, remove_piece b piece color (2 ^ i) = some b1 →
      (∀ j, (get_piece_positions b1 piece color).testBit j =
        ((get_piece_positions b piece color).testBit j && !decide (j = i))) ∧
      (∀ k c, ¬ (k = piece ∧ c = color) →
        get_piece_positions b1 k c = get_piece_positions b k c) ∧
      b1.turn_color = b.turn_color ∧ b1.can_castle = b.can_castle ∧
      b1.previous_can_castle_stacks = b.previous_can_castle_stacks ∧
      b1.captured_pieces = b.captured_pieces ∧ b1.moves = b.moves) := by
  refine ⟨?_, ?_, ?_, ?_⟩
  · constructor
    · rintro ⟨b1, h⟩
      obtain ⟨hp, hbit, _⟩ := set_piece_eq _ _ _ _ _ h
      exact ⟨hp, (and_two_pow_eq_zero_iff _ _).mp hbit⟩
    · rintro ⟨hp, hbit⟩
      have := (and_two_pow_eq_zero_iff _ _).mpr hbit
      exact ⟨b.set_bitboard color piece (get_piece_positions b piece color ||| 2 ^ i),
        by simp [set_piece, hp, this]⟩
  · constructor
    · rintro ⟨b1, h⟩
      obtain ⟨hp, hbit, _⟩ := remove_piece_eq _ _ _ _ _ h
      exact ⟨hp, (and_two_pow_ne_zero_iff _ _).mp hbit⟩
    · rintro ⟨hp, hbit⟩
      have := (and_two_pow_ne_zero_iff _ _).mpr hbit
      exact ⟨b.set_bitboard color piece (get_piece_positions b piece color &&& bnot64 (2 ^ i)),
        by simp [remove_piece, hp, this]⟩
  · intro b1 h
    obtain ⟨hp, _, rfl⟩ := set_piece_eq _ _ _ _ _ h
    refine ⟨fun j => ?_, fun k c hk => set_bitboard_frame _ _ _ _ _ _ hk, rfl, rfl, rfl, rfl,
      rfl⟩
    rw [get_set_bitboard_same _ _ _ _ hp, Nat.testBit_or, Nat.testBit_two_pow]
    congr 1
    exact decide_eq_decide.mpr ⟨fun h => h.symm, fun h => h.symm⟩
  · intro b1 h
    obtain ⟨hp, _, rfl⟩ := remove_piece_eq _ _ _ _ _ h
    refine ⟨fun j => ?_, fun k c hk => set_bitboard_frame _ _ _ _ _ _ hk, rfl, rfl, rfl, rfl,
      rfl⟩
    rw [get_set_bitboard_same _ _ _ _ hp, Nat.testBit_and, testBit_bnot64, Nat.testBit_two_pow]
    by_cases hj : j < 64
    · have : decide (i = j) = decide (j = i) :=
        decide_eq_decide.mpr ⟨fun h => h.symm, fun h => h.symm⟩
      simp [hj, this]
    · rw [testBit_eq_false_of_bounded _ (hb color piece) j (by omega)]
      simp

/-- Witness for the amended C20: the white queen's bitboard and the square h8 on
`promotion_board`. -/
theorem set_and_remove_piece_on_own_bitboard_witness :
    promotion_board.bounded ∧ 56 < 64 ∧
      ((∃ b1, set_piece promotion_board Piece.QUEEN Color.WHITE (2 ^ 56) = some b1) ↔
        Piece.QUEEN ≠ Piece.NONE ∧
          (get_piece_positions promotion_board Piece.QUEEN Color.WHITE).testBit 56 = false) :=
  ⟨by decide, by decide,
    (set_and_remove_piece_on_own_bitboard promotion_board Piece.QUEEN Color.WHITE 56
      (by decide) (by decide)).1⟩

/-- C21 fails in the code for the rights stack and the history.  `undo_move` asserts a
non-empty vector only before it pops the captured stack; `revert_castle_rights` reads and pops
the back of the rights stack, and `undo_move` pops the history, with no assertion.  After
`execute_move` and `undo_move` of e2-e4 from the start position the stacks are empty again; a
second `undo_move` passes the one assertion before the pop (the flag is not 6 or 7) and then
meets the unguarded pop of the empty rights stack, and so does every `undo_move` whose mover
has an empty rights stack.  An empty captured stack, by contrast, stops at the assertion
(undoing d7-d5 as a capture on `en_passant_board`).  `undo_move_traced` is `undo_move` with
the kind of the first fault recorded. -/
theorem undo_move_pops_rights_stack_unguarded :
    (∃ b1, execute_move starting_board ⟨0x800, 0x8000000, 1⟩ = some b1 ∧
      undo_move b1 ⟨0x800, 0x8000000, 1⟩ = some starting_board) ∧
    undo_move_traced starting_board ⟨0x800, 0x8000000, 1⟩
      = Except.error Fault.undefined_behaviour ∧
    (∀ (b : Board) (m : Move), ¬ (m.flags = 6 ∨ m.flags = 7) →
      b.previous_can_castle_stacks.get (negate_color b.turn_color) = [] →
      undo_move_traced b m = Except.error Fault.undefined_behaviour) ∧
    undo_move_traced en_passant_board ⟨0x10000000000000, 0x1000000000, 4⟩
      = Except.error Fault.assertion ∧
    (∀ (b : Board) (m : Move), (undo_move_traced b m).toOption = undo_move b m) := by
  refine ⟨⟨_, rfl, by decide!⟩, rfl, ?_, rfl, undo_move_traced_toOption⟩
  intro b m hf hs
  unfold undo_move_traced
  simp only [if_neg hf]
  have : revert_castle_rights_traced (set_turn_color b (negate_color b.turn_color))
      (set_turn_color b (negate_color b.turn_color)).turn_color
      = Except.error Fault.undefined_behaviour := by
    unfold revert_castle_rights_traced
    rw [show (set_turn_color b (negate_color b.turn_color)).previous_can_castle_stacks.get
      (set_turn_color b (negate_color b.turn_color)).turn_color = [] from hs]
  rw [this]
  rfl

/-- C22: whenever `execute_move` of a move by the side to move `c` succeeds, the rights stack
of `c` is the old one with one snapshot on top, equal to the rights of `c` before the move,
whatever the flag, and the rights stack of the other colour is unchanged.  For the flags 0-3
and 8-11 both captured stacks are unchanged.  For the flags 4, 5 and 12-15 the captured stack
of `c` is the old one with one kind on top, the kind of the opponent's piece on the capture
square (the destination, or for flag 5 the square behind it); that piece is the one removed,
and the captured stack of the other colour is unchanged.  On a board with 64-bit bitboards
every move that fits the board is executed. -/
theorem execute_move_pushes_snapshot_and_capture (b : Board) (m : Move) :
    (b.bounded → move_fits b m → ∃ b1, execute_move b m = some b1) ∧
    ∀ b1, execute_move b m = some b1 →
      b1.previous_can_castle_stacks.get b.turn_color
        = b.can_castle.get b.turn_color :: b.previous_can_castle_stacks.get b.turn_color ∧
      b1.previous_can_castle_stacks.get (negate_color b.turn_color)
        = b.previous_can_castle_stacks.get (negate_color b.turn_color) ∧
      (m.flags = 0 ∨ m.flags = 1 ∨ m.flags = 2 ∨ m.flags = 3 ∨ (8 ≤ m.flags ∧ m.flags ≤ 11) →
        b1.captured_pieces = b.captured_pieces) ∧
      (m.flags = 4 ∨ m.flags = 5 ∨ (12 ≤ m.flags ∧ m.flags ≤ 15) →
        ∃ sq k,
          sq = (if m.flags = 5 then en_passant_capture_square b m.destination
            else m.destination) ∧
          k = get_piece_at_position b sq (negate_color b.turn_color) ∧ k ≠ Piece.NONE ∧
          b1.captured_pieces.get b.turn_color = k :: b.captured_pieces.get b.turn_color ∧
          b1.captured_pieces.get (negate_color b.turn_color)
            = b.captured_pieces.get (negate_color b.turn_color) ∧
          get_piece_positions b k (negate_color b.turn_color) &&& sq ≠ 0 ∧
          get_piece_positions b1 k (negate_color b.turn_color)
            = get_piece_positions b k (negate_color b.turn_color) &&& bnot64 sq ∧
          ∀ k2, k2 ≠ k → get_piece_positions b1 k2 (negate_color b.turn_color)
            = get_piece_positions b k2 (negate_color b.turn_color)) := by
  refine ⟨fun hb hx => ?_, fun b1 h => ?_⟩
  · obtain ⟨b1, h1, _⟩ := roundtrip_of_move_fits b m hb hx
    exact ⟨b1, h1⟩
  · obtain ⟨h1, h2, _, _, _⟩ := execute_move_stacks b b1 m h
    obtain ⟨hq, hc⟩ := execute_move_captured b b1 m h
    refine ⟨h1, h2, fun hf => (hq hf).1, fun hf => ?_⟩
    obtain ⟨hk, hcap, hbit, hpos, hrest⟩ := hc hf _ rfl _ rfl
    refine ⟨_, _, rfl, rfl, hk, ?_, ?_, hbit, hpos, hrest⟩
    · rw [hcap]
      exact per_color_get_set_same _ _ _
    · rw [hcap]
      exact per_color_get_set_negate _ _ _

/-- Witness for C22: on `bishop_takes_rook_board` the black bishop takes the rook on h1; one
snapshot of Black's rights and the kind `ROOK` are pushed on Black's stacks. -/
theorem execute_move_pushes_snapshot_and_capture_witness :
    bishop_takes_rook_board.bounded ∧
    move_fits bishop_takes_rook_board ⟨0x40000000000000, 0x1, 4⟩ ∧
    ∃ b1, execute_move bishop_takes_rook_board ⟨0x40000000000000, 0x1, 4⟩ = some b1 ∧
      b1.previous_can_castle_stacks.get Color.BLACK = [⟨true, true⟩] ∧
      b1.previous_can_castle_stacks.get Color.WHITE = [] ∧
      b1.captured_pieces.get Color.BLACK = [Piece.ROOK] ∧
      b1.captured_pieces.get Color.WHITE = [] := by
  have h := execute_move_pushes_snapshot_and_capture bishop_takes_rook_board
    ⟨0x40000000000000, 0x1, 4⟩
  obtain ⟨b1, h1⟩ := h.1 (by decide) (by decide)
  obtain ⟨h2, h3, _, h4⟩ := h.2 b1 h1
  obtain ⟨sq, k, hsq, hk, _, h5, h6, _⟩ := h4 (Or.inl rfl)
  have hk2 : k = Piece.ROOK := by
    rw [hk, hsq]
    decide
  rw [hk2] at h5
  exact ⟨by decide, by decide, b1, h1, h2, h3, h5, h6⟩

/-- C23, as stated, fails: on `castle_rook_f1_board` White is to move, its king stands on e1
and a rook on the corner h1, and a second white rook stands on f1.  Executing the castle move
e1-g1 toggles the rook bitboard on h1 and f1: afterwards White has no rook on f1, the square
the table gives, and no rook at all on the kingside. -/
theorem castle_toggles_rook_off_its_landing_square :
    castle_rook_f1_board.turn_color = Color.WHITE ∧ castle_rook_f1_board.bounded ∧
    castle_rook_f1_board.disjoint ∧
    get_piece_positions castle_rook_f1_board Piece.KING Color.WHITE = 0x8 ∧
    get_piece_positions castle_rook_f1_board Piece.ROOK Color.WHITE &&& 0x1 ≠ 0 ∧
    castle_rook_origin_lookup 0x2 = 0x1 ∧ castle_rook_destination_lookup 0x2 = 0x4 ∧
    ∃ b1, execute_move castle_rook_f1_board ⟨0x8, 0x2, 2⟩ = some b1 ∧
      get_piece_positions b1 Piece.KING Color.WHITE = 0x2 ∧
      get_piece_positions b1 Piece.ROOK Color.WHITE &&& 0x4 = 0 ∧
      get_piece_positions b1 Piece.ROOK Color.WHITE = 0 :=
  ⟨rfl, by decide!, by decide!, by decide!, by decide!, by decide!, by decide!, _, rfl,
    by decide!, by decide!, by decide!⟩

/-- C23, amended: let `c` be to move on a board with 64-bit, disjoint bitboards, with its king
on its start square and a rook on the corner of the castling side, and with no king of `c` on
the king's castled square and no rook of `c` on the square the table gives for the rook (as
when the squares between king and rook are empty).  Executing the castle move to the king's
castled square, with flag 2 or 3, succeeds, moves the king to that square and the rook from
its corner to the table's square, changes no other bitboard, and clears both rights of `c`;
`undo_move` restores the board. -/
theorem castle_move_moves_king_and_rook (b : Board) (c : Color) (kingside : Bool) (f : Nat)
    (hturn : b.turn_color = c) (hf : f = 2 ∨ f = 3) (hb : b.bounded) (hd : b.disjoint)
    (hking : get_piece_positions b Piece.KING c &&& king_start c ≠ 0)
    (hrook : get_piece_positions b Piece.ROOK c &&& rook_corner c kingside ≠ 0)
    (hkd : get_piece_positions b Piece.KING c &&& king_castled_square c kingside = 0)
    (hrd : get_piece_positions b Piece.ROOK c &&& rook_castled_square c kingside = 0) :
    castle_rook_origin_lookup (king_castled_square c kingside) = rook_corner c kingside ∧
    castle_rook_destination_lookup (king_castled_square c kingside)
      = rook_castled_square c kingside ∧
    ∃ b1, execute_move b ⟨king_start c, king_castled_square c kingside, f⟩ = some b1 ∧
      undo_move b1 ⟨king_start c, king_castled_square c kingside, f⟩ = some b ∧
      get_piece_positions b1 Piece.KING c
        = (get_piece_positions b Piece.KING c &&& bnot64 (king_start c))
          ||| king_castled_square c kingside ∧
      get_piece_positions b1 Piece.ROOK c
        = (get_piece_positions b Piece.ROOK c &&& bnot64 (rook_corner c kingside))
          ||| rook_castled_square c kingside ∧
      (∀ k col, ¬ (col = c ∧ (k = Piece.KING ∨ k = Piece.ROOK)) →
        get_piece_positions b1 k col = get_piece_positions b k col) ∧
      get_can_castle_king b1 c = false ∧ get_can_castle_queen b1 c = false :=
  ⟨(castle_squares c kingside).2.2.2.2.1, (castle_squares c kingside).2.2.2.2.2,
    execute_castle_spec b c kingside f hturn hf hb hd hking hrook hkd hrd⟩

/-- Witness for the amended C23: White castles queenside on `castle_ready_board`; the king
goes from e1 to c1, the rook from a1 to d1, and both white rights are cleared. -/
theorem castle_move_moves_king_and_rook_witness :
    ∃ b1, execute_move castle_ready_board ⟨0x8, 0x20, 3⟩ = some b1 ∧
      get_piece_positions b1 Piece.KING Color.WHITE = 0x20 ∧
      get_piece_positions b1 Piece.ROOK Color.WHITE = 0x11 ∧
      get_can_castle_king b1 Color.WHITE = false ∧
      get_can_castle_queen b1 Color.WHITE = false := by
  obtain ⟨_, _, b1, h1, _, h3, h4, _, h6, h7⟩ :=
    castle_move_moves_king_and_rook castle_ready_board Color.WHITE false 3 rfl (Or.inr rfl)
      (by decide) (by decide) (by decide) (by decide) (by decide) (by decide)
  refine ⟨b1, h1, ?_, ?_, h6, h7⟩
  · rw [h3]
    decide!
  · rw [h4]
    decide!

/-- C24: let `b` be reached from a board with 64-bit bitboards by a double pawn push of the
side to move `d` (a pawn of `d` on its home rank, the square in between and the destination
empty, flag 1), and let `m` be a move that `add_pseudo_legal_en_passant_moves` appends for the
other colour `c`.  Then `m` has flag 5, its destination is the square the pawn passed over,
and the capture square `execute_move` computes for it (south of the destination for White,
north for Black) is the pushed pawn's square.  Executing `m` succeeds, moves the pawn of `c`
from origin to destination, clears exactly the pushed pawn's bit in the pawns of `d`, changes
no other bitboard, and pushes `PAWN` on the captured stack of `c`. -/
theorem en_passant_takes_the_pushed_pawn (b0 : Board) (push : Move) (hb : b0.bounded)
    (hpush : double_pawn_push b0 push) :
    ∃ b, execute_move b0 push = some b ∧ b.turn_color = negate_color b0.turn_color ∧
      get_last_move b b0.turn_color = some push ∧
      get_piece_positions b Piece.PAWN b0.turn_color &&& push.destination ≠ 0 ∧
      ∀ (moves : List Move) (m : Move),
        m ∈ add_pseudo_legal_en_passant_moves b (negate_color b0.turn_color) moves →
        m ∉ moves →
        m.flags = 5 ∧ is_square m.origin ∧
        get_piece_positions b Piece.PAWN (negate_color b0.turn_color) &&& m.origin ≠ 0 ∧
        m.destination = get_pawn_single_push push.origin b0.turn_color ∧
        en_passant_capture_square b m.destination = push.destination ∧
        ∃ b1, execute_move b m = some b1 ∧
          get_piece_positions b1 Piece.PAWN (negate_color b0.turn_color)
            = (get_piece_positions b Piece.PAWN (negate_color b0.turn_color)
                &&& bnot64 m.origin) ||| m.destination ∧
          get_piece_positions b1 Piece.PAWN b0.turn_color
            = get_piece_positions b Piece.PAWN b0.turn_color &&& bnot64 push.destination ∧
          (∀ k col, k ≠ Piece.PAWN →
            get_piece_positions b1 k col = get_piece_positions b k col) ∧
          b1.captured_pieces.get (negate_color b0.turn_color)
            = Piece.PAWN :: b.captured_pieces.get (negate_color b0.turn_color) :=
  en_passant_after_double_push b0 push hb hpush

/-- Witness for C24: Black pushes d7-d5 on `en_passant_board_before`; the generator then emits
e5-d6 for White, whose capture square is d5, and executing it leaves the white pawn on d6 and
no black pawn. -/
theorem en_passant_takes_the_pushed_pawn_witness :
    en_passant_board_before.bounded ∧
    double_pawn_push en_passant_board_before ⟨0x10000000000000, 0x1000000000, 1⟩ ∧
    execute_move en_passant_board_before ⟨0x10000000000000, 0x1000000000, 1⟩
      = some en_passant_board ∧
    add_pseudo_legal_en_passant_moves en_passant_board Color.WHITE []
      = [⟨0x800000000, 0x100000000000, 5⟩] ∧
    en_passant_capture_square en_passant_board 0x100000000000 = 0x1000000000 ∧
    ∃ b1, execute_move en_passant_board ⟨0x800000000, 0x100000000000, 5⟩ = some b1 ∧
      get_piece_positions b1 Piece.PAWN Color.WHITE = 0x100000000000 ∧
      get_piece_positions b1 Piece.PAWN Color.BLACK = 0 ∧
      b1.captured_pieces.get Color.WHITE = [Piece.PAWN] := by
  obtain ⟨b, h1, _, _, _, h5⟩ :=
    en_passant_takes_the_pushed_pawn en_passant_board_before
      ⟨0x10000000000000, 0x1000000000, 1⟩ (by decide) (by decide!)
  have hb : execute_move en_passant_board_before ⟨0x10000000000000, 0x1000000000, 1⟩
      = some en_passant_board := by decide!
  rw [hb] at h1
  cases h1
  have hgen : add_pseudo_legal_en_passant_moves en_passant_board Color.WHITE []
      = [⟨0x800000000, 0x100000000000, 5⟩] := by decide!
  obtain ⟨_, _, _, _, h6, b1, h7, h8, h9, _, h11⟩ :=
    h5 [] ⟨0x800000000, 0x100000000000, 5⟩
      (by
        rw [show negate_color en_passant_board_before.turn_color = Color.WHITE from rfl, hgen]
        exact List.mem_singleton.mpr rfl)
      (List.not_mem_nil _)
  exact ⟨by decide, by decide!, hb, hgen, h6, b1, h7, h8.trans (by decide!),
    h9.trans (by decide!), h11⟩

/-- C25: on a board with 64-bit, disjoint bitboards let the side to move `c` have a pawn on
the square `o`, and let `m` be a move from `o` to a square `d` with a flag from 8 to 15, `d`
being empty for the flags 8-11 and holding an opponent piece for the flags 12-15.  Then
`execute_move` succeeds; afterwards `c` has no pawn on `o` and has on `d` a piece of the kind
the flag selects (8, 12 knight; 9, 13 bishop; 10, 14 rook; 11, 15 queen); no opponent piece is
left on `d`, and for the flags 12-15 the kind of the defender was pushed on the captured stack
of `c`; and `undo_move` gives back the board as it was: the pawn on `o`, no promoted piece,
the defender of the same kind on `d`. -/
theorem promotion_replaces_pawn_and_undo_restores (b : Board) (m : Move)
    (hb : b.bounded) (hd : b.disjoint)
    (ho : is_square m.origin) (hdst : is_square m.destination)
    (hf : 8 ≤ m.flags ∧ m.flags ≤ 15)
    (hpawn : get_piece_positions b Piece.PAWN b.turn_color &&& m.origin ≠ 0)
    (hquiet : m.flags ≤ 11 → occupancy b &&& m.destination = 0)
    (hcapt : 12 ≤ m.flags →
      get_all_piece_positions b (negate_color b.turn_color) &&& m.destination ≠ 0) :
    get_promotion_piece_from_flags m.flags
      = (if m.flags = 8 ∨ m.flags = 12 then Piece.KNIGHT
         else if m.flags = 9 ∨ m.flags = 13 then Piece.BISHOP
         else if m.flags = 10 ∨ m.flags = 14 then Piece.ROOK
         else Piece.QUEEN) ∧
    ∃ b1, execute_move b m = some b1 ∧
      get_piece_positions b1 Piece.PAWN b.turn_color &&& m.origin = 0 ∧
      get_piece_positions b1 (get_promotion_piece_from_flags m.flags) b.turn_color
        &&& m.destination ≠ 0 ∧
      get_piece_positions b1 Piece.PAWN b.turn_color
        = get_piece_positions b Piece.PAWN b.turn_color &&& bnot64 m.origin ∧
      get_piece_positions b1 (get_promotion_piece_from_flags m.flags) b.turn_color
        = get_piece_positions b (get_promotion_piece_from_flags m.flags) b.turn_color
          ||| m.destination ∧
      get_all_piece_positions b1 (negate_color b.turn_color) &&& m.destination = 0 ∧
      (12 ≤ m.flags →
        get_piece_at_position b m.destination (negate_color b.turn_color) ≠ Piece.NONE ∧
        b1.captured_pieces.get b.turn_color
          = get_piece_at_position b m.destination (negate_color b.turn_color)
            :: b.captured_pieces.get b.turn_color) ∧
      undo_move b1 m = some b := by
  constructor
  · have : m.flags = 8 ∨ m.flags = 9 ∨ m.flags = 10 ∨ m.flags = 11 ∨ m.flags = 12 ∨
        m.flags = 13 ∨ m.flags = 14 ∨ m.flags = 15 := by omega
    rcases this with h | h | h | h | h | h | h | h <;> rw [h] <;> decide
  · obtain ⟨b1, h1, h2, h3, h4, _, h6⟩ :=
      execute_promotion_spec b m hb hd ho hdst hf hpawn hquiet hcapt
    obtain ⟨i, _, hoi⟩ := ho
    obtain ⟨j, _, hdj⟩ := hdst
    refine ⟨b1, h1, ?_, ?_, h3, h4, h6, fun h12 => ?_, h2⟩
    · rw [h3, hoi]
      exact cleared_and _ _
    · rw [h4, hdj]
      exact set_and _ _
    · obtain ⟨hk, hcap, _⟩ :=
        (execute_move_captured b b1 m h1).2 (by omega) _ rfl _ rfl
      rw [if_neg (by omega)] at hk hcap
      refine ⟨hk, ?_⟩
      rw [hcap]
      exact per_color_get_set_same _ _ _

/-- Witness for C25: on `promotion_board` the white pawn on g7 takes the rook on h8 and
becomes a queen (flag 15); `undo_move` restores the board. -/
theorem promotion_replaces_pawn_and_undo_restores_witness :
    ∃ b1, execute_move promotion_board ⟨0x2000000000000, 0x100000000000000, 15⟩ = some b1 ∧
      get_piece_positions b1 Piece.PAWN Color.WHITE &&& 0x2000000000000 = 0 ∧
      get_piece_positions b1 Piece.QUEEN Color.WHITE &&& 0x100000000000000 ≠ 0 ∧
      get_all_piece_positions b1 Color.BLACK &&& 0x100000000000000 = 0 ∧
      b1.captured_pieces.get Color.WHITE = [Piece.ROOK] ∧
      undo_move b1 ⟨0x2000000000000, 0x100000000000000, 15⟩ = some promotion_board := by
  obtain ⟨_, b1, h1, h2, h3, _, _, h6, h7, h8⟩ :=
    promotion_replaces_pawn_and_undo_restores promotion_board
      ⟨0x2000000000000, 0x100000000000000, 15⟩ (by decide) (by decide) (by decide) (by decide)
      (by decide) (by decide) (by decide) (by decide)
  exact ⟨b1, h1, h2, h3, h6, (h7 (by decide)).2, h8⟩

/-- C26 fails in the code: in the start position, whose occupancy is disjoint,
`generate_pseudo_legal_moves` returns for White, the side to move, four knight moves with the
capture flag 4 whose destinations are empty squares; `execute_move` of each of them stops at
the assertion `captured_piece != NONE`. -/
theorem generated_capture_move_aborts_execute :
    starting_board.disjoint ∧ starting_board.turn_color = Color.WHITE ∧
    ∃ ms, generate_pseudo_legal_moves starting_board Color.WHITE = some ms ∧
      (ms.filter fun m => decide (execute_move starting_board m = none)) =
        [⟨0x2, 0x10000, 4⟩, ⟨0x2, 0x40000, 4⟩, ⟨0x40, 0x200000, 4⟩, ⟨0x40, 0x800000, 4⟩] ∧
      (∀ m ∈ ms, m.flags = 4 →
        get_piece_at_position starting_board m.destination Color.BLACK = Piece.NONE) :=
  ⟨by decide!, rfl, _, rfl, by decide!, by decide!⟩

/-- C27 fails in the code: the castle generators build the move with the rook's corner as
destination.  On `castle_ready_board`, whichever squares the path constants contain, the
emitted moves are e1-h1 and e1-a1; neither destination is a key of the castle rook tables,
both tables read 0 there, and `execute_move` of the emitted move puts the king on the rook's
corner and leaves the rook where it is: king and rook stand on the same square. -/
theorem castle_move_targets_rook_corner :
    (∀ P : Fin 16,
      add_legal_kingside_castle_move ⟨P.val, 0, 0, 0⟩ castle_ready_board Color.WHITE []
        = some [⟨0x8, 0x1, 2⟩]) ∧
    (∀ Q : Fin 32,
      add_legal_queenside_castle_move ⟨0, 0, 8 * Q.val, 0⟩ castle_ready_board Color.WHITE []
        = some [⟨0x8, 0x80, 2⟩]) ∧
    castle_rook_origin_lookup 0x1 = 0 ∧ castle_rook_destination_lookup 0x1 = 0 ∧
    castle_rook_origin_lookup 0x80 = 0 ∧ castle_rook_destination_lookup 0x80 = 0 ∧
    (∃ b1, execute_move castle_ready_board ⟨0x8, 0x1, 2⟩ = some b1 ∧
      get_piece_positions b1 Piece.KING Color.WHITE = 0x1 ∧
      get_piece_positions b1 Piece.ROOK Color.WHITE = 0x81) ∧
    (∃ b1, execute_move castle_ready_board ⟨0x8, 0x80, 2⟩ = some b1 ∧
      get_piece_positions b1 Piece.KING Color.WHITE = 0x80 ∧
      get_piece_positions b1 Piece.ROOK Color.WHITE = 0x81) :=
  ⟨by decide!, by decide!, by decide!, by decide!, by decide!, by decide!,
    ⟨_, rfl, by decide!, by decide!⟩, ⟨_, rfl, by decide!, by decide!⟩⟩

set_option maxRecDepth 100000 in
/-- C28 fails in the code: the game 1. g3 b6 2. Bh3 Bb7 3. Nf3 a6 4. Nh4 Bxh1, every move of
which fits its position and is accepted by `is_move_legal`, leads from the start position to
`rook_captured_board`.  There White still holds the kingside right, no white rook stands on
h1, and the kingside generator emits the castle move, whichever squares from e1 to h1 the
path constant contains. -/
theorem castle_emitted_after_rook_was_captured :
    play_legal_moves starting_board rook_capture_line = some rook_captured_board ∧
    get_can_castle_king rook_captured_board Color.WHITE = true ∧
    get_piece_positions rook_captured_board Piece.KING Color.WHITE = 0x8 ∧
    get_piece_positions rook_captured_board Piece.ROOK Color.WHITE &&& 0x1 = 0 ∧
    get_piece_at_position rook_captured_board 0x1 Color.BLACK = Piece.BISHOP ∧
    (∀ P : Fin 16,
      add_legal_kingside_castle_move ⟨P.val, 0, 0, 0⟩ rook_captured_board Color.WHITE []
        = some [⟨0x8, 0x1, 2⟩]) ∧
    (∀ P : Fin 16,
      (add_legal_castle_moves ⟨P.val, 0, 0, 0⟩ rook_captured_board Color.WHITE []).map
        (fun ms => decide ((⟨0x8, 0x1, 2⟩ : Move) ∈ ms)) = some true) := by
  refine ⟨by decide!, by decide!, by decide!, by decide!, by decide!, by decide!, by decide!⟩

/-- C29: whenever `execute_move` of a move by the side to move `c` succeeds, the castling
rights, the rights stack, the captured stack and the move history of the other colour are
what they were before, whatever the move, and so also when it takes a rook of the other
colour on its corner.  On a board with 64-bit bitboards every move that fits the board is
executed. -/
theorem execute_move_leaves_other_colour (b : Board) (m : Move) :
    (b.bounded → move_fits b m → ∃ b1, execute_move b m = some b1) ∧
    ∀ b1, execute_move b m = some b1 →
      b1.can_castle.get (negate_color b.turn_color)
        = b.can_castle.get (negate_color b.turn_color) ∧
      b1.previous_can_castle_stacks.get (negate_color b.turn_color)
        = b.previous_can_castle_stacks.get (negate_color b.turn_color) ∧
      b1.captured_pieces.get (negate_color b.turn_color)
        = b.captured_pieces.get (negate_color b.turn_color) ∧
      b1.moves.get (negate_color b.turn_color) = b.moves.get (negate_color b.turn_color) := by
  refine ⟨fun hb hx => ?_, fun b1 h => ?_⟩
  · obtain ⟨b1, h1, _⟩ := roundtrip_of_move_fits b m hb hx
    exact ⟨b1, h1⟩
  · obtain ⟨_, h2, h3, _, h5⟩ := execute_move_stacks b b1 m h
    obtain ⟨hq, hc⟩ := execute_move_captured b b1 m h
    refine ⟨h3, h2, ?_, h5⟩
    rcases execute_move_flags b b1 m h with hf | hf | hf | hf | hf | hf | hf
    · rw [(hq (by omega)).1]
    · rw [(hq (by omega)).1]
    · rw [(hq (by omega)).1]
    · rw [(hq (by omega)).1]
    · rw [(hc (by omega) _ rfl _ rfl).2.1]
      exact per_color_get_set_negate _ _ _
    · rw [(hc (by omega) _ rfl _ rfl).2.1]
      exact per_color_get_set_negate _ _ _
    · by_cases h12 : 12 ≤ m.flags
      · rw [(hc (by omega) _ rfl _ rfl).2.1]
        exact per_color_get_set_negate _ _ _
      · rw [(hq (by omega)).1]

/-- Witness for C29: on `bishop_takes_rook_board` the black bishop takes the white rook on its
corner h1; White keeps both castling rights, and its stacks and history stay empty. -/
theorem execute_move_leaves_other_colour_witness :
    bishop_takes_rook_board.bounded ∧
    move_fits bishop_takes_rook_board ⟨0x40000000000000, 0x1, 4⟩ ∧
    get_piece_at_position bishop_takes_rook_board 0x1 Color.WHITE = Piece.ROOK ∧
    ∃ b1, execute_move bishop_takes_rook_board ⟨0x40000000000000, 0x1, 4⟩ = some b1 ∧
      get_piece_positions b1 Piece.ROOK Color.WHITE = 0x80 ∧
      b1.can_castle.get Color.WHITE = ⟨true, true⟩ ∧
      b1.previous_can_castle_stacks.get Color.WHITE = [] ∧
      b1.captured_pieces.get Color.WHITE = [] ∧ b1.moves.get Color.WHITE = [] := by
  have h := execute_move_leaves_other_colour bishop_takes_rook_board
    ⟨0x40000000000000, 0x1, 4⟩
  obtain ⟨b1, h1⟩ := h.1 (by decide) (by decide)
  obtain ⟨h2, h3, h4, h5⟩ := h.2 b1 h1
  have hb1 : execute_move bishop_takes_rook_board ⟨0x40000000000000, 0x1, 4⟩
      = some (set_turn_color
        ({ board_of
            { pawn := 0, knight := 0, bishop := 0, rook := 0x80, queen := 0, king := 0x8 }
            { pawn := 0, knight := 0, bishop := 0x1, rook := 0, queen := 0,
              king := 0x800000000000000 } with
          previous_can_castle_stacks := { white := [], black := [⟨true, true⟩] }
          captured_pieces := { white := [], black := [Piece.ROOK] }
          moves := { white := [], black := [⟨0x40000000000000, 0x1, 4⟩] } })
        Color.WHITE) := by decide!
  rw [h1] at hb1
  have hr : get_piece_positions b1 Piece.ROOK Color.WHITE = 0x80 := by
    rw [Option.some.inj hb1]
    rfl
  exact ⟨by decide, by decide, by decide, b1, h1, hr, h2, h3, h4, h5⟩

/-- C30: on a board with disjoint occupancy `generate_pseudo_legal_moves` returns a list for
every colour `c`, and every move in it has a one-hot origin on which a piece of `c` stands and
a one-hot destination, different from the origin, on which no piece of `c` stands.  (The
generator reads the board through its getters only and returns nothing but the list.) -/
theorem generated_moves_are_well_formed (b : Board) (c : Color) (hd : b.disjoint) :
    ∃ ms, generate_pseudo_legal_moves b c = some ms ∧
      ∀ m ∈ ms,
        is_square m.origin ∧ get_all_piece_positions b c &&& m.origin ≠ 0 ∧
        is_square m.destination ∧ m.destination ≠ m.origin ∧
        get_all_piece_positions b c &&& m.destination = 0 :=
  generate_pseudo_legal_moves_well_formed b c hd

/-- Witness for C30: the 24 moves generated for White in the start position. -/
theorem generated_moves_are_well_formed_witness :
    starting_board.disjoint ∧
    ∃ ms, generate_pseudo_legal_moves starting_board Color.WHITE = some ms ∧
      ms.length = 24 ∧
      ∀ m ∈ ms,
        is_square m.origin ∧ get_all_piece_positions starting_board Color.WHITE &&& m.origin ≠ 0 ∧
        is_square m.destination ∧ m.destination ≠ m.origin ∧
        get_all_piece_positions starting_board Color.WHITE &&& m.destination = 0 := by
  obtain ⟨ms, h1, h2⟩ := generated_moves_are_well_formed starting_board Color.WHITE (by decide)
  refine ⟨by decide, ms, h1, ?_, h2⟩
  have h24 : (generate_pseudo_legal_moves starting_board Color.WHITE).map List.length
      = some 24 := by decide!
  rw [h1] at h24
  exact Option.some.inj h24

end Chess
